import Mathlib

/-!
thread-matrix: column-partitioned matrix multiplication (`matrix0.c`)

A shallow embedding of `matrix0.c` and proofs of its partitioning and
multiplication contract.

Modelling conventions.

* A C `int` is an `Int`; every arithmetic result that C stores into an `int`
  is reduced with `wrap32` (two's-complement wraparound, as the program's
  documentation assumes for the multiply-accumulate).
* The three global matrices live in a store indexed by `MatId`; a matrix
  pointer parameter is a `MatId`.  Every subscript is checked against
  `ARRAY_SIZE`: an access outside the array has no defined behaviour and
  makes the embedded function return `none`.
* Everything the program does to its environment (console lines, lock and
  unlock, matrix reads and writes, allocation, thread creation and join,
  shell commands) is appended to the `trace` of the state, in program order.
* A `for` loop over an `int` counter is `forLoop`, which re-evaluates the loop
  condition before every iteration; its fuel is the trip count of the loop.
-/

set_option linter.constructorNameAsVariable false

namespace ThreadMatrix

/-! ## Data model -/

/-- The constant `ARRAY_SIZE` : each matrix is `ARRAY_SIZE x ARRAY_SIZE`. -/
def ARRAY_SIZE : Int := 10000

/-- The largest value of a C `int`. -/
def INT_MAX : Int := 2147483647

/-- The smallest value of a C `int`. -/
def INT_MIN : Int := -2147483648

/-- Two's-complement reduction of an exact integer into the range of a 32-bit
signed `int`. -/
def wrap32 (x : Int) : Int := (x + 2147483648) % 4294967296 - 2147483648

/-- The type `matrix_t` : a two-dimensional array of `int`, read through its
subscripts (bounds are enforced by `State.load` and `State.store`). -/
abbrev matrix_t : Type := Int → Int → Int

/-- The three global matrices `MA`, `MB`, `MC`; a value of this type is a
pointer to one of them. -/
inductive MatId where
  | MA
  | MB
  | MC
  deriving DecidableEq

/-- The struct `package_t` handed to each worker (the mutex pointer is omitted:
there is a single global mutex). -/
structure package_t where
  id : Int
  size : Int
  start_col : Int
  end_col : Int
  MA : MatId
  MB : MatId
  MC : MatId
  deriving DecidableEq

/-- The lines the program prints on standard output. -/
inductive Line where
  /-- Line `Usage: %s <N> <M>`. -/
  | usage
  /-- Line `Invalid input. N must be a multiple of M, and both should be within bounds.` -/
  | invalid_input
  /-- Line `Thread %d: Computing columns %d to %d`. -/
  | computing (id start_col end_col : Int)
  /-- Line `Thread %lu updates MC(%d,%d) set to be %d`. -/
  | updates (self : Nat) (row col val : Int)
  /-- Line `Thread %d: Completed columns %d to %d`. -/
  | completed (id start_col end_col : Int)
  /-- Line `Resulting matrix MC:`. -/
  | header
  /-- One field `%5d ` of the result dump. -/
  | cell (val : Int)
  /-- The line break that ends a row of the result dump. -/
  | newline
  deriving DecidableEq

/-- The two shell command lines passed to `system`. -/
inductive Command where
  /-- Command `date; hostname; who | grep htt190001; ps -eaf; ls -l`. -/
  | inspect
  /-- Command `who > week10who.txt`. -/
  | who_snapshot
  deriving DecidableEq

/-- Everything the program does that is visible outside the running function. -/
inductive Event where
  | print (l : Line)
  | lock
  | unlock
  | read (m : MatId) (row col : Int)
  | write (m : MatId) (row col val : Int)
  | malloc_threads (n : Int)
  | malloc_packages (n : Int)
  | mutex_init
  | create (i : Int) (tid : Option Nat)
  | join (tid : Nat)
  | system (c : Command)
  | free_threads
  | free_packages
  | mutex_destroy
  deriving DecidableEq

/-- The global state: the contents of the three matrices and the trace of
events so far, oldest first. -/
structure State where
  mem : MatId → matrix_t
  trace : List Event

/-- Append one event to the trace. -/
def State.emit (s : State) (e : Event) : State :=
  { s with trace := s.trace ++ [e] }

/-- A subscript pair is inside a `matrix_t`. -/
def inBounds (row col : Int) : Prop :=
  0 ≤ row ∧ row < ARRAY_SIZE ∧ 0 ≤ col ∧ col < ARRAY_SIZE

instance (row col : Int) : Decidable (inBounds row col) := by
  unfold inBounds; infer_instance

/-- Read `m[row][col]`. -/
def State.load (s : State) (m : MatId) (row col : Int) : Option (Int × State) :=
  if inBounds row col then some (s.mem m row col, s.emit (.read m row col)) else none

/-- The store after `m[row][col] = val`. -/
def setCell (mem : MatId → matrix_t) (m : MatId) (row col val : Int) : MatId → matrix_t :=
  fun m1 r c => if m1 = m ∧ r = row ∧ c = col then val else mem m1 r c

/-- Write `m[row][col] = val`. -/
def State.store (s : State) (m : MatId) (row col val : Int) : Option State :=
  if inBounds row col then
    some { mem := setCell s.mem m row col val, trace := s.trace ++ [.write m row col val] }
  else none

/-- A loop `for (i = start; cond(i); i++) body(i)` over an `int` counter that the
body does not assign.  The condition is evaluated before every iteration;
incrementing the counter past `INT_MAX` has no defined behaviour.  The fuel
bounds the number of iterations. -/
def forLoop {σ : Type} (cond : Int → Bool) (body : Int → σ → Option σ) :
    Nat → Int → σ → Option σ
  | 0, i, s => if cond i then none else some s
  | fuel + 1, i, s =>
    if cond i then
      match body i s with
      | none => none
      | some s1 => if i < INT_MAX then forLoop cond body fuel (i + 1) s1 else none
    else some s

/-! ## The kernel `multiply` -/

/-- The statement `MC[row][col] += MA[row][k] * MB[k][col];`. -/
def multiply_acc (MA MB MC : MatId) (row col k : Int) (s : State) : Option State := do
  let (a, s1) ← s.load MA row k
  let (b, s2) ← s1.load MB k col
  let (c, s3) ← s2.load MC row col
  s3.store MC row col (wrap32 (c + wrap32 (a * b)))

/-- The body of the `row` loop of `multiply` (source lines 53 to 60): clear the
cell, accumulate the dot product, then print the progress line under the
mutex. -/
def multiply_cell (self : Nat) (size : Int) (MA MB MC : MatId) (col row : Int)
    (s : State) : Option State := do
  let s1 ← s.store MC row col 0
  let s2 ← forLoop (fun k => decide (k < size)) (multiply_acc MA MB MC row col) size.toNat 0 s1
  let s3 := s2.emit .lock
  let (v, s4) ← s3.load MC row col
  let s5 := s4.emit (.print (.updates self row col v))
  some (s5.emit .unlock)

/-- The body of the `col` loop of `multiply`: the `row` loop. -/
def multiply_col (self : Nat) (size : Int) (MA MB MC : MatId) (col : Int)
    (s : State) : Option State :=
  forLoop (fun row => decide (row < size)) (multiply_cell self size MA MB MC col) size.toNat 0 s

/-- The function `multiply(size, start_col, end_col, MA, MB, MC, mutex)`, run by
the thread `self` (the value of `pthread_self()`). -/
def multiply (self : Nat) (size start_col end_col : Int) (MA MB MC : MatId)
    (s : State) : Option State :=
  forLoop (fun col => decide (col ≤ end_col)) (multiply_col self size MA MB MC)
    (end_col + 1 - start_col).toNat start_col s

/-- The function `mult_worker`, run by the thread `self` on the package `p`. -/
def mult_worker (self : Nat) (p : package_t) (s : State) : Option State := do
  let s1 := s.emit (.print (.computing p.id p.start_col p.end_col))
  let s2 ← multiply self p.size p.start_col p.end_col p.MA p.MB p.MC s1
  some (s2.emit (.print (.completed p.id p.start_col p.end_col)))


/-! ## The function `main` -/

/-- The state of `main` : the global state together with the two heap arrays
`threads` and `packages` (their allocated length, `none` before `malloc`, and
their elements, `none` while an element is indeterminate). -/
structure Proc where
  g : State
  threads_len : Option Int
  threads : Int → Option Nat
  packages_len : Option Int
  packages : Int → Option package_t

/-- The C operator `a % b` on `int` : undefined for `b = 0` and for
`INT_MIN % -1`, otherwise the remainder of the division truncated towards
zero. -/
def c_mod (a b : Int) : Option Int :=
  if b = 0 then none else if a = INT_MIN ∧ b = -1 then none else some (Int.tmod a b)

/-- The C operator `a / b` on `int` : undefined for `b = 0` and for
`INT_MIN / -1`, otherwise the quotient truncated towards zero. -/
def c_div (a b : Int) : Option Int :=
  if b = 0 then none else if a = INT_MIN ∧ b = -1 then none else some (Int.tdiv a b)

/-- The validation `N < 1 || N > ARRAY_SIZE || M < 1 || M > N || N % M != 0` of
`main`, with the left-to-right short circuit of `||` : the remainder is only
evaluated when the four comparisons before it are false. -/
def main_invalid (N M : Int) : Option Bool :=
  if N < 1 then some true
  else if N > ARRAY_SIZE then some true
  else if M < 1 then some true
  else if M > N then some true
  else (c_mod N M).map (fun r => decide (r ≠ 0))

/-- The body of the initialisation loops of `main` :
`MA[row][col] = 1; MB[row][col] = col + 1;`. -/
def main_init_cell (row col : Int) (s : State) : Option State := do
  let s1 ← s.store .MA row col 1
  s1.store .MB row col (wrap32 (col + 1))

/-- The initialisation loops of `main` (source lines 103 to 108). -/
def main_init (N : Int) (s : State) : Option State :=
  forLoop (fun row => decide (row < N))
    (fun row s1 => forLoop (fun col => decide (col < N)) (main_init_cell row) N.toNat 0 s1)
    N.toNat 0 s

/-- The assignment `packages[i] = p` (the eight field assignments of source
lines 117 to 124 taken together). -/
def Proc.set_package (p : Proc) (i : Int) (pk : package_t) : Option Proc :=
  match p.packages_len with
  | none => none
  | some n =>
    if 0 ≤ i ∧ i < n then
      some { p with packages := fun j => if j = i then some pk else p.packages j }
    else none

/-- The call `pthread_create(&threads[i], NULL, mult_worker, &packages[i])`, whose
result `main` does not look at.  The outcome of the creation is `spawn i` :
`some tid` when a thread with identity `tid` is created, `none` when the
creation fails; a failed creation leaves `threads[i]` indeterminate.  In this
sequential run the created worker executes `mult_worker` to completion at
once. -/
def Proc.pthread_create (p : Proc) (spawn : Int → Option Nat) (i : Int) : Option Proc :=
  match p.threads_len, p.packages_len with
  | some n, some n1 =>
    if 0 ≤ i ∧ i < n ∧ i < n1 then
      match spawn i with
      | none => some { p with g := p.g.emit (.create i none) }
      | some tid =>
        match p.packages i with
        | none => none
        | some pk =>
          match mult_worker tid pk (p.g.emit (.create i (some tid))) with
          | none => none
          | some g1 =>
            some { p with g := g1, threads := fun j => if j = i then some tid else p.threads j }
    else none
  | _, _ => none

/-- The package stored into `packages[i]` by iteration `i` of the creation loop
(source lines 114 to 124): `start_col = i * col_per_thread` and
`end_col = (i + 1) * col_per_thread - 1` in `int` arithmetic. -/
def main_package (N col_per_thread i : Int) : package_t :=
  { id := i, size := N, start_col := wrap32 (i * col_per_thread),
    end_col := wrap32 (wrap32 (wrap32 (i + 1) * col_per_thread) - 1),
    MA := .MA, MB := .MB, MC := .MC }

/-- The body of the creation loop of `main` (source lines 114 to 126). -/
def main_create (N col_per_thread : Int) (spawn : Int → Option Nat) (i : Int)
    (p : Proc) : Option Proc := do
  let p1 ← p.set_package i (main_package N col_per_thread i)
  p1.pthread_create spawn i

/-- The body of the join loop of `main` : `pthread_join(threads[i], NULL)`.  A
join on an indeterminate thread handle has no defined behaviour. -/
def main_join (i : Int) (p : Proc) : Option Proc :=
  match p.threads_len with
  | none => none
  | some n =>
    if 0 ≤ i ∧ i < n then
      match p.threads i with
      | none => none
      | some tid => some { p with g := p.g.emit (.join tid) }
    else none

/-- The statement `printf("%5d ", MC[row][col]);` of the result dump. -/
def main_dump_cell (row col : Int) (s : State) : Option State := do
  let (v, s1) ← s.load .MC row col
  some (s1.emit (.print (.cell v)))

/-- One row of the result dump: the `col` loop and the line break. -/
def main_dump_row (N row : Int) (s : State) : Option State := do
  let s1 ← forLoop (fun col => decide (col < N)) (main_dump_cell row) N.toNat 0 s
  some (s1.emit (.print .newline))

/-- The result dump of `main` (source lines 134 to 140). -/
def main_dump (N : Int) (s : State) : Option State :=
  forLoop (fun row => decide (row < N)) (main_dump_row N) N.toNat 0 (s.emit (.print .header))

/-- The state of `main` once `threads` and `packages` have been allocated with
`M` elements each, all of them still indeterminate, over the global state `g`. -/
def Proc.alloc (M : Int) (g : State) : Proc :=
  { g := g, threads_len := some M, threads := fun _ => none,
    packages_len := some M, packages := fun _ => none }

/-- Source lines 94 to 111 of `main` : the two allocations (assumed to
succeed), `col_per_thread = N / M`, the initialisation of `MA` and `MB`, and
the initialisation of the mutex.  Returns `col_per_thread` and the state. -/
def main_setup (N M : Int) (s : State) : Option (Int × Proc) := do
  let s1 := (s.emit (.malloc_threads M)).emit (.malloc_packages M)
  let col_per_thread ← c_div N M
  let s2 ← main_init N s1
  some (col_per_thread, Proc.alloc M (s2.emit .mutex_init))

/-- The creation loop of `main` (source lines 113 to 127). -/
def main_create_all (N M col_per_thread : Int) (spawn : Int → Option Nat) (p : Proc) :
    Option Proc :=
  forLoop (fun i => decide (i < M)) (main_create N col_per_thread spawn) M.toNat 0 p

/-- The join loop of `main` (source lines 129 to 131). -/
def main_join_all (M : Int) (p : Proc) : Option Proc :=
  forLoop (fun i => decide (i < M)) main_join M.toNat 0 p

/-- Source lines 94 to 127 of `main` : everything up to the end of the creation
loop. -/
def main_spawn (N M : Int) (spawn : Int → Option Nat) (s : State) : Option Proc := do
  let (col_per_thread, p) ← main_setup N M s
  main_create_all N M col_per_thread spawn p

/-- Source lines 129 to 150 of `main` : the joins, the result dump, the two
shell commands and the release of the resources; the value is the exit
status and the final global state. -/
def main_finish (N M : Int) (p : Proc) : Option (Int × State) := do
  let p1 ← main_join_all M p
  let s1 ← main_dump N p1.g
  let s2 := (s1.emit (.system .inspect)).emit (.system .who_snapshot)
  some (0, ((s2.emit .free_threads).emit .free_packages).emit .mutex_destroy)

/-- The function `main`.  `argc` is the argument count, `N` and `M` are the
values `atoi(argv[1])` and `atoi(argv[2])`, `spawn` is the outcome of each
thread creation; the value is the exit status and the final global state. -/
def main (argc N M : Int) (spawn : Int → Option Nat) (s : State) : Option (Int × State) :=
  if argc ≠ 3 then some (1, s.emit (.print .usage))
  else
    match main_invalid N M with
    | none => none
    | some true => some (1, s.emit (.print .invalid_input))
    | some false =>
      match main_spawn N M spawn s with
      | none => none
      | some p => main_finish N M p

/-- The exact dot product of row `row` of `A` and column `col` of `B` over the
indices `0 .. size - 1`. -/
def dotProduct (size : Int) (A B : matrix_t) (row col : Int) : Int :=
  ∑ k in Finset.Ico 0 size, A row k * B k col

/-- A sample global state: `MA` all ones, `MB[r][c] = c + 1`, every cell of `MC`
holding 99, and an empty trace. -/
def exampleState : State :=
  { mem := fun m _ c =>
      match m with
      | .MA => 1
      | .MB => c + 1
      | .MC => 99,
    trace := [] }

/-- The package of worker `i` written with exact integer arithmetic:
`start_col = i * col_per_thread` and `end_col = (i + 1) * col_per_thread - 1`. -/
def work_item (N col_per_thread i : Int) : package_t :=
  { id := i, size := N, start_col := i * col_per_thread,
    end_col := (i + 1) * col_per_thread - 1, MA := .MA, MB := .MB, MC := .MC }

/-- The loop invariant of the creation loop before iteration `i`, relative to
the store `g0` at the start of the loop: both arrays have `M` elements,
`packages[j]` and `threads[j]` are set for `j < i`, `threads[j]` is still
indeterminate for `j >= i`, and the columns below
`i * col_per_thread` whose worker was created hold their dot products while
every other cell is as in `g0`. -/
def CreateInv (N M col_per_thread : Int) (spawn : Int → Option Nat)
    (g0 : MatId → matrix_t) (i : Int) (p : Proc) : Prop :=
  p.threads_len = some M ∧ p.packages_len = some M ∧
  (∀ j, 0 ≤ j → j < i → p.packages j = some (work_item N col_per_thread j)) ∧
  (∀ j, 0 ≤ j → j < i → p.threads j = spawn j) ∧
  (∀ j, i ≤ j → p.threads j = none) ∧
  (∀ m r c, p.g.mem m r c =
    if m = .MC ∧ 0 ≤ r ∧ r < N ∧ 0 ≤ c ∧ c < i * col_per_thread ∧
        (spawn (c / col_per_thread)).isSome = true then
      wrap32 (dotProduct N (g0 .MA) (g0 .MB) r c)
    else g0 m r c)

/-- The events of the `col` loop of the result dump for the first `n` columns of
row `row` : each cell is read and printed. -/
def dump_cells (MC : matrix_t) (row : Int) : Nat → List Event
  | 0 => []
  | n + 1 => dump_cells MC row n ++ [.read .MC row n, .print (.cell (MC row n))]

/-- The events of the result dump for the first `n` rows of an `N x N` matrix:
the cells of each row in order, then the line break. -/
def dump_rows (MC : matrix_t) (N : Int) : Nat → List Event
  | 0 => []
  | n + 1 => dump_rows MC N n ++ (dump_cells MC n N.toNat ++ [.print .newline])

/-- The events of a complete dump of the `N x N` matrix `MC` : the header line,
then the rows `0 .. N - 1` in order. -/
def result_dump (N : Int) (MC : matrix_t) : List Event :=
  .print .header :: dump_rows MC N N.toNat

/-- A sample outcome of the thread creations: every creation succeeds and the
thread created for worker `i` has identity `i + 10`. -/
def exampleSpawn : Int → Option Nat := fun i => some (i.toNat + 10)

/-- A sample outcome of the thread creations in which the creation of worker 0
fails and every other creation succeeds with thread identity 11. -/
def exampleSpawnFailure : Int → Option Nat := fun i => if i = 0 then none else some 11

/-! ## Interleaved execution of `main` and the workers

The sequential `main` above runs every worker to completion at the moment it
is created.  The definitions below run the same statements one at a time
under an arbitrary schedule: a step is one statement of one thread. -/

/-- The control points of a worker thread inside `mult_worker` and `multiply`. -/
inductive Pc where
  /-- Before line 72, the `Computing` line. -/
  | start
  /-- At the test `col <= end_col` of line 51. -/
  | col_test (col : Int)
  /-- At the test `row < size` of line 52. -/
  | row_test (col row : Int)
  /-- At the test `k < size` of line 54. -/
  | k_test (col row k : Int)
  /-- Before `pthread_mutex_lock` of line 58. -/
  | lock (col row : Int)
  /-- Before the `printf` of line 59, holding the mutex. -/
  | report (col row : Int)
  /-- Before `pthread_mutex_unlock` of line 60. -/
  | unlock (col row : Int)
  /-- Before line 75, the `Completed` line. -/
  | finish
  /-- After `return NULL`. -/
  | done
  deriving DecidableEq

/-- A worker thread: its identity, the package it was given, and its control
point. -/
structure Thread where
  self : Nat
  pk : package_t
  pc : Pc

/-- The control points of `main` between line 113 and line 134. -/
inductive MainPc where
  /-- At the test `i < M` of the creation loop (line 113). -/
  | create (i : Int)
  /-- At the test `i < M` of the join loop (line 129). -/
  | join (i : Int)
  /-- At line 134, where the result dump begins. -/
  | dump
  deriving DecidableEq

/-- The state of the running program: the global state, the holder of the
mutex (a worker index), the control point of `main`, and the worker threads
created so far, by worker index. -/
structure Sys where
  g : State
  mutex : Option Int
  main : MainPc
  workers : Int → Option Thread

/-- One statement of worker `i`.  A worker waiting for the mutex, or one that
has returned, does not move. -/
def Thread.step (i : Int) (t : Thread) (mutex : Option Int) (g : State) :
    Option (Thread × Option Int × State) :=
  match t.pc with
  | .start =>
    some ({ t with pc := .col_test t.pk.start_col }, mutex,
      g.emit (.print (.computing t.pk.id t.pk.start_col t.pk.end_col)))
  | .col_test col =>
    if col ≤ t.pk.end_col then some ({ t with pc := .row_test col 0 }, mutex, g)
    else some ({ t with pc := .finish }, mutex, g)
  | .row_test col row =>
    if row < t.pk.size then
      match g.store t.pk.MC row col 0 with
      | none => none
      | some g1 => some ({ t with pc := .k_test col row 0 }, mutex, g1)
    else if col < INT_MAX then some ({ t with pc := .col_test (col + 1) }, mutex, g)
    else none
  | .k_test col row k =>
    if k < t.pk.size then
      match multiply_acc t.pk.MA t.pk.MB t.pk.MC row col k g with
      | none => none
      | some g1 =>
        if k < INT_MAX then some ({ t with pc := .k_test col row (k + 1) }, mutex, g1)
        else none
    else some ({ t with pc := .lock col row }, mutex, g)
  | .lock col row =>
    match mutex with
    | none => some ({ t with pc := .report col row }, some i, g.emit .lock)
    | some _ => some (t, mutex, g)
  | .report col row =>
    match g.load t.pk.MC row col with
    | none => none
    | some (v, g1) =>
      some ({ t with pc := .unlock col row }, mutex,
        g1.emit (.print (.updates t.self row col v)))
  | .unlock col row =>
    if row < INT_MAX then
      some ({ t with pc := .row_test col (row + 1) }, none, g.emit .unlock)
    else none
  | .finish =>
    some ({ t with pc := .done }, mutex,
      g.emit (.print (.completed t.pk.id t.pk.start_col t.pk.end_col)))
  | .done => some (t, mutex, g)

/-- One statement of `main` between line 113 and line 134: an iteration of the
creation loop (the package is stored and the thread created, at its first
control point), or an iteration of the join loop.  `pthread_join` returns
only when the joined worker has returned: until then `main` does not move.
A join on an indeterminate handle has no defined behaviour.  At line 134
this part of `main` is over. -/
def Sys.main_step (N M col_per_thread : Int) (spawn : Int → Option Nat) (sys : Sys) :
    Option Sys :=
  match sys.main with
  | .create i =>
    if i < M then
      match spawn i with
      | none =>
        if i < INT_MAX then
          some { sys with g := sys.g.emit (.create i none), main := .create (i + 1) }
        else none
      | some tid =>
        if i < INT_MAX then
          some { sys with
            g := sys.g.emit (.create i (some tid)), main := .create (i + 1),
            workers := fun j =>
              if j = i then
                some { self := tid, pk := main_package N col_per_thread i, pc := .start }
              else sys.workers j }
        else none
    else some { sys with main := .join 0 }
  | .join i =>
    if i < M then
      match sys.workers i with
      | none => none
      | some t =>
        if t.pc = .done then
          if i < INT_MAX then
            some { sys with g := sys.g.emit (.join t.self), main := .join (i + 1) }
          else none
        else some sys
    else some { sys with main := .dump }
  | .dump => some sys

/-- One step of the program: `none` schedules `main`, `some i` schedules worker
`i` (nothing happens when that worker does not exist). -/
def Sys.step (N M col_per_thread : Int) (spawn : Int → Option Nat) (sys : Sys)
    (who : Option Int) : Option Sys :=
  match who with
  | none => sys.main_step N M col_per_thread spawn
  | some i =>
    match sys.workers i with
    | none => some sys
    | some t =>
      match t.step i sys.mutex sys.g with
      | none => none
      | some (t1, mutex1, g1) =>
        some { sys with
          g := g1, mutex := mutex1,
          workers := fun j => if j = i then some t1 else sys.workers j }

/-- The run of the program under a schedule, a list of choices of `Sys.step`. -/
def Sys.run (N M col_per_thread : Int) (spawn : Int → Option Nat) :
    List (Option Int) → Sys → Option Sys
  | [], sys => some sys
  | who :: rest, sys =>
    match sys.step N M col_per_thread spawn who with
    | none => none
    | some sys1 => Sys.run N M col_per_thread spawn rest sys1

/-- The program at line 113, over the global state `g` : no worker exists and
the mutex is free. -/
def Sys.init (g : State) : Sys :=
  { g := g, mutex := none, main := .create 0, workers := fun _ => none }

/-- A sample schedule for two workers: `main` creates both workers, the workers
then take turns for 24 rounds (a worker that waits for the mutex or has
returned lets its turn pass), and `main` runs the join loop. -/
def exampleSchedule : List (Option Int) :=
  [none, none, none] ++ (List.replicate 24 [some 0, some 1]).flatten ++ [none, none, none]

/-- The position of a worker at a control point, as a pair `(col, row)` : the
cells of its column range that precede `(col, row)`, columns first, are the
ones it has completed.  `lo` and `hi` are its first and last column. -/
def Pc.pos (lo hi : Int) : Pc → Int × Int
  | .start => (lo, 0)
  | .col_test col => (col, 0)
  | .row_test col row => (col, row)
  | .k_test col row _ => (col, row)
  | .lock col row => (col, row + 1)
  | .report col row => (col, row + 1)
  | .unlock col row => (col, row + 1)
  | .finish => (hi + 1, 0)
  | .done => (hi + 1, 0)

/-- The bounds that the loop counters of a worker satisfy at a control point. -/
def Pc.wf (lo hi N : Int) : Pc → Prop
  | .start => True
  | .col_test col => lo ≤ col ∧ col ≤ hi + 1
  | .row_test col row => lo ≤ col ∧ col ≤ hi ∧ 0 ≤ row ∧ row ≤ N
  | .k_test col row k => lo ≤ col ∧ col ≤ hi ∧ 0 ≤ row ∧ row < N ∧ 0 ≤ k ∧ k ≤ N
  | .lock col row => lo ≤ col ∧ col ≤ hi ∧ 0 ≤ row ∧ row < N
  | .report col row => lo ≤ col ∧ col ≤ hi ∧ 0 ≤ row ∧ row < N
  | .unlock col row => lo ≤ col ∧ col ≤ hi ∧ 0 ≤ row ∧ row < N
  | .finish => True
  | .done => True

/-- The invariant of worker `i` : it runs on the work item of index `i`, its
counters are in range, every cell of `MC` before its position holds the
wrapped dot product of `A0` and `B0`, and inside the `k` loop the current
cell holds the wrapped partial sum. -/
def ThreadInv (N cpt : Int) (A0 B0 : matrix_t) (i : Int) (t : Thread)
    (mem : MatId → matrix_t) : Prop :=
  t.pk = work_item N cpt i ∧
  Pc.wf (i * cpt) ((i + 1) * cpt - 1) N t.pc ∧
  (∀ r c, 0 ≤ r → r < N → i * cpt ≤ c →
    (c < (t.pc.pos (i * cpt) ((i + 1) * cpt - 1)).1 ∨
      (c = (t.pc.pos (i * cpt) ((i + 1) * cpt - 1)).1 ∧
        r < (t.pc.pos (i * cpt) ((i + 1) * cpt - 1)).2)) →
    mem .MC r c = wrap32 (dotProduct N A0 B0 r c)) ∧
  (∀ col row k, t.pc = .k_test col row k →
    mem .MC row col = wrap32 (dotProduct k A0 B0 row col))

/-- The invariant of `main` : in the join loop every worker below the loop
counter has returned; at line 134 all `M` workers have returned. -/
def MainInv (M : Int) (sys : Sys) : Prop :=
  match sys.main with
  | .create j => 0 ≤ j ∧ j ≤ M
  | .join j => 0 ≤ j ∧ j ≤ M ∧
      ∀ i, 0 ≤ i → i < j → ∃ t, sys.workers i = some t ∧ t.pc = .done
  | .dump => ∀ i, 0 ≤ i → i < M → ∃ t, sys.workers i = some t ∧ t.pc = .done

/-- The invariant of the running program: `MA` and `MB` are `A0` and `B0`, every
existing worker has an index in `0 .. M - 1` and satisfies `ThreadInv`, and
`main` satisfies `MainInv`. -/
def SysInv (N M cpt : Int) (A0 B0 : matrix_t) (sys : Sys) : Prop :=
  sys.g.mem .MA = A0 ∧ sys.g.mem .MB = B0 ∧
  (∀ i t, sys.workers i = some t → 0 ≤ i ∧ i < M ∧ ThreadInv N cpt A0 B0 i t sys.g.mem) ∧
  MainInv M sys

/-- Worker `i`, scheduled alone from `sys` for some number of steps, arrives at
the control point `pc` with the mutex free, and nothing else has moved:
`main` and every other worker are where they were. -/
def SoloReach (N M cpt : Int) (spawn : Int → Option Nat) (i : Int) (self : Nat)
    (pk : package_t) (sys : Sys) (pc : Pc) : Prop :=
  ∃ n sys1, Sys.run N M cpt spawn (List.replicate n (some i)) sys = some sys1 ∧
    sys1.main = sys.main ∧ sys1.mutex = none ∧
    (∀ j, j ≠ i → sys1.workers j = sys.workers j) ∧
    sys1.workers i = some { self := self, pk := pk, pc := pc }

/-- The events of the first `n` iterations of the `k` loop for the cell
`(row, col)` : each iteration reads `MA[row][k]`, `MB[k][col]` and `MC[row][col]`
and writes the next wrapped partial sum of `A` and `B` into `MC[row][col]`. -/
def acc_events (MA MB MC : MatId) (A B : matrix_t) (row col : Int) : Nat → List Event
  | 0 => []
  | n + 1 => acc_events MA MB MC A B row col n ++
      [.read MA row n, .read MB n col, .read MC row col,
        .write MC row col (wrap32 (dotProduct (n + 1) A B row col))]

/-- The events of one iteration of the `row` loop, for the cell `(row, col)` : the
cell is cleared, the `k` loop runs, and the progress line with the completed
value is printed between `lock` and `unlock`. -/
def cell_events (self : Nat) (size : Int) (MA MB MC : MatId) (A B : matrix_t)
    (col row : Int) : List Event :=
  .write MC row col 0 :: acc_events MA MB MC A B row col size.toNat ++
    [.lock, .read MC row col,
      .print (.updates self row col (wrap32 (dotProduct size A B row col))), .unlock]

/-- The events of the first `n` iterations of the `row` loop for column `col`. -/
def col_events (self : Nat) (size : Int) (MA MB MC : MatId) (A B : matrix_t) (col : Int) :
    Nat → List Event
  | 0 => []
  | n + 1 => col_events self size MA MB MC A B col n ++
      cell_events self size MA MB MC A B col n

/-- The events of the first `n` iterations of the `col` loop of `multiply`,
columns `start_col .. start_col + n - 1`, each with all its rows. -/
def multiply_events (self : Nat) (size : Int) (MA MB MC : MatId) (A B : matrix_t)
    (start_col : Int) : Nat → List Event
  | 0 => []
  | n + 1 => multiply_events self size MA MB MC A B start_col n ++
      col_events self size MA MB MC A B (start_col + n) size.toNat

/-- The progress line carried by an event, if it prints one. -/
def Event.progress : Event → Option Line
  | .print (.updates self row col val) => some (.updates self row col val)
  | _ => none

/-- The progress lines among a list of events, in the order of the trace. -/
def progress_records (t : List Event) : List Line :=
  t.filterMap Event.progress

/-- An event is part of the arithmetic on the cell `MC[row][col]` : a read of a
matrix cell, or a write to `MC[row][col]`. -/
def Event.arith_on (MC : MatId) (row col : Int) : Event → Prop
  | .read _ _ _ => True
  | .write m r c _ => m = MC ∧ r = row ∧ c = col
  | _ => False

/-- Scan a trace for its critical sections.  The first argument is `none` while
the mutex is free and `some cur` while it is held, `cur` being the events
seen since the `lock`.  The result is the list of the event sequences found
between each `lock` and the following `unlock`, in order.  The scan fails
when a `lock` occurs while the mutex is held, an `unlock` while it is free, a
progress line while it is free, or when the trace ends with the mutex
held. -/
def critical_scan : Option (List Event) → List Event → Option (List (List Event))
  | none, [] => some []
  | some _, [] => none
  | none, .lock :: es => critical_scan (some []) es
  | none, .unlock :: _ => none
  | none, .print (.updates _ _ _ _) :: _ => none
  | none, _ :: es => critical_scan none es
  | some _, .lock :: _ => none
  | some cur, .unlock :: es => (critical_scan none es).map (fun rest => cur :: rest)
  | some cur, e :: es => critical_scan (some (cur ++ [e])) es

/-- The critical sections of a trace that starts with the mutex free. -/
def critical_sections (t : List Event) : Option (List (List Event)) :=
  critical_scan none t

/-! ## The events of a run of `main` -/

/-- The events of the first `n` iterations of the inner initialisation loop for
row `row` : `MA[row][col] = 1` and `MB[row][col] = col + 1`. -/
def init_row_events (row : Int) : Nat → List Event
  | 0 => []
  | n + 1 => init_row_events row n ++ [.write .MA row n 1, .write .MB row n (n + 1)]

/-- The events of the first `n` rows of the initialisation of an `N x N` matrix. -/
def init_events (N : Int) : Nat → List Event
  | 0 => []
  | n + 1 => init_events N n ++ init_row_events n N.toNat

/-- The events of iteration `i` of the creation loop: the creation and, when it
succeeds, the whole output of the worker, which runs on the columns
`i * cpt .. (i + 1) * cpt - 1` of an `N x N` product of `A` and `B`. -/
def worker_events (N cpt : Int) (spawn : Int → Option Nat) (A B : matrix_t) (i : Int) :
    List Event :=
  match spawn i with
  | none => [.create i none]
  | some tid =>
    [.create i (some tid), .print (.computing i (i * cpt) ((i + 1) * cpt - 1))] ++
      multiply_events tid N .MA .MB .MC A B (i * cpt) cpt.toNat ++
      [.print (.completed i (i * cpt) ((i + 1) * cpt - 1))]

/-- The events of the first `n` iterations of the creation loop. -/
def create_events (N cpt : Int) (spawn : Int → Option Nat) (A B : matrix_t) :
    Nat → List Event
  | 0 => []
  | n + 1 => create_events N cpt spawn A B n ++ worker_events N cpt spawn A B n

/-- The events of the first `n` iterations of the join loop. -/
def join_events (spawn : Int → Option Nat) : Nat → List Event
  | 0 => []
  | n + 1 => join_events spawn n ++
      (match spawn n with
       | none => []
       | some tid => [.join tid])

/-- The events of a complete run of `main` on a valid configuration `(N, M)`, where
`A`, `B` are the initialised `MA`, `MB` and `C` is the final `MC`. -/
def main_events (N M : Int) (spawn : Int → Option Nat) (A B C : matrix_t) : List Event :=
  [.malloc_threads M, .malloc_packages M] ++ init_events N N.toNat ++ [.mutex_init] ++
    create_events N (N / M) spawn A B M.toNat ++ join_events spawn M.toNat ++
    result_dump N C ++
    [.system .inspect, .system .who_snapshot, .free_threads, .free_packages, .mutex_destroy]

/-- The event records the successful creation of a worker thread. -/
def Event.is_created : Event → Bool
  | .create _ (some _) => true
  | _ => false

/-- The event prints a worker-start line `Thread %d: Computing columns ...`. -/
def Event.is_start : Event → Bool
  | .print (.computing _ _ _) => true
  | _ => false

/-- The event prints a worker-completion line `Thread %d: Completed columns ...`. -/
def Event.is_completion : Event → Bool
  | .print (.completed _ _ _) => true
  | _ => false

/-- The event prints a per-cell progress line `Thread %lu updates MC(...)`. -/
def Event.is_progress : Event → Bool
  | .print (.updates _ _ _ _) => true
  | _ => false

/-- The numbers of thread creations, worker-start lines, worker-completion
lines and progress lines in a list of events. -/
def tally (t : List Event) : Nat × Nat × Nat × Nat :=
  (t.countP Event.is_created, t.countP Event.is_start, t.countP Event.is_completion,
    t.countP Event.is_progress)

/-- The subscripts an event uses are inside the arrays: a matrix access has
both subscripts in `[0, ARRAY_SIZE)`, and a thread creation, which uses
`threads[i]` and `packages[i]`, has `i` in `[0, M)`. -/
def Event.index_ok (M : Int) : Event → Prop
  | .read _ row col => inBounds row col
  | .write _ row col _ => inBounds row col
  | .create i _ => 0 ≤ i ∧ i < M
  | _ => True

/-! ## Theorems -/
theorem wrap32_of_range (x : Int) (h1 : INT_MIN ≤ x) (h2 : x ≤ INT_MAX) : wrap32 x = x := by
  unfold wrap32; unfold INT_MIN at h1; unfold INT_MAX at h2
  omega

theorem wrap32_add_wrap32 (a b : Int) : wrap32 (wrap32 a + wrap32 b) = wrap32 (a + b) := by
  unfold wrap32; omega

theorem wrap32_range (x : Int) : INT_MIN ≤ wrap32 x ∧ wrap32 x ≤ INT_MAX := by
  unfold wrap32 INT_MIN INT_MAX; omega

theorem forLoop_skip {σ : Type} (cond : Int → Bool) (body : Int → σ → Option σ)
    (fuel : Nat) (i : Int) (s : σ) (h : cond i = false) :
    forLoop cond body fuel i s = some s := by
  cases fuel <;> simp [forLoop, h]

theorem forLoop_total {σ : Type} (cond : Int → Bool) (body : Int → σ → Option σ)
    (I : Int → σ → Prop) (a n : Int) (hcond : ∀ i, cond i = true ↔ i < n)
    (hn : n ≤ INT_MAX)
    (hstep : ∀ i s, a ≤ i → i < n → I i s → ∃ s1, body i s = some s1 ∧ I (i + 1) s1) :
    ∀ (fuel : Nat) (i : Int) (s : σ), a ≤ i → i ≤ n → fuel = (n - i).toNat → I i s →
      ∃ s1, forLoop cond body fuel i s = some s1 ∧ I n s1 := by
  intro fuel
  induction fuel with
  | zero =>
    intro i s _ hin hf hI
    have hi : i = n := by omega
    subst hi
    have hc : cond i = false := by
      cases h : cond i with
      | false => rfl
      | true => exact absurd ((hcond i).1 h) (lt_irrefl _)
    exact ⟨s, by simp [forLoop, hc], hI⟩
  | succ fuel ih =>
    intro i s hai hin hf hI
    have hlt : i < n := by omega
    have hc : cond i = true := (hcond i).2 hlt
    obtain ⟨s1, hb, hI1⟩ := hstep i s hai hlt hI
    obtain ⟨s2, h2, hI2⟩ := ih (i + 1) s1 (by omega) (by omega) (by omega) hI1
    refine ⟨s2, ?_, hI2⟩
    have hmax : i < INT_MAX := by omega
    simp [forLoop, hc, hb, hmax, h2]

theorem forLoop_inv {σ : Type} (cond : Int → Bool) (body : Int → σ → Option σ)
    (I : Int → σ → Prop)
    (hstep : ∀ i s s1, cond i = true → I i s → body i s = some s1 → I (i + 1) s1) :
    ∀ (fuel : Nat) (i : Int) (s s1 : σ), I i s → forLoop cond body fuel i s = some s1 →
      ∃ j, i ≤ j ∧ cond j = false ∧ I j s1 := by
  intro fuel
  induction fuel with
  | zero =>
    intro i s s1 hI h
    cases hc : cond i with
    | true => simp [forLoop, hc] at h
    | false =>
      simp [forLoop, hc] at h
      subst h
      exact ⟨i, le_refl _, hc, hI⟩
  | succ fuel ih =>
    intro i s s1 hI h
    cases hc : cond i with
    | false =>
      simp [forLoop, hc] at h
      subst h
      exact ⟨i, le_refl _, hc, hI⟩
    | true =>
      simp only [forLoop, hc, if_true] at h
      cases hb : body i s with
      | none => simp [hb] at h
      | some s2 =>
        simp only [hb] at h
        by_cases hmax : i < INT_MAX
        · simp only [hmax, if_true] at h
          obtain ⟨j, hj, hcj, hIj⟩ := ih (i + 1) s2 s1 (hstep i s s2 hc hI hb) h
          exact ⟨j, by omega, hcj, hIj⟩
        · simp [hmax] at h


theorem dotProduct_succ (k : Int) (hk : 0 ≤ k) (A B : matrix_t) (row col : Int) :
    dotProduct (k + 1) A B row col = dotProduct k A B row col + A row k * B k col := by
  unfold dotProduct
  have h : Finset.Ico (0 : Int) (k + 1) = insert k (Finset.Ico (0 : Int) k) := by
    ext x
    simp only [Finset.mem_Ico, Finset.mem_insert]
    omega
  rw [h, Finset.sum_insert (by simp), add_comm]

theorem dotProduct_zero (A B : matrix_t) (row col : Int) : dotProduct 0 A B row col = 0 := by
  simp [dotProduct]

theorem multiply_acc_eq (MA MB MC : MatId) (row col k : Int) (s : State)
    (h1 : inBounds row k) (h2 : inBounds k col) (h3 : inBounds row col) :
    multiply_acc MA MB MC row col k s = some
      { mem := setCell s.mem MC row col
          (wrap32 (s.mem MC row col + wrap32 (s.mem MA row k * s.mem MB k col))),
        trace := s.trace ++ [.read MA row k, .read MB k col, .read MC row col,
          .write MC row col
            (wrap32 (s.mem MC row col + wrap32 (s.mem MA row k * s.mem MB k col)))] } := by
  simp [multiply_acc, State.load, State.store, State.emit, h1, h2, h3]

theorem setCell_setCell (mem : MatId → matrix_t) (m : MatId) (row col v w : Int) :
    setCell (setCell mem m row col v) m row col w = setCell mem m row col w := by
  funext m1 r c
  unfold setCell
  split_ifs <;> rfl

theorem setCell_same (mem : MatId → matrix_t) (m : MatId) (row col v : Int) :
    setCell mem m row col v m row col = v := by
  simp [setCell]

theorem setCell_other (mem : MatId → matrix_t) (m m1 : MatId) (row col v r c : Int)
    (h : m1 ≠ m) : setCell mem m row col v m1 r c = mem m1 r c := by
  simp [setCell, h]

/-- The `k` loop of `multiply` leaves the wrapped dot product in `MC[row][col]`. -/
theorem multiply_kloop (MA MB MC : MatId) (hA : MA ≠ MC) (hB : MB ≠ MC) (size row col : Int)
    (hs0 : 0 ≤ size) (hs : size ≤ ARRAY_SIZE) (hb : inBounds row col) (s : State) (v : Int) :
    ∃ s1, forLoop (fun k => decide (k < size)) (multiply_acc MA MB MC row col) size.toNat 0
        { mem := setCell s.mem MC row col 0, trace := s.trace ++ [.write MC row col v] }
        = some s1 ∧
      s1.mem = setCell s.mem MC row col
        (wrap32 (dotProduct size (s.mem MA) (s.mem MB) row col)) := by
  have hsz : size ≤ INT_MAX := by unfold ARRAY_SIZE at hs; unfold INT_MAX; omega
  refine forLoop_total _ _
    (fun k (st : State) => st.mem = setCell s.mem MC row col
      (wrap32 (dotProduct k (s.mem MA) (s.mem MB) row col)))
    0 size (by intro i; simp) hsz ?_ size.toNat 0 _ (le_refl _) hs0 (by simp) ?_
  · intro k st hk0 hk hI
    have b1 : inBounds row k := by unfold inBounds at *; omega
    have b2 : inBounds k col := by unfold inBounds at *; omega
    refine ⟨_, multiply_acc_eq MA MB MC row col k st b1 b2 hb, ?_⟩
    simp only [hI, setCell_setCell, setCell_same, setCell_other _ _ _ _ _ _ _ _ hA,
      setCell_other _ _ _ _ _ _ _ _ hB, dotProduct_succ k hk0]
    rw [wrap32_add_wrap32]
  · show setCell s.mem MC row col 0 = _
    simp [dotProduct_zero, wrap32]

/-- One execution of the body of the `row` loop stores the wrapped dot product
in `MC[row][col]` and changes no other cell. -/
theorem multiply_cell_spec (self : Nat) (MA MB MC : MatId) (hA : MA ≠ MC) (hB : MB ≠ MC)
    (size col row : Int) (hs : size ≤ ARRAY_SIZE) (hr0 : 0 ≤ row) (hr : row < size)
    (hc0 : 0 ≤ col) (hc : col < ARRAY_SIZE) (s : State) :
    ∃ s1, multiply_cell self size MA MB MC col row s = some s1 ∧
      s1.mem = setCell s.mem MC row col
        (wrap32 (dotProduct size (s.mem MA) (s.mem MB) row col)) := by
  have hb : inBounds row col := by unfold inBounds; omega
  obtain ⟨s1, h1, hm⟩ := multiply_kloop MA MB MC hA hB size row col (by omega) hs hb s 0
  simp [multiply_cell, State.store, State.load, State.emit, hb, h1, hm]

/-- The `row` loop for one column fills that column of `MC`, rows `0 .. size - 1`. -/
theorem multiply_col_spec (self : Nat) (MA MB MC : MatId) (hA : MA ≠ MC) (hB : MB ≠ MC)
    (size col : Int) (hs : size ≤ ARRAY_SIZE) (hc0 : 0 ≤ col) (hc : col < ARRAY_SIZE)
    (s : State) :
    ∃ s1, multiply_col self size MA MB MC col s = some s1 ∧
      s1.mem = fun m r c =>
        if m = MC ∧ c = col ∧ 0 ≤ r ∧ r < size then
          wrap32 (dotProduct size (s.mem MA) (s.mem MB) r c)
        else s.mem m r c := by
  unfold multiply_col
  by_cases h0 : 0 < size
  · have hsz : size ≤ INT_MAX := by unfold ARRAY_SIZE at hs; unfold INT_MAX; omega
    refine forLoop_total _ _
      (fun row (st : State) => st.mem = fun m r c =>
        if m = MC ∧ c = col ∧ 0 ≤ r ∧ r < row then
          wrap32 (dotProduct size (s.mem MA) (s.mem MB) r c)
        else s.mem m r c)
      0 size (by intro i; simp) hsz ?_ size.toNat 0 s (le_refl _) (by omega) (by simp) ?_
    · intro row st hr0 hr hI
      obtain ⟨s1, h1, hm⟩ := multiply_cell_spec self MA MB MC hA hB size col row hs hr0 hr hc0 hc st
      refine ⟨s1, h1, ?_⟩
      have eA : st.mem MA = s.mem MA := by
        rw [hI]; funext r c; simp [hA]
      have eB : st.mem MB = s.mem MB := by
        rw [hI]; funext r c; simp [hB]
      show s1.mem = _
      rw [hm, eA, eB, hI]
      funext m r c
      unfold setCell
      beta_reduce
      by_cases h1 : m = MC ∧ r = row ∧ c = col
      · obtain ⟨rfl, rfl, rfl⟩ := h1
        have : r < r + 1 := by omega
        simp [hr0, this]
      · rw [if_neg h1]
        by_cases h2 : m = MC ∧ c = col ∧ 0 ≤ r ∧ r < row
        · have h3 : m = MC ∧ c = col ∧ 0 ≤ r ∧ r < row + 1 := by
            refine ⟨h2.1, h2.2.1, h2.2.2.1, ?_⟩; omega
          rw [if_pos h2, if_pos h3]
        · have h3 : ¬ (m = MC ∧ c = col ∧ 0 ≤ r ∧ r < row + 1) := by
            rintro ⟨a, b, c1, d⟩
            by_cases e : r = row
            · exact h1 ⟨a, e, b⟩
            · exact h2 ⟨a, b, c1, by omega⟩
          rw [if_neg h2, if_neg h3]
    · funext m r c
      have : ¬ (m = MC ∧ c = col ∧ 0 ≤ r ∧ r < 0) := by rintro ⟨_, _, _, _⟩; omega
      rw [if_neg this]
  · refine ⟨s, forLoop_skip _ _ _ _ _ (by simp; omega), ?_⟩
    funext m r c
    have : ¬ (m = MC ∧ c = col ∧ 0 ≤ r ∧ r < size) := by rintro ⟨_, _, _, _⟩; omega
    rw [if_neg this]

/-- The effect of `multiply` on the store: the cells of `MC` in rows
`0 .. size - 1` and columns `start_col .. end_col` receive the wrapped dot
products, every other cell of the three matrices keeps its value. -/
theorem multiply_spec (self : Nat) (MA MB MC : MatId) (hA : MA ≠ MC) (hB : MB ≠ MC)
    (size start_col end_col : Int) (hs : size ≤ ARRAY_SIZE) (h0 : 0 ≤ start_col)
    (he : end_col < ARRAY_SIZE) (s : State) :
    ∃ s1, multiply self size start_col end_col MA MB MC s = some s1 ∧
      s1.mem = fun m r c =>
        if m = MC ∧ start_col ≤ c ∧ c ≤ end_col ∧ 0 ≤ r ∧ r < size then
          wrap32 (dotProduct size (s.mem MA) (s.mem MB) r c)
        else s.mem m r c := by
  unfold multiply
  by_cases hse : start_col ≤ end_col + 1
  · have hmx : end_col + 1 ≤ INT_MAX := by unfold ARRAY_SIZE at he; unfold INT_MAX; omega
    obtain ⟨s1, h1, hm⟩ := forLoop_total (fun col => decide (col ≤ end_col))
      (multiply_col self size MA MB MC)
      (fun col (st : State) => st.mem = fun m r c =>
        if m = MC ∧ start_col ≤ c ∧ c < col ∧ 0 ≤ r ∧ r < size then
          wrap32 (dotProduct size (s.mem MA) (s.mem MB) r c)
        else s.mem m r c)
      start_col (end_col + 1) (by intro i; simp; omega) hmx
      (by
        intro col st hc0 hc hI
        obtain ⟨s1, h1, hm⟩ := multiply_col_spec self MA MB MC hA hB size col hs
          (by omega) (by omega) st
        refine ⟨s1, h1, ?_⟩
        have eA : st.mem MA = s.mem MA := by
          rw [hI]; funext r c; simp [hA]
        have eB : st.mem MB = s.mem MB := by
          rw [hI]; funext r c; simp [hB]
        show s1.mem = _
        rw [hm, eA, eB, hI]
        funext m r c
        beta_reduce
        by_cases h1 : m = MC ∧ c = col ∧ 0 ≤ r ∧ r < size
        · have h3 : m = MC ∧ start_col ≤ c ∧ c < col + 1 ∧ 0 ≤ r ∧ r < size := by
            refine ⟨h1.1, ?_, ?_, h1.2.2.1, h1.2.2.2⟩ <;> omega
          rw [if_pos h1, if_pos h3]
        · rw [if_neg h1]
          by_cases h2 : m = MC ∧ start_col ≤ c ∧ c < col ∧ 0 ≤ r ∧ r < size
          · have h3 : m = MC ∧ start_col ≤ c ∧ c < col + 1 ∧ 0 ≤ r ∧ r < size := by
              refine ⟨h2.1, h2.2.1, ?_, h2.2.2.2.1, h2.2.2.2.2⟩; omega
            rw [if_pos h2, if_pos h3]
          · have h3 : ¬ (m = MC ∧ start_col ≤ c ∧ c < col + 1 ∧ 0 ≤ r ∧ r < size) := by
              rintro ⟨a, b, c1, d, e⟩
              by_cases e1 : c = col
              · exact h1 ⟨a, e1, d, e⟩
              · exact h2 ⟨a, b, by omega, d, e⟩
            rw [if_neg h2, if_neg h3])
      (end_col + 1 - start_col).toNat start_col s (le_refl _) hse rfl
      (by
        funext m r c
        have : ¬ (m = MC ∧ start_col ≤ c ∧ c < start_col ∧ 0 ≤ r ∧ r < size) := by
          rintro ⟨_, _, _, _, _⟩; omega
        rw [if_neg this])
    refine ⟨s1, h1, ?_⟩
    rw [hm]
    funext m r c
    simp only [Int.lt_add_one_iff]
  · refine ⟨s, forLoop_skip _ _ _ _ _ (by simp; omega), ?_⟩
    funext m r c
    have : ¬ (m = MC ∧ start_col ≤ c ∧ c ≤ end_col ∧ 0 ≤ r ∧ r < size) := by
      rintro ⟨_, _, _, _, _⟩; omega
    rw [if_neg this]

/-- Any defined execution of the accumulate statement changes the store at
`MC[row][col]` only. -/
theorem multiply_acc_writes (MA MB MC : MatId) (row col k : Int) (s s1 : State)
    (h : multiply_acc MA MB MC row col k s = some s1) :
    ∃ v, s1.mem = setCell s.mem MC row col v := by
  unfold multiply_acc State.load State.store at h
  by_cases h1 : inBounds row k
  · by_cases h2 : inBounds k col
    · by_cases h3 : inBounds row col
      · simp [h1, h2, h3, State.emit] at h
        exact ⟨_, by rw [← h]⟩
      · simp [h1, h2, h3] at h
    · simp [h1, h2] at h
  · simp [h1] at h

/-- Any defined execution of the body of the `row` loop changes the store at
`MC[row][col]` only, and that subscript is inside the array. -/
theorem multiply_cell_writes (self : Nat) (size : Int) (MA MB MC : MatId) (col row : Int)
    (s s1 : State) (h : multiply_cell self size MA MB MC col row s = some s1) :
    ∃ v, s1.mem = setCell s.mem MC row col v := by
  unfold multiply_cell at h
  by_cases hb : inBounds row col
  · simp only [State.store, hb, if_true, Option.bind_eq_bind, Option.some_bind] at h
    cases hl : forLoop (fun k => decide (k < size)) (multiply_acc MA MB MC row col)
        size.toNat 0
        { mem := setCell s.mem MC row col 0, trace := s.trace ++ [.write MC row col 0] } with
    | none => simp [hl] at h
    | some s2 =>
      obtain ⟨j, _, _, v, hv⟩ := forLoop_inv _ _
        (fun _ (st : State) => ∃ v, st.mem = setCell s.mem MC row col v)
        (by
          intro i st st1 _ hI hb1
          obtain ⟨v, hv⟩ := hI
          obtain ⟨w, hw⟩ := multiply_acc_writes MA MB MC row col i st st1 hb1
          exact ⟨w, by rw [hw, hv, setCell_setCell]⟩)
        size.toNat 0 _ s2 ⟨0, rfl⟩ hl
      simp [hl, State.load, State.emit, hb] at h
      exact ⟨v, by rw [← h]; exact hv⟩
  · simp [State.store, hb] at h

/-- Any defined execution of `multiply` leaves every cell outside rows
`0 .. size - 1` and columns `start_col .. end_col` of `MC` as it was. -/
theorem multiply_writes (self : Nat) (size start_col end_col : Int) (MA MB MC : MatId)
    (s s1 : State) (h : multiply self size start_col end_col MA MB MC s = some s1) :
    ∀ m r c, ¬ (m = MC ∧ start_col ≤ c ∧ c ≤ end_col ∧ 0 ≤ r ∧ r < size) →
      s1.mem m r c = s.mem m r c := by
  unfold multiply at h
  obtain ⟨j, _, _, _, hI⟩ := forLoop_inv _ _
    (fun col (st : State) => start_col ≤ col ∧
      ∀ m r c, ¬ (m = MC ∧ start_col ≤ c ∧ c ≤ end_col ∧ 0 ≤ r ∧ r < size) →
        st.mem m r c = s.mem m r c)
    (by
      intro col st st1 hc hI hb
      refine ⟨by omega, ?_⟩
      have hce : col ≤ end_col := by simpa using hc
      unfold multiply_col at hb
      obtain ⟨j, _, _, _, hJ⟩ := forLoop_inv _ _
        (fun row (st2 : State) => 0 ≤ row ∧
          ∀ m r c, ¬ (m = MC ∧ start_col ≤ c ∧ c ≤ end_col ∧ 0 ≤ r ∧ r < size) →
            st2.mem m r c = s.mem m r c)
        (by
          intro row st2 st3 hr hI2 hb2
          refine ⟨by omega, ?_⟩
          have hrs : row < size := by simpa using hr
          obtain ⟨v, hv⟩ := multiply_cell_writes self size MA MB MC col row st2 st3 hb2
          intro m r c hout
          rw [hv, ← hI2.2 m r c hout]
          unfold setCell
          have : ¬ (m = MC ∧ r = row ∧ c = col) := by
            rintro ⟨a, b, c1⟩
            exact hout ⟨a, by omega, by omega, by omega, by omega⟩
          rw [if_neg this])
        size.toNat 0 st st1 ⟨le_refl _, hI.2⟩ hb
      exact hJ)
    _ start_col s s1 ⟨le_refl _, fun _ _ _ _ => rfl⟩ h
  exact hI

/-- C1: for `0 <= start_col <= end_col < size <= ARRAY_SIZE`, whatever the three
matrices hold before the call, `multiply` returns, and afterwards every cell
`MC[r][c]` with `0 <= r < size` and `start_col <= c <= end_col` holds the sum over
`k = 0 .. size - 1` of `MA[r][k] * MB[k][c]` reduced into the signed 32-bit
range: it is `wrap32` of the exact sum, lies between `INT_MIN` and `INT_MAX`,
and differs from the exact sum by a multiple of `2^32`.  The value does not
depend on the earlier content of `MC`. -/
theorem multiply_computes_product (self : Nat) (size start_col end_col : Int) (s : State)
    (h0 : 0 ≤ start_col) (_h1 : start_col ≤ end_col) (h2 : end_col < size)
    (h3 : size ≤ ARRAY_SIZE) :
    ∃ s1, multiply self size start_col end_col .MA .MB .MC s = some s1 ∧
      ∀ r c, 0 ≤ r → r < size → start_col ≤ c → c ≤ end_col →
        s1.mem .MC r c = wrap32 (∑ k in Finset.Ico 0 size, s.mem .MA r k * s.mem .MB k c) ∧
        INT_MIN ≤ s1.mem .MC r c ∧ s1.mem .MC r c ≤ INT_MAX ∧
        (4294967296 : Int) ∣
          s1.mem .MC r c - ∑ k in Finset.Ico 0 size, s.mem .MA r k * s.mem .MB k c := by
  obtain ⟨s1, hs1, hm⟩ := multiply_spec self .MA .MB .MC (by decide) (by decide)
    size start_col end_col h3 h0 (by omega) s
  refine ⟨s1, hs1, ?_⟩
  intro r c hr0 hr hc0 hc
  have hv : s1.mem .MC r c
      = wrap32 (∑ k in Finset.Ico 0 size, s.mem .MA r k * s.mem .MB k c) := by
    rw [hm]
    have : MatId.MC = MatId.MC ∧ start_col ≤ c ∧ c ≤ end_col ∧ 0 ≤ r ∧ r < size :=
      ⟨rfl, hc0, hc, hr0, hr⟩
    simp only [this, and_self, if_true, dotProduct]
  refine ⟨hv, ?_, ?_, ?_⟩
  · rw [hv]; exact (wrap32_range _).1
  · rw [hv]; exact (wrap32_range _).2
  · rw [hv]; unfold wrap32; omega

/-- Witness of C1: the call `multiply(2, 0, 1, MA, MB, MC)` on the sample state. -/
theorem multiply_computes_product_witness :
    ((0 : Int) ≤ 0 ∧ (0 : Int) ≤ 1 ∧ (1 : Int) < 2 ∧ (2 : Int) ≤ ARRAY_SIZE) ∧
    ∃ s1, multiply 7 2 0 1 .MA .MB .MC exampleState = some s1 ∧
      ∀ r c, 0 ≤ r → r < 2 → 0 ≤ c → c ≤ 1 →
        s1.mem .MC r c
          = wrap32 (∑ k in Finset.Ico 0 2, exampleState.mem .MA r k * exampleState.mem .MB k c) ∧
        INT_MIN ≤ s1.mem .MC r c ∧ s1.mem .MC r c ≤ INT_MAX ∧
        (4294967296 : Int) ∣
          s1.mem .MC r c
            - ∑ k in Finset.Ico 0 2, exampleState.mem .MA r k * exampleState.mem .MB k c :=
  ⟨by decide, multiply_computes_product 7 2 0 1 exampleState (by decide) (by decide)
    (by decide) (by decide)⟩

/-- A loop whose condition holds from `a` up to `b` and whose body has no defined
result at `b` has no defined result, whatever the fuel. -/
theorem forLoop_fail {σ : Type} (cond : Int → Bool) (body : Int → σ → Option σ) (b : Int)
    (hfail : ∀ st, body b st = none) :
    ∀ (fuel : Nat) (a : Int) (s : σ), a ≤ b → (∀ i, a ≤ i → i ≤ b → cond i = true) →
      forLoop cond body fuel a s = none := by
  intro fuel
  induction fuel with
  | zero =>
    intro a s hab hc
    simp [forLoop, hc a (le_refl _) hab]
  | succ n ih =>
    intro a s hab hc
    simp only [forLoop, hc a (le_refl _) hab, if_true]
    cases hb : body a s with
    | none => rfl
    | some s1 =>
      have hne : a ≠ b := by
        intro h
        rw [h, hfail] at hb
        cases hb
      by_cases hmx : a < INT_MAX
      · simp only [hmx, if_true]
        exact ih (a + 1) s1 (by omega) (fun i h1 h2 => hc i (by omega) h2)
      · simp only [hmx, if_false]

/-- The body of the `row` loop has no defined result on a cell outside `MC` : its
first statement is the store `MC[row][col] = 0`. -/
theorem multiply_cell_outside (self : Nat) (size : Int) (MA MB MC : MatId) (col row : Int)
    (hb : ¬ inBounds row col) (s : State) :
    multiply_cell self size MA MB MC col row s = none := by
  simp [multiply_cell, State.store, hb]

/-- A call of `multiply` with at least one row and one column whose subscripts do
not all stay inside the arrays has no defined result. -/
theorem multiply_outside (self : Nat) (size start_col end_col : Int) (MA MB MC : MatId)
    (s : State) (hsz : 1 ≤ size) (hne : start_col ≤ end_col)
    (hout : ¬ (0 ≤ start_col ∧ end_col < ARRAY_SIZE ∧ size ≤ ARRAY_SIZE)) :
    multiply self size start_col end_col MA MB MC s = none := by
  have hA : ARRAY_SIZE = 10000 := rfl
  unfold multiply
  by_cases h0 : start_col < 0
  · refine forLoop_fail _ _ start_col ?_ _ _ _ (le_refl _) (fun i h1 h2 => by simp; omega)
    intro st
    exact forLoop_fail _ _ 0
      (fun st1 => multiply_cell_outside self size MA MB MC start_col 0
        (by rintro ⟨_, _, _, _⟩; omega) st1)
      _ _ _ (le_refl _) (fun i h1 h2 => by simp; omega)
  · by_cases hs : ARRAY_SIZE < size
    · refine forLoop_fail _ _ start_col ?_ _ _ _ (le_refl _) (fun i h1 h2 => by simp; omega)
      intro st
      exact forLoop_fail _ _ ARRAY_SIZE
        (fun st1 => multiply_cell_outside self size MA MB MC start_col ARRAY_SIZE
          (by rintro ⟨_, _, _, _⟩; omega) st1)
        _ _ _ (by omega) (fun i h1 h2 => by simp; omega)
    · have he : ARRAY_SIZE ≤ end_col := by
        by_contra h
        exact hout ⟨by omega, by omega, by omega⟩
      refine forLoop_fail _ _ (max start_col ARRAY_SIZE) ?_ _ _ _ (le_max_left _ _)
        (fun i h1 h2 => by
          have := max_le hne he
          simp; omega)
      intro st
      exact forLoop_fail _ _ 0
        (fun st1 => multiply_cell_outside self size MA MB MC (max start_col ARRAY_SIZE) 0
          (by
            rintro ⟨_, _, _, h⟩
            have := le_max_right start_col ARRAY_SIZE
            omega) st1)
        _ _ _ (le_refl _) (fun i h1 h2 => by simp; omega)

/-- C10, as stated, fails on the code: the claim ranges over every `size`,
`start_col` and `end_col`, but `multiply` does not test its arguments.  The call
`multiply(2, -1, 0, MA, MB, MC, mutex)` begins with the store `MC[0][-1] = 0`, whose
subscript pair is outside `MC` : the store, the first iteration of the `row` loop
and the whole call have no defined result, so nothing bounds what the call
modifies. -/
theorem multiply_subscript_outside_array :
    ¬ inBounds 0 (-1) ∧
    exampleState.store .MC 0 (-1) 0 = none ∧
    multiply_cell 7 2 .MA .MB .MC (-1) 0 exampleState = none ∧
    multiply 7 2 (-1) 0 .MA .MB .MC exampleState = none := by
  refine ⟨by decide, rfl, rfl, rfl⟩

/-- C10 amended: `multiply` writes only inside its assigned column range on the
calls whose subscripts stay inside the arrays.  When `0 <= start_col`,
`end_col < ARRAY_SIZE` and `size <= ARRAY_SIZE`, for every initial state the call
`multiply(size, start_col, end_col, MA, MB, MC, mutex)` returns, every cell
`MC[r][c]` with `c < start_col` or `c > end_col` or `r >= size` or `r < 0` has the
value it had before the call, and no cell of `MA` or `MB` is modified.  These
bounds are exact: a call with at least one row and one column that violates
one of them subscripts outside an array and has no defined result.  A call
with no row or no column satisfies the same frame whenever it returns. -/
theorem multiply_frame (self : Nat) (size start_col end_col : Int) (s : State) :
    (0 ≤ start_col → end_col < ARRAY_SIZE → size ≤ ARRAY_SIZE →
      ∃ s1, multiply self size start_col end_col .MA .MB .MC s = some s1 ∧
        (∀ r c, c < start_col ∨ end_col < c ∨ size ≤ r ∨ r < 0 →
          s1.mem .MC r c = s.mem .MC r c) ∧
        (∀ r c, s1.mem .MA r c = s.mem .MA r c) ∧
        (∀ r c, s1.mem .MB r c = s.mem .MB r c)) ∧
    (1 ≤ size → start_col ≤ end_col →
      ¬ (0 ≤ start_col ∧ end_col < ARRAY_SIZE ∧ size ≤ ARRAY_SIZE) →
      multiply self size start_col end_col .MA .MB .MC s = none) ∧
    (∀ s1, multiply self size start_col end_col .MA .MB .MC s = some s1 →
      (∀ r c, c < start_col ∨ end_col < c ∨ size ≤ r ∨ r < 0 →
        s1.mem .MC r c = s.mem .MC r c) ∧
      (∀ r c, s1.mem .MA r c = s.mem .MA r c) ∧
      (∀ r c, s1.mem .MB r c = s.mem .MB r c)) := by
  have hframe : ∀ s1, multiply self size start_col end_col .MA .MB .MC s = some s1 →
      (∀ r c, c < start_col ∨ end_col < c ∨ size ≤ r ∨ r < 0 →
        s1.mem .MC r c = s.mem .MC r c) ∧
      (∀ r c, s1.mem .MA r c = s.mem .MA r c) ∧
      (∀ r c, s1.mem .MB r c = s.mem .MB r c) := by
    intro s1 h
    have hw := multiply_writes self size start_col end_col .MA .MB .MC s s1 h
    refine ⟨?_, ?_, ?_⟩
    · intro r c hout
      apply hw
      rintro ⟨_, _, _, _, _⟩
      omega
    · intro r c
      exact hw _ r c (by simp)
    · intro r c
      exact hw _ r c (by simp)
  refine ⟨?_, ?_, hframe⟩
  · intro h0 he hs
    obtain ⟨s1, hs1, _⟩ := multiply_spec self .MA .MB .MC (by decide) (by decide)
      size start_col end_col hs h0 he s
    exact ⟨s1, hs1, hframe s1 hs1⟩
  · intro hsz hne hout
    exact multiply_outside self size start_col end_col .MA .MB .MC s hsz hne hout

/-- Witness of C10 amended: the call `multiply(2, 0, 0, MA, MB, MC)` on the sample
state returns, computes `MC[0][0] = 2` and leaves column 1 of `MC`, and `MA` and
`MB`, as they were; the calls `multiply(2, -1, 0, ...)`, `multiply(2, 0, 10000, ...)`
and `multiply(10001, 0, 0, ...)` have no defined result; and the call
`multiply(0, -5, 3, ...)`, which has no row, returns with the store unchanged. -/
theorem multiply_frame_witness :
    (∃ s1, multiply 7 2 0 0 .MA .MB .MC exampleState = some s1 ∧
      (∀ r c, c < 0 ∨ 0 < c ∨ 2 ≤ r ∨ r < 0 → s1.mem .MC r c = exampleState.mem .MC r c) ∧
      (∀ r c, s1.mem .MA r c = exampleState.mem .MA r c) ∧
      (∀ r c, s1.mem .MB r c = exampleState.mem .MB r c)) ∧
    (multiply 7 2 0 0 .MA .MB .MC exampleState).map
      (fun s1 => (s1.mem .MC 0 0, s1.mem .MC 1 0, s1.mem .MC 0 1, s1.mem .MC 1 1))
      = some (2, 2, 99, 99) ∧
    multiply 7 2 (-1) 0 .MA .MB .MC exampleState = none ∧
    multiply 7 2 0 10000 .MA .MB .MC exampleState = none ∧
    multiply 7 10001 0 0 .MA .MB .MC exampleState = none ∧
    (∃ s1, multiply 7 0 (-5) 3 .MA .MB .MC exampleState = some s1 ∧
      (∀ r c, c < -5 ∨ 3 < c ∨ 0 ≤ r ∨ r < 0 → s1.mem .MC r c = exampleState.mem .MC r c) ∧
      (∀ r c, s1.mem .MA r c = exampleState.mem .MA r c) ∧
      (∀ r c, s1.mem .MB r c = exampleState.mem .MB r c)) := by
  have hsome : (multiply 7 0 (-5) 3 .MA .MB .MC exampleState).isSome = true := by rfl
  have heq := (Option.some_get hsome).symm
  exact ⟨(multiply_frame 7 2 0 0 exampleState).1 (by decide) (by decide) (by decide), rfl,
    (multiply_frame 7 2 (-1) 0 exampleState).2.1 (by decide) (by decide) (by decide),
    (multiply_frame 7 2 0 10000 exampleState).2.1 (by decide) (by decide) (by decide),
    (multiply_frame 7 10001 0 0 exampleState).2.1 (by decide) (by decide) (by decide),
    ⟨_, heq, (multiply_frame 7 0 (-5) 3 exampleState).2.2 _ heq⟩⟩

theorem main_init_cell_eq (row col : Int) (s : State) (hb : inBounds row col) :
    ∃ s1, main_init_cell row col s = some s1 ∧
      s1.mem = setCell (setCell s.mem .MA row col 1) .MB row col (wrap32 (col + 1)) := by
  simp [main_init_cell, State.store, hb]

/-- The initialisation loops of `main` set `MA[r][c] = 1` and `MB[r][c] = c + 1`
for `0 <= r, c < N` and change nothing else. -/
theorem main_init_spec (N : Int) (hN : N ≤ ARRAY_SIZE) (s : State) :
    ∃ s1, main_init N s = some s1 ∧
      ∀ m r c, s1.mem m r c =
        if 0 ≤ r ∧ r < N ∧ 0 ≤ c ∧ c < N then
          (if m = .MA then 1 else if m = .MB then c + 1 else s.mem m r c)
        else s.mem m r c := by
  unfold main_init
  have hA : ARRAY_SIZE = 10000 := rfl
  have hM : INT_MAX = 2147483647 := rfl
  by_cases h0 : 0 < N
  · refine forLoop_total _ _
      (fun row (st : State) => ∀ m r c, st.mem m r c =
        if 0 ≤ r ∧ r < row ∧ 0 ≤ c ∧ c < N then
          (if m = .MA then 1 else if m = .MB then c + 1 else s.mem m r c)
        else s.mem m r c)
      0 N (by intro i; simp) (by omega) ?_ N.toNat 0 s (le_refl _) (by omega) (by simp) ?_
    · intro row st hr0 hr hI
      obtain ⟨s1, h1, hm⟩ := forLoop_total (fun col => decide (col < N)) (main_init_cell row)
        (fun col (st1 : State) => ∀ m r c, st1.mem m r c =
          if (0 ≤ r ∧ r < row ∧ 0 ≤ c ∧ c < N) ∨ (r = row ∧ 0 ≤ c ∧ c < col) then
            (if m = .MA then 1 else if m = .MB then c + 1 else s.mem m r c)
          else s.mem m r c)
        0 N (by intro i; simp) (by omega)
        (by
          intro col st1 hc0 hc hI1
          obtain ⟨s2, h2, hm2⟩ := main_init_cell_eq row col st1 (by unfold inBounds; omega)
          refine ⟨s2, h2, ?_⟩
          intro m r c
          have hw : wrap32 (col + 1) = col + 1 :=
            wrap32_of_range _ (by unfold INT_MIN; omega) (by omega)
          rw [hm2, hw]
          unfold setCell
          rw [hI1]
          cases m <;> simp <;> split_ifs <;> first | rfl | omega)
        N.toNat 0 st (le_refl _) (by omega) (by simp)
        (by
          intro m r c
          rw [hI]
          split_ifs <;> first | rfl | omega)
      refine ⟨s1, h1, ?_⟩
      intro m r c
      rw [hm]
      split_ifs <;> first | rfl | omega
    · intro m r c
      split_ifs <;> first | rfl | omega
  · refine ⟨s, forLoop_skip _ _ _ _ _ (by simp; omega), ?_⟩
    intro m r c
    split_ifs <;> first | rfl | omega

/-- On a valid configuration `N / M` is evaluated with a non-zero divisor, is at
least 1, and `M` times it is `N`. -/
theorem col_per_thread_spec (N M : Int) (hM : 1 ≤ M) (hMN : M ≤ N)
    (hdiv : Int.tmod N M = 0) :
    c_div N M = some (N / M) ∧ 1 ≤ N / M ∧ M * (N / M) = N := by
  have h1 : Int.tdiv N M = N / M := Int.tdiv_eq_ediv (by omega) (by omega)
  have h2 := Int.tmod_add_tdiv N M
  rw [hdiv, h1] at h2
  have h3 : M * (N / M) = N := by omega
  refine ⟨?_, ?_, h3⟩
  · unfold c_div
    have : M ≠ 0 := by omega
    have hm1 : ¬ (N = INT_MIN ∧ M = -1) := by rintro ⟨_, _⟩; omega
    simp [this, hm1, h1]
  · by_contra hlt
    have h4 : N / M ≤ 0 := by omega
    have h5 : M * (N / M) ≤ 0 := mul_nonpos_of_nonneg_of_nonpos (by omega) h4
    omega

/-- Column `c` belongs to worker `i` exactly when `c / col_per_thread = i`. -/
theorem owner_iff (cpt i c : Int) (hcpt : 1 ≤ cpt) :
    c / cpt = i ↔ i * cpt ≤ c ∧ c < (i + 1) * cpt := by
  have hpos : 0 < cpt := by omega
  constructor
  · intro h
    have h1 : i ≤ c / cpt := by omega
    have h2 : c / cpt < i + 1 := by omega
    exact ⟨(Int.le_ediv_iff_mul_le hpos).1 h1, (Int.ediv_lt_iff_lt_mul hpos).1 h2⟩
  · rintro ⟨h1, h2⟩
    have h3 := (Int.le_ediv_iff_mul_le hpos).2 h1
    have h4 := (Int.ediv_lt_iff_lt_mul hpos).2 h2
    omega

/-- The bounds of the column range of worker `i`. -/
theorem range_bounds (M cpt i : Int) (hcpt : 1 ≤ cpt) (hi0 : 0 ≤ i) (hi : i < M) :
    0 ≤ i * cpt ∧ (i + 1) * cpt = i * cpt + cpt ∧ i * cpt + cpt ≤ M * cpt ∧ M ≤ M * cpt := by
  refine ⟨mul_nonneg hi0 (by omega), by ring, ?_, ?_⟩
  · have h1 : (i + 1) * cpt ≤ M * cpt := Int.mul_le_mul_of_nonneg_right (by omega) (by omega)
    have h2 : (i + 1) * cpt = i * cpt + cpt := by ring
    omega
  · have h1 : M * 1 ≤ M * cpt := Int.mul_le_mul_of_nonneg_left hcpt (by omega)
    omega

/-- The package built in iteration `i` of the creation loop is `work_item` : the
32-bit arithmetic of the two column expressions does not wrap. -/
theorem main_create_package (N M cpt i : Int) (hcpt : 1 ≤ cpt) (hN : M * cpt = N)
    (hNA : N ≤ ARRAY_SIZE) (hi0 : 0 ≤ i) (hi : i < M) :
    main_package N cpt i = work_item N cpt i := by
  unfold main_package
  obtain ⟨h1, h2, h3, h4⟩ := range_bounds M cpt i hcpt hi0 hi
  have hA : ARRAY_SIZE = 10000 := rfl
  have e1 : wrap32 (i * cpt) = i * cpt :=
    wrap32_of_range _ (by unfold INT_MIN; omega) (by unfold INT_MAX; omega)
  have e2 : wrap32 (i + 1) = i + 1 :=
    wrap32_of_range _ (by unfold INT_MIN; omega) (by unfold INT_MAX; omega)
  have e3 : wrap32 ((i + 1) * cpt) = (i + 1) * cpt :=
    wrap32_of_range _ (by unfold INT_MIN; omega) (by unfold INT_MAX; omega)
  have e4 : wrap32 ((i + 1) * cpt - 1) = (i + 1) * cpt - 1 :=
    wrap32_of_range _ (by unfold INT_MIN; omega) (by unfold INT_MAX; omega)
  rw [e1, e2, e3, e4]
  rfl

/-- One iteration of the creation loop preserves `CreateInv`, whatever the
outcome of the thread creation. -/
theorem main_create_spec (N M cpt : Int) (hcpt : 1 ≤ cpt) (hN : M * cpt = N)
    (hNA : N ≤ ARRAY_SIZE) (spawn : Int → Option Nat) (g0 : MatId → matrix_t)
    (i : Int) (hi0 : 0 ≤ i) (hi : i < M) (p : Proc)
    (hI : CreateInv N M cpt spawn g0 i p) :
    ∃ p1, main_create N cpt spawn i p = some p1 ∧ CreateInv N M cpt spawn g0 (i + 1) p1 := by
  obtain ⟨hT, hP, hpk, hth, hthn, hmem⟩ := hI
  obtain ⟨b1, b2, b3, _⟩ := range_bounds M cpt i hcpt hi0 hi
  have hA : ARRAY_SIZE = 10000 := rfl
  have hown : ∀ c, (c / cpt = i ↔ i * cpt ≤ c ∧ c < i * cpt + cpt) := by
    intro c; rw [← b2]; exact owner_iff cpt i c hcpt
  have hidx : 0 ≤ i ∧ i < M := ⟨hi0, hi⟩
  have hidx3 : 0 ≤ i ∧ i < M ∧ i < M := ⟨hi0, hi, hi⟩
  have hpk1 : ∀ j, 0 ≤ j → j < i + 1 →
      (if j = i then some (work_item N cpt i) else p.packages j)
        = some (work_item N cpt j) := by
    intro j hj0 hj
    by_cases e : j = i
    · simp [e]
    · simp only [e, if_false]; exact hpk j hj0 (by omega)
  unfold main_create
  simp only [main_create_package N M cpt i hcpt hN hNA hi0 hi, Proc.set_package, hP, hidx,
    and_self, if_true, Option.bind_eq_bind, Option.some_bind, Proc.pthread_create, hT, hidx3]
  cases hsp : spawn i with
  | none =>
    refine ⟨_, rfl, rfl, rfl, hpk1, ?_, ?_, ?_⟩
    · intro j hj0 hj
      by_cases e : j = i
      · rw [e, hsp]; exact hthn i (le_refl _)
      · exact hth j hj0 (by omega)
    · intro j hj
      exact hthn j (by omega)
    · intro m r c
      show p.g.mem m r c = _
      rw [hmem, b2]
      by_cases hc : i * cpt ≤ c ∧ c < i * cpt + cpt
      · have hq : c / cpt = i := (hown c).2 hc
        have h1 : ¬ (m = MatId.MC ∧ 0 ≤ r ∧ r < N ∧ 0 ≤ c ∧ c < i * cpt ∧
            (spawn (c / cpt)).isSome = true) := by
          rintro ⟨_, _, _, _, _, _⟩; omega
        have h2 : ¬ (m = MatId.MC ∧ 0 ≤ r ∧ r < N ∧ 0 ≤ c ∧ c < i * cpt + cpt ∧
            (spawn (c / cpt)).isSome = true) := by
          rintro ⟨_, _, _, _, _, h⟩
          rw [hq, hsp] at h
          simp at h
        rw [if_neg h1, if_neg h2]
      · by_cases hlt : c < i * cpt
        · have : (c < i * cpt + cpt) = (c < i * cpt) := by
            apply propext; constructor <;> intro <;> omega
          simp only [this]
        · have h1 : ¬ (m = MatId.MC ∧ 0 ≤ r ∧ r < N ∧ 0 ≤ c ∧ c < i * cpt ∧
              (spawn (c / cpt)).isSome = true) := by
            rintro ⟨_, _, _, _, _, _⟩; omega
          have h2 : ¬ (m = MatId.MC ∧ 0 ≤ r ∧ r < N ∧ 0 ≤ c ∧ c < i * cpt + cpt ∧
              (spawn (c / cpt)).isSome = true) := by
            rintro ⟨_, _, _, _, _, _⟩; omega
          rw [if_neg h1, if_neg h2]
  | some tid =>
    obtain ⟨s1, hs1, hm1⟩ := multiply_spec tid .MA .MB .MC (by decide) (by decide)
      N (i * cpt) ((i + 1) * cpt - 1) hNA b1 (by omega)
      ((p.g.emit (.create i (some tid))).emit
        (.print (.computing i (i * cpt) ((i + 1) * cpt - 1))))
    have hw : mult_worker tid (work_item N cpt i) (p.g.emit (.create i (some tid)))
        = some (s1.emit (.print (.completed i (i * cpt) ((i + 1) * cpt - 1)))) := by
      simp only [mult_worker, work_item, Option.bind_eq_bind]
      rw [hs1]
      rfl
    simp only [if_true, hw]
    have eA : p.g.mem .MA = g0 .MA := by
      funext r c; rw [hmem]; simp
    have eB : p.g.mem .MB = g0 .MB := by
      funext r c; rw [hmem]; simp
    refine ⟨_, rfl, rfl, rfl, hpk1, ?_, ?_, ?_⟩
    · intro j hj0 hj
      by_cases e : j = i
      · simp [e, hsp]
      · simp only [e, if_false]; exact hth j hj0 (by omega)
    · intro j hj
      have e : j ≠ i := by omega
      simp only [e, if_false]
      exact hthn j (by omega)
    · intro m r c
      show s1.mem m r c = _
      rw [hm1]
      show (if m = MatId.MC ∧ i * cpt ≤ c ∧ c ≤ (i + 1) * cpt - 1 ∧ 0 ≤ r ∧ r < N then
          wrap32 (dotProduct N (p.g.mem .MA) (p.g.mem .MB) r c)
        else p.g.mem m r c) = _
      rw [eA, eB, hmem, b2]
      by_cases hc : i * cpt ≤ c ∧ c < i * cpt + cpt
      · have hq : c / cpt = i := (hown c).2 hc
        by_cases hin : m = MatId.MC ∧ 0 ≤ r ∧ r < N
        · have h1 : m = MatId.MC ∧ i * cpt ≤ c ∧ c ≤ i * cpt + cpt - 1 ∧ 0 ≤ r ∧ r < N :=
            ⟨hin.1, hc.1, by omega, hin.2.1, hin.2.2⟩
          have h2 : m = MatId.MC ∧ 0 ≤ r ∧ r < N ∧ 0 ≤ c ∧ c < i * cpt + cpt ∧
              (spawn (c / cpt)).isSome = true :=
            ⟨hin.1, hin.2.1, hin.2.2, by omega, hc.2, by rw [hq, hsp]; rfl⟩
          rw [if_pos h1, if_pos h2]
        · have h1 : ¬ (m = MatId.MC ∧ i * cpt ≤ c ∧ c ≤ i * cpt + cpt - 1 ∧ 0 ≤ r ∧ r < N) := by
            rintro ⟨a, _, _, b, d⟩; exact hin ⟨a, b, d⟩
          have h2 : ¬ (m = MatId.MC ∧ 0 ≤ r ∧ r < N ∧ 0 ≤ c ∧ c < i * cpt + cpt ∧
              (spawn (c / cpt)).isSome = true) := by
            rintro ⟨a, b, d, _, _, _⟩; exact hin ⟨a, b, d⟩
          have h3 : ¬ (m = MatId.MC ∧ 0 ≤ r ∧ r < N ∧ 0 ≤ c ∧ c < i * cpt ∧
              (spawn (c / cpt)).isSome = true) := by
            rintro ⟨a, b, d, _, _, _⟩; exact hin ⟨a, b, d⟩
          rw [if_neg h1, if_neg h2, if_neg h3]
      · have h1 : ¬ (m = MatId.MC ∧ i * cpt ≤ c ∧ c ≤ i * cpt + cpt - 1 ∧ 0 ≤ r ∧ r < N) := by
          rintro ⟨_, _, _, _, _⟩; exact hc ⟨by omega, by omega⟩
        rw [if_neg h1]
        by_cases hlt : c < i * cpt
        · have : (c < i * cpt + cpt) = (c < i * cpt) := by
            apply propext; constructor <;> intro <;> omega
          simp only [this]
        · have h2 : ¬ (m = MatId.MC ∧ 0 ≤ r ∧ r < N ∧ 0 ≤ c ∧ c < i * cpt ∧
              (spawn (c / cpt)).isSome = true) := by
            rintro ⟨_, _, _, _, _, _⟩; omega
          have h3 : ¬ (m = MatId.MC ∧ 0 ≤ r ∧ r < N ∧ 0 ≤ c ∧ c < i * cpt + cpt ∧
              (spawn (c / cpt)).isSome = true) := by
            rintro ⟨_, _, _, _, _, _⟩; omega
          rw [if_neg h2, if_neg h3]

/-- The creation loop runs to its end from any state satisfying `CreateInv` at
`0`, whatever the outcomes of the thread creations. -/
theorem main_create_all_spec (N M cpt : Int) (hM : 0 ≤ M) (hcpt : 1 ≤ cpt) (hN : M * cpt = N)
    (hNA : N ≤ ARRAY_SIZE) (spawn : Int → Option Nat) (g0 : MatId → matrix_t) (p : Proc)
    (hI : CreateInv N M cpt spawn g0 0 p) :
    ∃ p1, main_create_all N M cpt spawn p = some p1 ∧ CreateInv N M cpt spawn g0 M p1 := by
  have hMN : M ≤ N := by
    have h1 : M * 1 ≤ M * cpt := Int.mul_le_mul_of_nonneg_left hcpt hM
    omega
  have hA : ARRAY_SIZE = 10000 := rfl
  exact forLoop_total _ _ (fun i p1 => CreateInv N M cpt spawn g0 i p1) 0 M
    (by intro i; simp) (by unfold INT_MAX; omega)
    (fun i p1 h0 h1 h => main_create_spec N M cpt hcpt hN hNA spawn g0 i h0 h1 p1 h)
    M.toNat 0 p (le_refl _) hM (by simp) hI

/-- A freshly allocated state satisfies `CreateInv` at `0`. -/
theorem createInv_alloc (N M cpt : Int) (spawn : Int → Option Nat)
    (g : State) : CreateInv N M cpt spawn g.mem 0 (Proc.alloc M g) := by
  refine ⟨rfl, rfl, ?_, ?_, ?_, ?_⟩
  · intro j h0 h1; omega
  · intro j h0 h1; omega
  · intro j _; rfl
  · intro m r c
    have : ¬ (m = MatId.MC ∧ 0 ≤ r ∧ r < N ∧ 0 ≤ c ∧ c < 0 * cpt ∧
        (spawn (c / cpt)).isSome = true) := by
      rintro ⟨_, _, _, _, _, _⟩; omega
    rw [if_neg this]
    rfl

/-- On a valid configuration `main` reaches the end of its creation loop,
whatever the outcomes of the thread creations; the state there satisfies
`CreateInv` at `M` relative to the store `g1` left by the initialisation. -/
theorem main_spawn_spec (N M : Int) (hM : 1 ≤ M) (hMN : M ≤ N) (hNA : N ≤ ARRAY_SIZE)
    (hdiv : Int.tmod N M = 0) (spawn : Int → Option Nat) (s : State) :
    ∃ p g1, main_spawn N M spawn s = some p ∧
      main_init N ((s.emit (.malloc_threads M)).emit (.malloc_packages M)) = some g1 ∧
      CreateInv N M (N / M) spawn g1.mem M p := by
  obtain ⟨hd, hcpt, hmul⟩ := col_per_thread_spec N M hM hMN hdiv
  obtain ⟨g1, hg1, _⟩ := main_init_spec N hNA
    ((s.emit (.malloc_threads M)).emit (.malloc_packages M))
  obtain ⟨p, hp, hI⟩ := main_create_all_spec N M (N / M) (by omega) hcpt hmul hNA spawn
    (g1.emit .mutex_init).mem (Proc.alloc M (g1.emit .mutex_init))
    (createInv_alloc N M (N / M) spawn (g1.emit .mutex_init))
  refine ⟨p, g1, ?_, hg1, hI⟩
  simp [main_spawn, main_setup, hd, hg1, hp]

/-- The join loop runs to its end when every `threads[j]` holds the handle of a
created thread; it changes neither the store nor the arrays. -/
theorem main_join_all_spec (M : Int) (hM : 0 ≤ M) (hMA : M ≤ ARRAY_SIZE) (p : Proc)
    (hT : p.threads_len = some M)
    (hall : ∀ j, 0 ≤ j → j < M → (p.threads j).isSome = true) :
    ∃ p1, main_join_all M p = some p1 ∧ p1.g.mem = p.g.mem := by
  have hA : ARRAY_SIZE = 10000 := rfl
  obtain ⟨p1, h1, _, _, h2⟩ := forLoop_total (fun i => decide (i < M)) main_join
    (fun _ (p1 : Proc) => p1.threads_len = some M ∧ p1.threads = p.threads ∧
      p1.g.mem = p.g.mem)
    0 M (by intro i; simp) (by unfold INT_MAX; omega)
    (by
      intro i p1 h0 h1 hI
      obtain ⟨a, b, c⟩ := hI
      have hs := hall i h0 h1
      rw [← b] at hs
      obtain ⟨tid, htid⟩ := Option.isSome_iff_exists.1 hs
      have hidx : 0 ≤ i ∧ i < M := ⟨h0, h1⟩
      refine ⟨{ p1 with g := p1.g.emit (.join tid) }, ?_, a, b, c⟩
      simp [main_join, a, hidx, htid])
    M.toNat 0 p (le_refl _) hM (by simp) ⟨hT, rfl, rfl⟩
  exact ⟨p1, h1, h2⟩

theorem main_dump_cell_eq (row col : Int) (s : State) (hb : inBounds row col) :
    main_dump_cell row col s = some
      { mem := s.mem,
        trace := s.trace ++ [.read .MC row col, .print (.cell (s.mem .MC row col))] } := by
  simp [main_dump_cell, State.load, State.emit, hb]

/-- One row of the result dump appends the events of that row and changes
nothing else. -/
theorem main_dump_row_eq (N row : Int) (h0 : 0 ≤ N) (hNA : N ≤ ARRAY_SIZE) (hr0 : 0 ≤ row)
    (hr : row < N) (s : State) :
    main_dump_row N row s = some
      { mem := s.mem,
        trace := s.trace ++ (dump_cells (s.mem .MC) row N.toNat ++ [.print .newline]) } := by
  have hA : ARRAY_SIZE = 10000 := rfl
  obtain ⟨s1, h1, hI⟩ := forLoop_total (fun col => decide (col < N)) (main_dump_cell row)
    (fun col (st : State) =>
      st = State.mk s.mem (s.trace ++ dump_cells (s.mem .MC) row col.toNat))
    0 N (by intro i; simp) (by unfold INT_MAX; omega)
    (by
      intro col st hc0 hc hI
      refine ⟨_, main_dump_cell_eq row col st (by unfold inBounds; omega), ?_⟩
      have e1 : (col + 1).toNat = col.toNat + 1 := by omega
      have e2 : ((col.toNat : Nat) : Int) = col := by omega
      subst hI
      beta_reduce
      rw [e1]
      simp [dump_cells, e2])
    N.toNat 0 s (le_refl _) h0 (by simp) (by simp [dump_cells])
  simp [main_dump_row, h1, hI, State.emit]

/-- The result dump appends `result_dump` of the current `MC` to the trace and
changes nothing else. -/
theorem main_dump_eq (N : Int) (h0 : 0 ≤ N) (hNA : N ≤ ARRAY_SIZE) (s : State) :
    main_dump N s = some
      { mem := s.mem, trace := s.trace ++ result_dump N (s.mem .MC) } := by
  have hA : ARRAY_SIZE = 10000 := rfl
  obtain ⟨s1, h1, hI⟩ := forLoop_total (fun row => decide (row < N)) (main_dump_row N)
    (fun row (st : State) =>
      st = State.mk s.mem (s.trace ++ (.print .header :: dump_rows (s.mem .MC) N row.toNat)))
    0 N (by intro i; simp) (by unfold INT_MAX; omega)
    (by
      intro row st hr0 hr hI
      refine ⟨_, main_dump_row_eq N row h0 hNA hr0 hr st, ?_⟩
      have e1 : (row + 1).toNat = row.toNat + 1 := by omega
      have e2 : ((row.toNat : Nat) : Int) = row := by omega
      subst hI
      beta_reduce
      rw [e1]
      simp [dump_rows, e2])
    N.toNat 0 (s.emit (.print .header)) (le_refl _) h0 (by simp)
    (by simp [dump_rows, State.emit])
  unfold main_dump
  rw [h1, hI]
  rfl

/-- The validation of `main` never divides by zero: for all `N` and `M` it has a
value, and the value says whether one of the five tests holds. -/
theorem main_invalid_eq (N M : Int) :
    main_invalid N M =
      some (decide (N < 1 ∨ N > ARRAY_SIZE ∨ M < 1 ∨ M > N ∨ Int.tmod N M ≠ 0)) := by
  unfold main_invalid
  by_cases h1 : N < 1
  · simp [h1]
  by_cases h2 : N > ARRAY_SIZE
  · simp [h1, h2]
  by_cases h3 : M < 1
  · simp [h1, h2, h3]
  by_cases h4 : M > N
  · simp [h1, h2, h3, h4]
  have hM0 : M ≠ 0 := by omega
  have hM1 : ¬ (N = INT_MIN ∧ M = -1) := by rintro ⟨_, _⟩; omega
  simp [h1, h2, h3, h4, c_mod, hM0, hM1]

/-- On a valid configuration on which every thread creation succeeds, `main`
returns exit status 0; the store it leaves is the one at the end of the
creation loop, and its trace ends with the result dump of that store
followed by the two shell commands and the release of the resources. -/
theorem main_valid_spec (N M : Int) (hM : 1 ≤ M) (hMN : M ≤ N) (hNA : N ≤ ARRAY_SIZE)
    (hdiv : Int.tmod N M = 0) (spawn : Int → Option Nat)
    (hall : ∀ i, 0 ≤ i → i < M → (spawn i).isSome = true) (s : State) :
    ∃ p g1 pre, main_spawn N M spawn s = some p ∧
      main_init N ((s.emit (.malloc_threads M)).emit (.malloc_packages M)) = some g1 ∧
      CreateInv N M (N / M) spawn g1.mem M p ∧
      main 3 N M spawn s = some (0,
        State.mk p.g.mem (pre ++ (result_dump N (p.g.mem .MC) ++
          [.system .inspect, .system .who_snapshot, .free_threads, .free_packages,
            .mutex_destroy]))) := by
  obtain ⟨p, g1, hp, hg1, hI⟩ := main_spawn_spec N M hM hMN hNA hdiv spawn s
  have hth : ∀ j, 0 ≤ j → j < M → (p.threads j).isSome = true := by
    intro j h0 h1
    rw [hI.2.2.2.1 j h0 h1]
    exact hall j h0 h1
  obtain ⟨p1, hp1, hmem⟩ := main_join_all_spec M (by omega) (by omega) p hI.1 hth
  refine ⟨p, g1, p1.g.trace, hp, hg1, hI, ?_⟩
  have hv : ¬ (N < 1 ∨ N > ARRAY_SIZE ∨ M < 1 ∨ M > N ∨ Int.tmod N M ≠ 0) := by
    rintro (h | h | h | h | h)
    · omega
    · omega
    · omega
    · omega
    · exact h hdiv
  unfold main
  rw [main_invalid_eq, decide_eq_false hv]
  simp only [ne_eq, not_true_eq_false, if_false, hp, main_finish, hp1, Option.bind_eq_bind,
    Option.some_bind, main_dump_eq N (by omega) hNA, State.emit, hmem, List.append_assoc,
    List.singleton_append, List.cons_append, List.nil_append]

/-- What `main` does with three arguments is decided by its validation: when
the validation holds `main` prints the validation line and returns 1; when
it does not, `main` returns 0 whenever it returns. -/
theorem main_by_validation (N M : Int) (spawn : Int → Option Nat) (s : State) (b : Bool)
    (hb : main_invalid N M = some b) :
    (b = true → main 3 N M spawn s = some (1, s.emit (.print .invalid_input))) ∧
    (b = false → ∀ r, main 3 N M spawn s = some r → r.1 = 0) := by
  constructor
  · intro e
    subst e
    simp [main, hb]
  · intro e r hr
    subst e
    simp only [main, ne_eq, not_true_eq_false, if_false, hb] at hr
    cases hp : main_spawn N M spawn s with
    | none => simp [hp] at hr
    | some p =>
      simp only [hp, main_finish, Option.bind_eq_bind] at hr
      cases hj : main_join_all M p with
      | none => simp [hj] at hr
      | some p1 =>
        simp only [hj, Option.some_bind] at hr
        cases hd : main_dump N p1.g with
        | none => simp [hd] at hr
        | some s1 =>
          simp only [hd, Option.some_bind, Option.some.injEq] at hr
          rw [← hr]

/-- On a valid configuration `main` has no exit path with a non-zero status. -/
theorem main_valid_exit (N M : Int) (hM : 1 ≤ M) (hMN : M ≤ N) (hNA : N ≤ ARRAY_SIZE)
    (hdiv : Int.tmod N M = 0) (spawn : Int → Option Nat) (s : State) :
    main_invalid N M = some false ∧ ∀ r, main 3 N M spawn s = some r → r.1 = 0 := by
  have hinv := main_invalid_eq N M
  have hv : ¬ (N < 1 ∨ N > ARRAY_SIZE ∨ M < 1 ∨ M > N ∨ Int.tmod N M ≠ 0) := by
    rintro (h | h | h | h | h)
    · omega
    · omega
    · omega
    · omega
    · exact h hdiv
  rw [decide_eq_false hv] at hinv
  exact ⟨hinv, (main_by_validation N M spawn s false hinv).2 rfl⟩

/-- C3: for every pair of integers `(N, M)` the validation of `main` has a value,
and `main` rejects the configuration (prints the validation message and
returns exit status 1, nothing else) if and only if `N < 1` or
`N > ARRAY_SIZE` (10000) or `M < 1` or `M > N` or `N % M != 0`.  In particular
`M > N`, `N % M != 0`, `N <= 0` and `M <= 0` are each rejected, and every
`(N, M)` with `1 <= M <= N <= 10000` and `M` dividing `N` is accepted. -/
theorem main_rejects_iff (N M : Int) (spawn : Int → Option Nat) (s : State) :
    ARRAY_SIZE = 10000 ∧
    main_invalid N M =
      some (decide (N < 1 ∨ N > ARRAY_SIZE ∨ M < 1 ∨ M > N ∨ Int.tmod N M ≠ 0)) ∧
    (main 3 N M spawn s = some (1, s.emit (.print .invalid_input)) ↔
      (N < 1 ∨ N > ARRAY_SIZE ∨ M < 1 ∨ M > N ∨ Int.tmod N M ≠ 0)) ∧
    ((M > N ∨ Int.tmod N M ≠ 0 ∨ N ≤ 0 ∨ M ≤ 0) →
      main 3 N M spawn s = some (1, s.emit (.print .invalid_input))) ∧
    ((1 ≤ M ∧ M ≤ N ∧ N ≤ 10000 ∧ M ∣ N) →
      main_invalid N M = some false ∧
      ∀ r, main 3 N M spawn s = some r → r.1 = 0) := by
  have hinv := main_invalid_eq N M
  have hiff : main 3 N M spawn s = some (1, s.emit (.print .invalid_input)) ↔
      (N < 1 ∨ N > ARRAY_SIZE ∨ M < 1 ∨ M > N ∨ Int.tmod N M ≠ 0) := by
    constructor
    · intro h
      by_contra hv
      rw [decide_eq_false hv] at hinv
      have := (main_by_validation N M spawn s false hinv).2 rfl _ h
      simp at this
    · intro hv
      rw [decide_eq_true hv] at hinv
      exact (main_by_validation N M spawn s true hinv).1 rfl
  refine ⟨rfl, main_invalid_eq N M, hiff, ?_, ?_⟩
  · intro h
    apply hiff.2
    have hA : ARRAY_SIZE = 10000 := rfl
    rcases h with h | h | h | h
    · exact Or.inr (Or.inr (Or.inr (Or.inl h)))
    · exact Or.inr (Or.inr (Or.inr (Or.inr h)))
    · exact Or.inl (by omega)
    · exact Or.inr (Or.inr (Or.inl (by omega)))
  · rintro ⟨h1, h2, h3, h4⟩
    have hA : ARRAY_SIZE = 10000 := rfl
    have hmod : Int.tmod N M = 0 := by
      rw [Int.tmod_eq_emod (by omega) (by omega)]
      exact Int.emod_eq_zero_of_dvd h4
    exact main_valid_exit N M h1 h2 (by omega) hmod spawn s

/-- Witness of C3: `(6, 4)` is rejected and `(4, 2)` is accepted. -/
theorem main_rejects_iff_witness :
    main 3 6 4 exampleSpawn exampleState
      = some (1, exampleState.emit (.print .invalid_input)) ∧
    main_invalid 4 2 = some false ∧
    ∀ r, main 3 4 2 exampleSpawn exampleState = some r → r.1 = 0 :=
  ⟨(main_rejects_iff 6 4 exampleSpawn exampleState).2.2.2.1 (Or.inr (Or.inl (by decide))),
   ((main_rejects_iff 4 2 exampleSpawn exampleState).2.2.2.2
      ⟨by decide, by decide, by decide, ⟨2, by decide⟩⟩).1,
   ((main_rejects_iff 4 2 exampleSpawn exampleState).2.2.2.2
      ⟨by decide, by decide, by decide, ⟨2, by decide⟩⟩).2⟩

/-- C7: on a usage error (argument count other than 3) `main` returns exit status
1 and the only thing it has done is to print the usage line; on an invalid
configuration it returns exit status 1 and the only thing it has done is to
print the validation line.  In both cases the three matrices are unchanged
and the trace has gained that one line only: no cell is written, nothing is
allocated, no thread is created.  On a valid configuration (every thread
creation succeeding) `main` returns exit status 0, and its trace ends with
the dump of the result matrix `MC` followed by the two shell commands and the
release of the resources. -/
theorem main_exit_status (argc N M : Int) (spawn : Int → Option Nat) (s : State) :
    (argc ≠ 3 →
      main argc N M spawn s = some (1, State.mk s.mem (s.trace ++ [.print .usage]))) ∧
    (argc = 3 → (N < 1 ∨ N > ARRAY_SIZE ∨ M < 1 ∨ M > N ∨ Int.tmod N M ≠ 0) →
      main argc N M spawn s
        = some (1, State.mk s.mem (s.trace ++ [.print .invalid_input]))) ∧
    (argc = 3 → 1 ≤ M → M ≤ N → N ≤ ARRAY_SIZE → Int.tmod N M = 0 →
      (∀ i, 0 ≤ i → i < M → (spawn i).isSome = true) →
      ∃ s1 pre, main argc N M spawn s = some (0, s1) ∧
        s1.trace = pre ++ (result_dump N (s1.mem .MC) ++
          [.system .inspect, .system .who_snapshot, .free_threads, .free_packages,
            .mutex_destroy])) := by
  refine ⟨?_, ?_, ?_⟩
  · intro h
    simp [main, h, State.emit]
  · intro h hv
    subst h
    have hinv := main_invalid_eq N M
    rw [decide_eq_true hv] at hinv
    simp [main, hinv, State.emit]
  · intro h hM hMN hNA hdiv hall
    subst h
    obtain ⟨p, g1, pre, _, _, _, hmain⟩ := main_valid_spec N M hM hMN hNA hdiv spawn hall s
    exact ⟨_, pre, hmain, rfl⟩

/-- Witness of C7: argument count 2; the invalid configuration `(6, 4)`; the valid
configuration `(2, 2)`. -/
theorem main_exit_status_witness :
    main 2 2 2 exampleSpawn exampleState
      = some (1, State.mk exampleState.mem (exampleState.trace ++ [.print .usage])) ∧
    main 3 6 4 exampleSpawn exampleState
      = some (1, State.mk exampleState.mem (exampleState.trace ++ [.print .invalid_input])) ∧
    ∃ s1 pre, main 3 2 2 exampleSpawn exampleState = some (0, s1) ∧
      s1.trace = pre ++ (result_dump 2 (s1.mem .MC) ++
        [.system .inspect, .system .who_snapshot, .free_threads, .free_packages,
          .mutex_destroy]) :=
  ⟨(main_exit_status 2 2 2 exampleSpawn exampleState).1 (by decide),
   (main_exit_status 3 6 4 exampleSpawn exampleState).2.1 rfl
      (Or.inr (Or.inr (Or.inr (Or.inr (by decide))))),
   (main_exit_status 3 2 2 exampleSpawn exampleState).2.2 rfl (by decide) (by decide)
      (by decide) (by decide) (fun _ _ _ => rfl)⟩

/-- C2: on a valid configuration `main` builds `M` work items whose column ranges
`[i * (N / M), (i + 1) * (N / M) - 1]` cover the columns `0 .. N - 1` exactly
once: every column lies in exactly one range, two different ranges have no
column in common, no range contains a column outside `0 .. N - 1`, and every
range has exactly `N / M` columns. -/
theorem partition_covers (N M : Int) (hM : 1 ≤ M) (hMN : M ≤ N) (hNA : N ≤ ARRAY_SIZE)
    (hdiv : Int.tmod N M = 0) (spawn : Int → Option Nat) (s : State) :
    ∃ (p : Proc) (pk : Int → package_t), main_spawn N M spawn s = some p ∧
      (∀ i, 0 ≤ i → i < M → p.packages i = some (pk i) ∧
        (pk i).start_col = i * (N / M) ∧ (pk i).end_col = (i + 1) * (N / M) - 1) ∧
      (∀ c, 0 ≤ c → c < N →
        ∃! i, (0 ≤ i ∧ i < M) ∧ (pk i).start_col ≤ c ∧ c ≤ (pk i).end_col) ∧
      (∀ i j c, 0 ≤ i → i < M → 0 ≤ j → j < M → i ≠ j →
        ¬ ((pk i).start_col ≤ c ∧ c ≤ (pk i).end_col ∧
           (pk j).start_col ≤ c ∧ c ≤ (pk j).end_col)) ∧
      (∀ i c, 0 ≤ i → i < M → (pk i).start_col ≤ c → c ≤ (pk i).end_col →
        0 ≤ c ∧ c ≤ N - 1) ∧
      (∀ i, 0 ≤ i → i < M → (pk i).end_col - (pk i).start_col + 1 = N / M) := by
  obtain ⟨p, g1, hp, _, hI⟩ := main_spawn_spec N M hM hMN hNA hdiv spawn s
  obtain ⟨_, hcpt, hmul⟩ := col_per_thread_spec N M hM hMN hdiv
  have hpos : 0 < N / M := by omega
  refine ⟨p, work_item N (N / M), hp, ?_, ?_, ?_, ?_, ?_⟩
  · intro i h0 h1
    exact ⟨hI.2.2.1 i h0 h1, rfl, rfl⟩
  · intro c hc0 hc
    refine ⟨c / (N / M), ⟨⟨Int.ediv_nonneg hc0 (by omega), ?_⟩, ?_⟩, ?_⟩
    · exact (Int.ediv_lt_iff_lt_mul hpos).2 (by omega)
    · have := (owner_iff (N / M) (c / (N / M)) c hcpt).1 rfl
      show c / (N / M) * (N / M) ≤ c ∧ c ≤ (c / (N / M) + 1) * (N / M) - 1
      omega
    · rintro j ⟨_, hj1, hj2⟩
      have hj1 : j * (N / M) ≤ c := hj1
      have hj2 : c ≤ (j + 1) * (N / M) - 1 := hj2
      exact ((owner_iff (N / M) j c hcpt).2 ⟨hj1, by omega⟩).symm
  · rintro i j c _ _ _ _ hne ⟨a1, a2, a3, a4⟩
    have a1 : i * (N / M) ≤ c := a1
    have a2 : c ≤ (i + 1) * (N / M) - 1 := a2
    have a3 : j * (N / M) ≤ c := a3
    have a4 : c ≤ (j + 1) * (N / M) - 1 := a4
    have e1 := (owner_iff (N / M) i c hcpt).2 ⟨a1, by omega⟩
    have e2 := (owner_iff (N / M) j c hcpt).2 ⟨a3, by omega⟩
    exact hne (by omega)
  · intro i c h0 h1 a1 a2
    have a1 : i * (N / M) ≤ c := a1
    have a2 : c ≤ (i + 1) * (N / M) - 1 := a2
    obtain ⟨b1, b2, b3, _⟩ := range_bounds M (N / M) i hcpt h0 h1
    omega
  · intro i h0 h1
    show (i + 1) * (N / M) - 1 - i * (N / M) + 1 = N / M
    ring

/-- Witness of C2: the partition built for `N = 4`, `M = 2`. -/
theorem partition_covers_witness :
    ∃ (p : Proc) (pk : Int → package_t), main_spawn 4 2 exampleSpawn exampleState = some p ∧
      (∀ i, 0 ≤ i → i < 2 → p.packages i = some (pk i) ∧
        (pk i).start_col = i * (4 / 2) ∧ (pk i).end_col = (i + 1) * (4 / 2) - 1) ∧
      (∀ c, 0 ≤ c → c < 4 →
        ∃! i, (0 ≤ i ∧ i < 2) ∧ (pk i).start_col ≤ c ∧ c ≤ (pk i).end_col) ∧
      (∀ i j c, 0 ≤ i → i < 2 → 0 ≤ j → j < 2 → i ≠ j →
        ¬ ((pk i).start_col ≤ c ∧ c ≤ (pk i).end_col ∧
           (pk j).start_col ≤ c ∧ c ≤ (pk j).end_col)) ∧
      (∀ i c, 0 ≤ i → i < 2 → (pk i).start_col ≤ c → c ≤ (pk i).end_col →
        0 ≤ c ∧ c ≤ 4 - 1) ∧
      (∀ i, 0 ≤ i → i < 2 → (pk i).end_col - (pk i).start_col + 1 = 4 / 2) :=
  partition_covers 4 2 (by decide) (by decide) (by decide) (by decide) exampleSpawn exampleState

/-- C6: on a valid configuration the work items built by `main` are contiguous and
ordered by worker index: item `i` carries `id = i`, `size = N`,
`start_col = i * (N / M)`, `end_col = (i + 1) * (N / M) - 1` and the addresses of
the three global matrices; item 0 starts at column 0, item `M - 1` ends at
column `N - 1`, the start of item `i + 1` is the end of item `i` plus one, and
the starting columns strictly increase with the worker index. -/
theorem work_items_ordered (N M : Int) (hM : 1 ≤ M) (hMN : M ≤ N) (hNA : N ≤ ARRAY_SIZE)
    (hdiv : Int.tmod N M = 0) (spawn : Int → Option Nat) (s : State) :
    ∃ (p : Proc) (pk : Int → package_t), main_spawn N M spawn s = some p ∧
      (∀ i, 0 ≤ i → i < M → p.packages i = some (pk i) ∧
        (pk i).id = i ∧ (pk i).size = N ∧
        (pk i).start_col = i * (N / M) ∧ (pk i).end_col = (i + 1) * (N / M) - 1 ∧
        (pk i).MA = .MA ∧ (pk i).MB = .MB ∧ (pk i).MC = .MC) ∧
      (pk 0).start_col = 0 ∧ (pk (M - 1)).end_col = N - 1 ∧
      (∀ i, 0 ≤ i → i < M - 1 → (pk (i + 1)).start_col = (pk i).end_col + 1) ∧
      (∀ i j, 0 ≤ i → i < j → j < M → (pk i).start_col < (pk j).start_col) := by
  obtain ⟨p, g1, hp, _, hI⟩ := main_spawn_spec N M hM hMN hNA hdiv spawn s
  obtain ⟨_, hcpt, hmul⟩ := col_per_thread_spec N M hM hMN hdiv
  refine ⟨p, work_item N (N / M), hp, ?_, ?_, ?_, ?_, ?_⟩
  · intro i h0 h1
    exact ⟨hI.2.2.1 i h0 h1, rfl, rfl, rfl, rfl, rfl, rfl, rfl⟩
  · show 0 * (N / M) = 0
    simp
  · show (M - 1 + 1) * (N / M) - 1 = N - 1
    have : (M - 1 + 1) * (N / M) = M * (N / M) := by ring
    omega
  · intro i _ _
    show (i + 1) * (N / M) = (i + 1) * (N / M) - 1 + 1
    ring
  · intro i j _ hij _
    show i * (N / M) < j * (N / M)
    exact Int.mul_lt_mul_of_pos_right hij (by omega)

/-- Witness of C6: the work items built for `N = 4`, `M = 2`. -/
theorem work_items_ordered_witness :
    ∃ (p : Proc) (pk : Int → package_t), main_spawn 4 2 exampleSpawn exampleState = some p ∧
      (∀ i, 0 ≤ i → i < 2 → p.packages i = some (pk i) ∧
        (pk i).id = i ∧ (pk i).size = 4 ∧
        (pk i).start_col = i * (4 / 2) ∧ (pk i).end_col = (i + 1) * (4 / 2) - 1 ∧
        (pk i).MA = .MA ∧ (pk i).MB = .MB ∧ (pk i).MC = .MC) ∧
      (pk 0).start_col = 0 ∧ (pk (2 - 1)).end_col = 4 - 1 ∧
      (∀ i, 0 ≤ i → i < 2 - 1 → (pk (i + 1)).start_col = (pk i).end_col + 1) ∧
      (∀ i j, 0 ≤ i → i < j → j < 2 → (pk i).start_col < (pk j).start_col) :=
  work_items_ordered 4 2 (by decide) (by decide) (by decide) (by decide) exampleSpawn
    exampleState

/-- At the end of the creation loop, when every creation succeeded, the store is
the initial one with rows and columns `0 .. N - 1` of `MC` replaced by the
wrapped dot products. -/
theorem createInv_all (N M cpt : Int) (hcpt : 1 ≤ cpt) (hN : M * cpt = N)
    (spawn : Int → Option Nat) (hall : ∀ i, 0 ≤ i → i < M → (spawn i).isSome = true)
    (g0 : MatId → matrix_t) (p : Proc) (hI : CreateInv N M cpt spawn g0 M p) :
    ∀ m r c, p.g.mem m r c =
      if m = .MC ∧ 0 ≤ c ∧ c ≤ N - 1 ∧ 0 ≤ r ∧ r < N then
        wrap32 (dotProduct N (g0 .MA) (g0 .MB) r c)
      else g0 m r c := by
  intro m r c
  rw [hI.2.2.2.2.2 m r c, hN]
  have hpos : 0 < cpt := by omega
  by_cases h : m = MatId.MC ∧ 0 ≤ c ∧ c ≤ N - 1 ∧ 0 ≤ r ∧ r < N
  · obtain ⟨a, b, c1, d, e⟩ := h
    have hs : (spawn (c / cpt)).isSome = true :=
      hall _ (Int.ediv_nonneg b (by omega)) ((Int.ediv_lt_iff_lt_mul hpos).2 (by omega))
    have h1 : m = MatId.MC ∧ 0 ≤ r ∧ r < N ∧ 0 ≤ c ∧ c < N ∧
        (spawn (c / cpt)).isSome = true := ⟨a, d, e, b, by omega, hs⟩
    have h2 : m = MatId.MC ∧ 0 ≤ c ∧ c ≤ N - 1 ∧ 0 ≤ r ∧ r < N := ⟨a, b, c1, d, e⟩
    rw [if_pos h1, if_pos h2]
  · have h1 : ¬ (m = MatId.MC ∧ 0 ≤ r ∧ r < N ∧ 0 ≤ c ∧ c < N ∧
        (spawn (c / cpt)).isSome = true) := by
      rintro ⟨a, d, e, b, c1, _⟩
      exact h ⟨a, b, by omega, d, e⟩
    rw [if_neg h1, if_neg h]

/-- The dot product of a row of ones with a column whose entries are all
`c + 1`. -/
theorem dotProduct_sample (N r c : Int) (h0 : 0 ≤ N) (A B : matrix_t)
    (hA : ∀ k, 0 ≤ k → k < N → A r k = 1) (hB : ∀ k, 0 ≤ k → k < N → B k c = c + 1) :
    dotProduct N A B r c = N * (c + 1) := by
  unfold dotProduct
  have h1 : ∀ k ∈ Finset.Ico (0 : Int) N, A r k * B k c = c + 1 := by
    intro k hk
    rw [Finset.mem_Ico] at hk
    rw [hA k hk.1 hk.2, hB k hk.1 hk.2, one_mul]
  rw [Finset.sum_congr rfl h1, Finset.sum_const, Int.card_Ico]
  simp [Int.toNat_of_nonneg h0]
  ring

/-- C4: on every valid configuration, after `main` has set `MA[r][c] = 1` and
`MB[r][c] = c + 1` and all `M` workers have run, `main` returns exit status 0
with `MC[r][c] = N * (c + 1)` for all `0 <= r, c < N` (and `MA`, `MB` holding
the sample data). -/
theorem main_computes_table (N M : Int) (hM : 1 ≤ M) (hMN : M ≤ N) (hNA : N ≤ ARRAY_SIZE)
    (hdiv : Int.tmod N M = 0) (spawn : Int → Option Nat)
    (hall : ∀ i, 0 ≤ i → i < M → (spawn i).isSome = true) (s : State) :
    ∃ s1, main 3 N M spawn s = some (0, s1) ∧
      ∀ r c, 0 ≤ r → r < N → 0 ≤ c → c < N →
        s1.mem .MC r c = N * (c + 1) ∧ s1.mem .MA r c = 1 ∧ s1.mem .MB r c = c + 1 := by
  obtain ⟨p, g1, pre, _, hg1, hI, hmain⟩ := main_valid_spec N M hM hMN hNA hdiv spawn hall s
  obtain ⟨_, hcpt, hmul⟩ := col_per_thread_spec N M hM hMN hdiv
  obtain ⟨g2, hg2, hinit⟩ := main_init_spec N hNA
    ((s.emit (.malloc_threads M)).emit (.malloc_packages M))
  rw [hg1] at hg2
  cases hg2
  have hmem := createInv_all N M (N / M) hcpt hmul spawn hall g1.mem p hI
  refine ⟨_, hmain, ?_⟩
  intro r c hr0 hr hc0 hc
  have hA : ARRAY_SIZE = 10000 := rfl
  have hin : ∀ r c, 0 ≤ r → r < N → 0 ≤ c → c < N → (0 ≤ r ∧ r < N ∧ 0 ≤ c ∧ c < N) :=
    fun _ _ a b c d => ⟨a, b, c, d⟩
  refine ⟨?_, ?_, ?_⟩
  · show p.g.mem .MC r c = _
    rw [hmem]
    have h1 : MatId.MC = MatId.MC ∧ 0 ≤ c ∧ c ≤ N - 1 ∧ 0 ≤ r ∧ r < N :=
      ⟨rfl, hc0, by omega, hr0, hr⟩
    rw [if_pos h1, dotProduct_sample N r c (by omega) _ _
      (fun k hk0 hk => by rw [hinit, if_pos (hin r k hr0 hr hk0 hk)]; simp)
      (fun k hk0 hk => by rw [hinit, if_pos (hin k c hk0 hk hc0 hc)]; simp)]
    have b1 : 0 ≤ N * (c + 1) := mul_nonneg (by omega) (by omega)
    have b2 : N * (c + 1) ≤ 10000 * 10000 := mul_le_mul (by omega) (by omega) (by omega) (by omega)
    exact wrap32_of_range _ (by unfold INT_MIN; omega) (by unfold INT_MAX; omega)
  · show p.g.mem .MA r c = _
    rw [hmem, if_neg (by simp), hinit, if_pos (hin r c hr0 hr hc0 hc)]
    simp
  · show p.g.mem .MB r c = _
    rw [hmem, if_neg (by simp), hinit, if_pos (hin r c hr0 hr hc0 hc)]
    simp

/-- Witness of C4: the configurations `N = 2` (one and two workers), `N = 3` and
`N = 4` with two and with four workers. -/
theorem main_computes_table_witness :
    (∃ s1, main 3 2 2 exampleSpawn exampleState = some (0, s1) ∧
      ∀ r c, 0 ≤ r → r < 2 → 0 ≤ c → c < 2 →
        s1.mem .MC r c = 2 * (c + 1) ∧ s1.mem .MA r c = 1 ∧ s1.mem .MB r c = c + 1) ∧
    (∃ s1, main 3 3 3 exampleSpawn exampleState = some (0, s1) ∧
      ∀ r c, 0 ≤ r → r < 3 → 0 ≤ c → c < 3 →
        s1.mem .MC r c = 3 * (c + 1) ∧ s1.mem .MA r c = 1 ∧ s1.mem .MB r c = c + 1) ∧
    (∃ s1, main 3 4 2 exampleSpawn exampleState = some (0, s1) ∧
      ∀ r c, 0 ≤ r → r < 4 → 0 ≤ c → c < 4 →
        s1.mem .MC r c = 4 * (c + 1) ∧ s1.mem .MA r c = 1 ∧ s1.mem .MB r c = c + 1) ∧
    (∃ s1, main 3 4 4 exampleSpawn exampleState = some (0, s1) ∧
      ∀ r c, 0 ≤ r → r < 4 → 0 ≤ c → c < 4 →
        s1.mem .MC r c = 4 * (c + 1) ∧ s1.mem .MA r c = 1 ∧ s1.mem .MB r c = c + 1) :=
  ⟨main_computes_table 2 2 (by decide) (by decide) (by decide) (by decide) exampleSpawn
      (fun _ _ _ => rfl) exampleState,
   main_computes_table 3 3 (by decide) (by decide) (by decide) (by decide) exampleSpawn
      (fun _ _ _ => rfl) exampleState,
   main_computes_table 4 2 (by decide) (by decide) (by decide) (by decide) exampleSpawn
      (fun _ _ _ => rfl) exampleState,
   main_computes_table 4 4 (by decide) (by decide) (by decide) (by decide) exampleSpawn
      (fun _ _ _ => rfl) exampleState⟩

/-- C5: for fixed `N` and fixed contents of `MA` and `MB` (any global state `g`),
running the partitioned `multiply` calls of the creation loop gives the same
store for every valid worker count: for two valid counts `M1` and `M2` both
runs complete, and both leave exactly the store left by the single call
`multiply(N, 0, N - 1, MA, MB, MC, mutex)`, which is the call made when
`M = 1`. -/
theorem partition_independent (N M1 M2 : Int)
    (hM1 : 1 ≤ M1) (hMN1 : M1 ≤ N) (hdiv1 : Int.tmod N M1 = 0)
    (hM2 : 1 ≤ M2) (hMN2 : M2 ≤ N) (hdiv2 : Int.tmod N M2 = 0) (hNA : N ≤ ARRAY_SIZE)
    (spawn1 spawn2 : Int → Option Nat)
    (hall1 : ∀ i, 0 ≤ i → i < M1 → (spawn1 i).isSome = true)
    (hall2 : ∀ i, 0 ≤ i → i < M2 → (spawn2 i).isSome = true)
    (self : Nat) (g : State) :
    ∃ p1 p2 s1,
      main_create_all N M1 (Int.tdiv N M1) spawn1 (Proc.alloc M1 g) = some p1 ∧
      main_create_all N M2 (Int.tdiv N M2) spawn2 (Proc.alloc M2 g) = some p2 ∧
      multiply self N 0 (N - 1) .MA .MB .MC g = some s1 ∧
      (∀ m r c, p1.g.mem m r c = s1.mem m r c) ∧
      (∀ m r c, p2.g.mem m r c = s1.mem m r c) ∧
      (∀ m r c, p1.g.mem m r c = p2.g.mem m r c) := by
  have hA : ARRAY_SIZE = 10000 := rfl
  have e1 : Int.tdiv N M1 = N / M1 := Int.tdiv_eq_ediv (by omega) (by omega)
  have e2 : Int.tdiv N M2 = N / M2 := Int.tdiv_eq_ediv (by omega) (by omega)
  obtain ⟨_, hc1, hm1⟩ := col_per_thread_spec N M1 hM1 hMN1 hdiv1
  obtain ⟨_, hc2, hm2⟩ := col_per_thread_spec N M2 hM2 hMN2 hdiv2
  obtain ⟨p1, hp1, hI1⟩ := main_create_all_spec N M1 (N / M1) (by omega) hc1 hm1 hNA spawn1
    g.mem (Proc.alloc M1 g) (createInv_alloc N M1 (N / M1) spawn1 g)
  obtain ⟨p2, hp2, hI2⟩ := main_create_all_spec N M2 (N / M2) (by omega) hc2 hm2 hNA spawn2
    g.mem (Proc.alloc M2 g) (createInv_alloc N M2 (N / M2) spawn2 g)
  obtain ⟨s1, hs1, hms⟩ := multiply_spec self .MA .MB .MC (by decide) (by decide)
    N 0 (N - 1) hNA (le_refl _) (by omega) g
  have k1 := createInv_all N M1 (N / M1) hc1 hm1 spawn1 hall1 g.mem p1 hI1
  have k2 := createInv_all N M2 (N / M2) hc2 hm2 spawn2 hall2 g.mem p2 hI2
  rw [e1, e2]
  refine ⟨p1, p2, s1, hp1, hp2, hs1, ?_, ?_, ?_⟩
  · intro m r c; rw [k1, hms]
  · intro m r c; rw [k2, hms]
  · intro m r c; rw [k1, k2]

/-- Witness of C5: `N = 4` with two workers and with four workers, against the
single call. -/
theorem partition_independent_witness :
    ∃ p1 p2 s1,
      main_create_all 4 2 (Int.tdiv 4 2) exampleSpawn (Proc.alloc 2 exampleState) = some p1 ∧
      main_create_all 4 4 (Int.tdiv 4 4) exampleSpawn (Proc.alloc 4 exampleState) = some p2 ∧
      multiply 7 4 0 (4 - 1) .MA .MB .MC exampleState = some s1 ∧
      (∀ m r c, p1.g.mem m r c = s1.mem m r c) ∧
      (∀ m r c, p2.g.mem m r c = s1.mem m r c) ∧
      (∀ m r c, p1.g.mem m r c = p2.g.mem m r c) :=
  partition_independent 4 2 4 (by decide) (by decide) (by decide) (by decide) (by decide)
    (by decide) (by decide) exampleSpawn exampleSpawn (fun _ _ _ => rfl) (fun _ _ _ => rfl)
    7 exampleState

/-- C8, as stated, fails on the code: with `N = 2`, `M = 2` and the creation of
worker 0 failing, `main` is not aborted at the failure.  It reaches the end of
its creation loop, having recorded the failed creation of worker 0 and then
created worker 1 exactly as in a successful run; worker 1 ran to completion
and stored `MC[0][1] = 4`, while column 0 was never computed (`MC[0][0]` still
holds the 99 of the sample state).  Nothing was printed about the failure. -/
theorem spawn_failure_not_aborted :
    (main_spawn 2 2 exampleSpawnFailure exampleState).map
      (fun p => (decide (Event.create 0 none ∈ p.g.trace),
        decide (Event.create 1 (some 11) ∈ p.g.trace),
        decide (Event.print (.completed 1 1 1) ∈ p.g.trace),
        p.g.mem .MC 0 1, p.g.mem .MC 0 0,
        p.g.trace.filter (fun e => e = .print .usage ∨ e = .print .invalid_input)))
      = some (true, true, true, 4, 99, []) := by
  rfl

/-- C8 amended: `main` never looks at the result of a thread creation.  On a
valid configuration, whatever creations fail, the creation loop runs to its
end: every work item is built, a worker whose creation succeeded has computed
its columns (`MC[r][c] = N * (c + 1)`), the columns of a worker whose creation
failed are as they were before the run, and `main` has no exit path that
reports a failure: whenever it returns, the exit status is 0. -/
theorem spawn_failure_ignored (N M : Int) (hM : 1 ≤ M) (hMN : M ≤ N) (hNA : N ≤ ARRAY_SIZE)
    (hdiv : Int.tmod N M = 0) (spawn : Int → Option Nat) (s : State) :
    ∃ p, main_spawn N M spawn s = some p ∧
      (∀ i, 0 ≤ i → i < M → p.packages i = some (work_item N (N / M) i)) ∧
      (∀ r c, 0 ≤ r → r < N → 0 ≤ c → c < N →
        p.g.mem .MC r c =
          if (spawn (c / (N / M))).isSome = true then N * (c + 1) else s.mem .MC r c) ∧
      (∀ res, main 3 N M spawn s = some res → res.1 = 0) := by
  obtain ⟨p, g1, hp, hg1, hI⟩ := main_spawn_spec N M hM hMN hNA hdiv spawn s
  obtain ⟨_, hcpt, hmul⟩ := col_per_thread_spec N M hM hMN hdiv
  obtain ⟨g2, hg2, hinit⟩ := main_init_spec N hNA
    ((s.emit (.malloc_threads M)).emit (.malloc_packages M))
  rw [hg1] at hg2
  cases hg2
  have hA : ARRAY_SIZE = 10000 := rfl
  refine ⟨p, hp, hI.2.2.1, ?_, (main_valid_exit N M hM hMN hNA hdiv spawn s).2⟩
  intro r c hr0 hr hc0 hc
  have hin : ∀ r c, 0 ≤ r → r < N → 0 ≤ c → c < N → (0 ≤ r ∧ r < N ∧ 0 ≤ c ∧ c < N) :=
    fun _ _ a b c d => ⟨a, b, c, d⟩
  rw [hI.2.2.2.2.2 .MC r c, hmul]
  by_cases hs : (spawn (c / (N / M))).isSome = true
  · have h1 : MatId.MC = MatId.MC ∧ 0 ≤ r ∧ r < N ∧ 0 ≤ c ∧ c < N ∧
        (spawn (c / (N / M))).isSome = true := ⟨rfl, hr0, hr, hc0, hc, hs⟩
    rw [if_pos h1, if_pos hs, dotProduct_sample N r c (by omega) _ _
      (fun k hk0 hk => by rw [hinit, if_pos (hin r k hr0 hr hk0 hk)]; simp)
      (fun k hk0 hk => by rw [hinit, if_pos (hin k c hk0 hk hc0 hc)]; simp)]
    have b1 : 0 ≤ N * (c + 1) := mul_nonneg (by omega) (by omega)
    have b2 : N * (c + 1) ≤ 10000 * 10000 := mul_le_mul (by omega) (by omega) (by omega) (by omega)
    exact wrap32_of_range _ (by unfold INT_MIN; omega) (by unfold INT_MAX; omega)
  · have h1 : ¬ (MatId.MC = MatId.MC ∧ 0 ≤ r ∧ r < N ∧ 0 ≤ c ∧ c < N ∧
        (spawn (c / (N / M))).isSome = true) := by
      rintro ⟨_, _, _, _, _, h⟩; exact hs h
    rw [if_neg h1, if_neg hs, hinit, if_pos (hin r c hr0 hr hc0 hc)]
    simp [State.emit]

/-- Witness of C8 amended: `N = 2`, `M = 2` with the creation of worker 0
failing. -/
theorem spawn_failure_ignored_witness :
    ∃ p, main_spawn 2 2 exampleSpawnFailure exampleState = some p ∧
      (∀ i, 0 ≤ i → i < 2 → p.packages i = some (work_item 2 (2 / 2) i)) ∧
      (∀ r c, 0 ≤ r → r < 2 → 0 ≤ c → c < 2 →
        p.g.mem .MC r c =
          if (exampleSpawnFailure (c / (2 / 2))).isSome = true then 2 * (c + 1)
          else exampleState.mem .MC r c) ∧
      (∀ res, main 3 2 2 exampleSpawnFailure exampleState = some res → res.1 = 0) :=
  spawn_failure_ignored 2 2 (by decide) (by decide) (by decide) (by decide)
    exampleSpawnFailure exampleState

theorem store_some (s s1 : State) (m : MatId) (row col v : Int)
    (h : s.store m row col v = some s1) : s1.mem = setCell s.mem m row col v := by
  unfold State.store at h
  by_cases hb : inBounds row col
  · simp [hb] at h; rw [← h]
  · simp [hb] at h

theorem load_some (s s1 : State) (m : MatId) (row col v : Int)
    (h : s.load m row col = some (v, s1)) : s1.mem = s.mem := by
  unfold State.load at h
  by_cases hb : inBounds row col
  · simp [hb, State.emit] at h; rw [← h.2]
  · simp [hb] at h

/-- Any defined execution of the accumulate statement stores the wrapped sum
of the cell and the wrapped product into `MC[row][col]`. -/
theorem multiply_acc_mem (MA MB MC : MatId) (row col k : Int) (s s1 : State)
    (h : multiply_acc MA MB MC row col k s = some s1) :
    s1.mem = setCell s.mem MC row col
      (wrap32 (s.mem MC row col + wrap32 (s.mem MA row k * s.mem MB k col))) := by
  unfold multiply_acc State.load State.store at h
  by_cases h1 : inBounds row k
  · by_cases h2 : inBounds k col
    · by_cases h3 : inBounds row col
      · simp [h1, h2, h3, State.emit] at h
        rw [← h]
      · simp [h1, h2, h3] at h
    · simp [h1, h2] at h
  · simp [h1] at h

/-- The invariant of a worker only reads cells of `MC` in its own column
range. -/
theorem threadInv_frame (N cpt : Int) (A0 B0 : matrix_t) (i : Int) (t : Thread)
    (mem mem1 : MatId → matrix_t)
    (hI : ThreadInv N cpt A0 B0 i t mem)
    (hf : ∀ r c, i * cpt ≤ c → c ≤ (i + 1) * cpt - 1 → mem1 .MC r c = mem .MC r c) :
    ThreadInv N cpt A0 B0 i t mem1 := by
  obtain ⟨hpk, hwf, hprog, hk⟩ := hI
  refine ⟨hpk, hwf, ?_, ?_⟩
  · intro r c hr0 hr hc hpos
    have hle : c ≤ (i + 1) * cpt - 1 := by
      obtain ⟨self, pk, pc⟩ := t
      cases pc <;> simp only [Pc.pos, Pc.wf] at hpos hwf <;> omega
    rw [hf r c hc hle]
    exact hprog r c hr0 hr hc hpos
  · intro col row k hpc
    have hwf2 := hwf
    rw [hpc] at hwf2
    simp only [Pc.wf] at hwf2
    rw [hf row col hwf2.1 hwf2.2.1]
    exact hk col row k hpc

/-- One statement of worker `i` preserves its invariant, leaves `MA` and `MB`
alone, writes `MC` only inside the column range of worker `i`, and a worker
that has returned stays so. -/
theorem thread_step_inv (N cpt : Int) (hN0 : 0 ≤ N) (hcpt : 1 ≤ cpt) (A0 B0 : matrix_t)
    (i : Int) (t t1 : Thread) (mu mu1 : Option Int) (g g1 : State)
    (hA : g.mem .MA = A0) (hB : g.mem .MB = B0)
    (hI : ThreadInv N cpt A0 B0 i t g.mem)
    (hs : t.step i mu g = some (t1, mu1, g1)) :
    ThreadInv N cpt A0 B0 i t1 g1.mem ∧ g1.mem .MA = A0 ∧ g1.mem .MB = B0 ∧
      (∀ r c, ¬ (i * cpt ≤ c ∧ c ≤ (i + 1) * cpt - 1) → g1.mem .MC r c = g.mem .MC r c) ∧
      (t.pc = .done → t1.pc = .done) := by
  obtain ⟨self, pk, pc⟩ := t
  obtain ⟨hpk, hwf, hprog, hk⟩ := hI
  simp only at hpk hwf hprog hk
  subst hpk
  have e : (i + 1) * cpt = i * cpt + cpt := by ring
  cases pc with
  | start =>
    simp only [Thread.step, work_item, State.emit, Option.some.injEq, Prod.mk.injEq] at hs
    obtain ⟨rfl, _, rfl⟩ := hs
    refine ⟨⟨rfl, ?_, ?_, ?_⟩, hA, hB, fun _ _ _ => rfl, ?_⟩
    · simp only [Pc.wf]; omega
    · intro r c hr0 hr hc hp
      exact hprog r c hr0 hr hc hp
    · intro col row k hpc; simp at hpc
    · intro h; simp at h
  | col_test col =>
    simp only [Thread.step, work_item] at hs
    by_cases hc : col ≤ (i + 1) * cpt - 1
    · simp only [hc, if_true, Option.some.injEq, Prod.mk.injEq] at hs
      obtain ⟨rfl, _, rfl⟩ := hs
      simp only [Pc.wf] at hwf
      refine ⟨⟨rfl, ?_, ?_, ?_⟩, hA, hB, fun _ _ _ => rfl, ?_⟩
      · simp only [Pc.wf]; omega
      · intro r c hr0 hr hc1 hp
        exact hprog r c hr0 hr hc1 hp
      · intro col row k hpc; simp at hpc
      · intro h; simp at h
    · simp only [hc, if_false, Option.some.injEq, Prod.mk.injEq] at hs
      obtain ⟨rfl, _, rfl⟩ := hs
      simp only [Pc.wf] at hwf
      refine ⟨⟨rfl, ?_, ?_, ?_⟩, hA, hB, fun _ _ _ => rfl, ?_⟩
      · simp only [Pc.wf]
      · intro r c hr0 hr hc1 hp
        apply hprog r c hr0 hr hc1
        simp only [Pc.pos] at hp ⊢
        omega
      · intro col row k hpc; simp at hpc
      · intro h; simp at h
  | row_test col row =>
    simp only [Thread.step, work_item] at hs
    simp only [Pc.wf] at hwf
    by_cases hr : row < N
    · simp only [hr, if_true] at hs
      cases hst : g.store .MC row col 0 with
      | none => simp [hst] at hs
      | some g2 =>
        simp only [hst, Option.some.injEq, Prod.mk.injEq] at hs
        obtain ⟨rfl, _, rfl⟩ := hs
        have hm := store_some _ _ _ _ _ _ hst
        refine ⟨⟨rfl, ?_, ?_, ?_⟩, ?_, ?_, ?_, ?_⟩
        · simp only [Pc.wf]; omega
        · intro r c hr0 hr1 hc1 hp
          simp only [Pc.pos] at hp
          rw [hm]
          unfold setCell
          have : ¬ (MatId.MC = MatId.MC ∧ r = row ∧ c = col) := by
            rintro ⟨_, _, _⟩; omega
          rw [if_neg this]
          exact hprog r c hr0 hr1 hc1 hp
        · intro col1 row1 k hpc
          simp only [Pc.k_test.injEq] at hpc
          obtain ⟨rfl, rfl, rfl⟩ := hpc
          rw [hm, setCell_same, dotProduct_zero]
          rfl
        · rw [hm, ← hA]; funext r c; simp [setCell]
        · rw [hm, ← hB]; funext r c; simp [setCell]
        · intro r c hout
          rw [hm]
          unfold setCell
          have : ¬ (MatId.MC = MatId.MC ∧ r = row ∧ c = col) := by
            rintro ⟨_, _, rfl⟩; exact hout ⟨by omega, by omega⟩
          rw [if_neg this]
        · intro h; simp at h
    · simp only [hr, if_false] at hs
      by_cases hmx : col < INT_MAX
      · simp only [hmx, if_true, Option.some.injEq, Prod.mk.injEq] at hs
        obtain ⟨rfl, _, rfl⟩ := hs
        refine ⟨⟨rfl, ?_, ?_, ?_⟩, hA, hB, fun _ _ _ => rfl, ?_⟩
        · simp only [Pc.wf]; omega
        · intro r c hr0 hr1 hc1 hp
          apply hprog r c hr0 hr1 hc1
          simp only [Pc.pos] at hp ⊢
          omega
        · intro col row k hpc; simp at hpc
        · intro h; simp at h
      · simp [hmx] at hs
  | k_test col row k =>
    simp only [Thread.step, work_item] at hs
    simp only [Pc.wf] at hwf
    by_cases hkN : k < N
    · simp only [hkN, if_true] at hs
      cases hst : multiply_acc .MA .MB .MC row col k g with
      | none => simp [hst] at hs
      | some g2 =>
        simp only [hst] at hs
        by_cases hmx : k < INT_MAX
        · simp only [hmx, if_true, Option.some.injEq, Prod.mk.injEq] at hs
          obtain ⟨rfl, _, rfl⟩ := hs
          have hm := multiply_acc_mem _ _ _ _ _ _ _ _ hst
          refine ⟨⟨rfl, ?_, ?_, ?_⟩, ?_, ?_, ?_, ?_⟩
          · simp only [Pc.wf]; omega
          · intro r c hr0 hr1 hc1 hp
            simp only [Pc.pos] at hp
            rw [hm]
            unfold setCell
            have : ¬ (MatId.MC = MatId.MC ∧ r = row ∧ c = col) := by
              rintro ⟨_, _, _⟩; omega
            rw [if_neg this]
            exact hprog r c hr0 hr1 hc1 hp
          · intro col1 row1 k1 hpc
            simp only [Pc.k_test.injEq] at hpc
            obtain ⟨rfl, rfl, rfl⟩ := hpc
            rw [hm, setCell_same, hA, hB, hk _ _ _ rfl, wrap32_add_wrap32,
              dotProduct_succ k hwf.2.2.2.2.1]
          · rw [hm, ← hA]; funext r c; simp [setCell]
          · rw [hm, ← hB]; funext r c; simp [setCell]
          · intro r c hout
            rw [hm]
            unfold setCell
            have : ¬ (MatId.MC = MatId.MC ∧ r = row ∧ c = col) := by
              rintro ⟨_, _, rfl⟩; exact hout ⟨by omega, by omega⟩
            rw [if_neg this]
          · intro h; simp at h
        · simp [hmx] at hs
    · simp only [hkN, if_false, Option.some.injEq, Prod.mk.injEq] at hs
      obtain ⟨rfl, _, rfl⟩ := hs
      have hkeq : k = N := by omega
      refine ⟨⟨rfl, ?_, ?_, ?_⟩, hA, hB, fun _ _ _ => rfl, ?_⟩
      · simp only [Pc.wf]; omega
      · intro r c hr0 hr1 hc1 hp
        simp only [Pc.pos] at hp
        by_cases hcell : c = col ∧ r = row
        · obtain ⟨rfl, rfl⟩ := hcell
          rw [hk _ _ _ rfl, hkeq]
        · apply hprog r c hr0 hr1 hc1
          simp only [Pc.pos]
          omega
      · intro col row k hpc; simp at hpc
      · intro h; simp at h
  | lock col row =>
    simp only [Thread.step] at hs
    simp only [Pc.wf] at hwf
    cases mu with
    | none =>
      simp only [State.emit, Option.some.injEq, Prod.mk.injEq] at hs
      obtain ⟨rfl, _, rfl⟩ := hs
      refine ⟨⟨rfl, ?_, ?_, ?_⟩, hA, hB, fun _ _ _ => rfl, ?_⟩
      · simp only [Pc.wf]; omega
      · intro r c hr0 hr1 hc1 hp
        exact hprog r c hr0 hr1 hc1 hp
      · intro col row k hpc; simp at hpc
      · intro h; simp at h
    | some j =>
      simp only [Option.some.injEq, Prod.mk.injEq] at hs
      obtain ⟨rfl, _, rfl⟩ := hs
      exact ⟨⟨rfl, hwf, hprog, hk⟩, hA, hB, fun _ _ _ => rfl, fun h => h⟩
  | report col row =>
    simp only [Thread.step, work_item] at hs
    simp only [Pc.wf] at hwf
    cases hl : g.load .MC row col with
    | none => simp [hl] at hs
    | some vg =>
      obtain ⟨v, g2⟩ := vg
      simp only [hl, State.emit, Option.some.injEq, Prod.mk.injEq] at hs
      obtain ⟨rfl, _, rfl⟩ := hs
      have hm : g2.mem = g.mem := load_some _ _ _ _ _ _ hl
      refine ⟨⟨rfl, ?_, ?_, ?_⟩, ?_, ?_, ?_, ?_⟩
      · simp only [Pc.wf]; omega
      · intro r c hr0 hr1 hc1 hp
        show g2.mem .MC r c = _
        rw [hm]
        exact hprog r c hr0 hr1 hc1 hp
      · intro col row k hpc; simp at hpc
      · show g2.mem .MA = _
        rw [hm, hA]
      · show g2.mem .MB = _
        rw [hm, hB]
      · intro r c _
        show g2.mem .MC r c = _
        rw [hm]
      · intro h; simp at h
  | unlock col row =>
    simp only [Thread.step] at hs
    simp only [Pc.wf] at hwf
    by_cases hmx : row < INT_MAX
    · simp only [hmx, if_true, State.emit, Option.some.injEq, Prod.mk.injEq] at hs
      obtain ⟨rfl, _, rfl⟩ := hs
      refine ⟨⟨rfl, ?_, ?_, ?_⟩, hA, hB, fun _ _ _ => rfl, ?_⟩
      · simp only [Pc.wf]; omega
      · intro r c hr0 hr1 hc1 hp
        exact hprog r c hr0 hr1 hc1 hp
      · intro col row k hpc; simp at hpc
      · intro h; simp at h
    · simp [hmx] at hs
  | finish =>
    simp only [Thread.step, State.emit, Option.some.injEq, Prod.mk.injEq] at hs
    obtain ⟨rfl, _, rfl⟩ := hs
    refine ⟨⟨rfl, ?_, ?_, ?_⟩, hA, hB, fun _ _ _ => rfl, fun _ => rfl⟩
    · simp only [Pc.wf]
    · intro r c hr0 hr1 hc1 hp
      exact hprog r c hr0 hr1 hc1 hp
    · intro col row k hpc; simp at hpc
  | done =>
    simp only [Thread.step, Option.some.injEq, Prod.mk.injEq] at hs
    obtain ⟨rfl, _, rfl⟩ := hs
    exact ⟨⟨rfl, hwf, hprog, hk⟩, hA, hB, fun _ _ _ => rfl, fun h => h⟩

/-- The column ranges of two different workers have no column in common. -/
theorem ranges_disjoint (cpt i j c : Int) (hcpt : 1 ≤ cpt) (hij : i ≠ j)
    (hi : i * cpt ≤ c ∧ c ≤ (i + 1) * cpt - 1) :
    ¬ (j * cpt ≤ c ∧ c ≤ (j + 1) * cpt - 1) := by
  intro hj
  have e1 := (owner_iff cpt i c hcpt).2 ⟨hi.1, by omega⟩
  have e2 := (owner_iff cpt j c hcpt).2 ⟨hj.1, by omega⟩
  exact hij (by omega)

/-- The invariant of `main` survives any step that leaves the control point of
`main` alone and keeps returned workers returned. -/
theorem mainInv_mono (M : Int) (sys sys1 : Sys) (hm : sys1.main = sys.main)
    (hd : ∀ k t, sys.workers k = some t → t.pc = .done →
      ∃ t1, sys1.workers k = some t1 ∧ t1.pc = .done)
    (hI : MainInv M sys) : MainInv M sys1 := by
  unfold MainInv at hI ⊢
  rw [hm]
  cases hmain : sys.main with
  | create j => simpa [hmain] using hI
  | join j =>
    simp only [hmain] at hI ⊢
    refine ⟨hI.1, hI.2.1, ?_⟩
    intro i h0 h1
    obtain ⟨t, ht, hdone⟩ := hI.2.2 i h0 h1
    exact hd i t ht hdone
  | dump =>
    simp only [hmain] at hI ⊢
    intro i h0 h1
    obtain ⟨t, ht, hdone⟩ := hI i h0 h1
    exact hd i t ht hdone

/-- Every step of the program preserves `SysInv`. -/
theorem sys_step_inv (N M cpt : Int) (hcpt : 1 ≤ cpt) (hN : M * cpt = N)
    (hNA : N ≤ ARRAY_SIZE) (hM0 : 0 ≤ M) (spawn : Int → Option Nat) (A0 B0 : matrix_t)
    (sys sys1 : Sys) (who : Option Int) (hI : SysInv N M cpt A0 B0 sys)
    (hs : sys.step N M cpt spawn who = some sys1) : SysInv N M cpt A0 B0 sys1 := by
  obtain ⟨hA, hB, hW, hMain⟩ := hI
  have hN0 : 0 ≤ N := by rw [← hN]; exact mul_nonneg hM0 (by omega)
  cases who with
  | none =>
    simp only [Sys.step, Sys.main_step] at hs
    cases hmain : sys.main with
    | create j =>
      simp only [hmain] at hs
      have hj : 0 ≤ j ∧ j ≤ M := by simpa [MainInv, hmain] using hMain
      by_cases hjM : j < M
      · simp only [hjM, if_true] at hs
        cases hsp : spawn j with
        | none =>
          simp only [hsp] at hs
          by_cases hmx : j < INT_MAX
          · simp only [hmx, if_true, Option.some.injEq] at hs
            subst hs
            refine ⟨hA, hB, hW, ?_⟩
            simp only [MainInv]
            omega
          · simp [hmx] at hs
        | some tid =>
          simp only [hsp] at hs
          by_cases hmx : j < INT_MAX
          · simp only [hmx, if_true, Option.some.injEq] at hs
            subst hs
            refine ⟨hA, hB, ?_, ?_⟩
            · intro i t ht
              simp only at ht
              by_cases hij : i = j
              · subst hij
                simp only [if_true, Option.some.injEq] at ht
                subst ht
                refine ⟨hj.1, hjM, ?_, ?_, ?_, ?_⟩
                · exact main_create_package N M cpt i hcpt hN hNA hj.1 hjM
                · simp only [Pc.wf]
                · intro r c hr0 hr hc hp
                  simp only [Pc.pos] at hp
                  omega
                · intro col row k hpc; simp at hpc
              · simp only [hij, if_false] at ht
                exact hW i t ht
            · simp only [MainInv]
              omega
          · simp [hmx] at hs
      · simp only [hjM, if_false, Option.some.injEq] at hs
        subst hs
        refine ⟨hA, hB, hW, ?_⟩
        simp only [MainInv]
        exact ⟨le_refl _, hM0, fun i h0 h1 => by omega⟩
    | join j =>
      simp only [hmain] at hs
      have hj : 0 ≤ j ∧ j ≤ M ∧
          ∀ i, 0 ≤ i → i < j → ∃ t, sys.workers i = some t ∧ t.pc = .done := by
        simpa [MainInv, hmain] using hMain
      by_cases hjM : j < M
      · simp only [hjM, if_true] at hs
        cases hw : sys.workers j with
        | none => simp [hw] at hs
        | some t =>
          simp only [hw] at hs
          by_cases hdone : t.pc = .done
          · simp only [hdone, if_true] at hs
            by_cases hmx : j < INT_MAX
            · simp only [hmx, if_true, Option.some.injEq] at hs
              subst hs
              refine ⟨hA, hB, hW, ?_⟩
              simp only [MainInv]
              refine ⟨by omega, by omega, ?_⟩
              intro i h0 h1
              by_cases hij : i = j
              · subst hij; exact ⟨t, hw, hdone⟩
              · exact hj.2.2 i h0 (by omega)
            · simp [hmx] at hs
          · simp only [hdone, if_false, Option.some.injEq] at hs
            subst hs
            exact ⟨hA, hB, hW, hMain⟩
      · simp only [hjM, if_false, Option.some.injEq] at hs
        subst hs
        refine ⟨hA, hB, hW, ?_⟩
        simp only [MainInv]
        intro i h0 h1
        exact hj.2.2 i h0 (by omega)
    | dump =>
      simp only [hmain, Option.some.injEq] at hs
      subst hs
      exact ⟨hA, hB, hW, hMain⟩
  | some i =>
    simp only [Sys.step] at hs
    cases hw : sys.workers i with
    | none =>
      simp only [hw, Option.some.injEq] at hs
      subst hs
      exact ⟨hA, hB, hW, hMain⟩
    | some t =>
      simp only [hw] at hs
      cases hst : t.step i sys.mutex sys.g with
      | none => simp [hst] at hs
      | some res =>
        obtain ⟨t1, mu1, g1⟩ := res
        simp only [hst, Option.some.injEq] at hs
        subst hs
        obtain ⟨hi0, hiM, hTI⟩ := hW i t hw
        obtain ⟨hT1, hA1, hB1, hfr, hdn⟩ :=
          thread_step_inv N cpt hN0 hcpt A0 B0 i t t1 sys.mutex mu1 sys.g g1 hA hB hTI hst
        refine ⟨hA1, hB1, ?_, ?_⟩
        · intro j tj htj
          simp only at htj
          by_cases hji : j = i
          · subst hji
            simp only [if_true, Option.some.injEq] at htj
            subst htj
            exact ⟨hi0, hiM, hT1⟩
          · simp only [hji, if_false] at htj
            obtain ⟨hj0, hjM, hTJ⟩ := hW j tj htj
            refine ⟨hj0, hjM, threadInv_frame N cpt A0 B0 j tj sys.g.mem g1.mem hTJ ?_⟩
            intro r c hc1 hc2
            exact hfr r c (ranges_disjoint cpt j i c hcpt hji ⟨hc1, hc2⟩)
        · refine mainInv_mono M sys _ rfl ?_ hMain
          intro k tk htk hdone
          by_cases hki : k = i
          · subst hki
            rw [hw] at htk
            cases htk
            exact ⟨t1, by simp, hdn hdone⟩
          · exact ⟨tk, by simp [hki, htk], hdone⟩

/-- Every run of the program preserves `SysInv`. -/
theorem sys_run_inv (N M cpt : Int) (hcpt : 1 ≤ cpt) (hN : M * cpt = N)
    (hNA : N ≤ ARRAY_SIZE) (hM0 : 0 ≤ M) (spawn : Int → Option Nat) (A0 B0 : matrix_t)
    (sched : List (Option Int)) :
    ∀ sys sys1, SysInv N M cpt A0 B0 sys → Sys.run N M cpt spawn sched sys = some sys1 →
      SysInv N M cpt A0 B0 sys1 := by
  induction sched with
  | nil =>
    intro sys sys1 hI hr
    simp only [Sys.run, Option.some.injEq] at hr
    subst hr
    exact hI
  | cons who rest ih =>
    intro sys sys1 hI hr
    simp only [Sys.run] at hr
    cases hs : sys.step N M cpt spawn who with
    | none => simp [hs] at hr
    | some sys2 =>
      simp only [hs] at hr
      exact ih sys2 sys1 (sys_step_inv N M cpt hcpt hN hNA hM0 spawn A0 B0 sys sys2 who hI hs) hr

/-- Once `main` is at line 134 no step changes the state any more. -/
theorem sys_run_dump (N M cpt : Int) (spawn : Int → Option Nat) (A0 B0 : matrix_t)
    (sys : Sys) (hI : SysInv N M cpt A0 B0 sys) (hd : sys.main = .dump)
    (sched : List (Option Int)) : Sys.run N M cpt spawn sched sys = some sys := by
  have hstep : ∀ who, sys.step N M cpt spawn who = some sys := by
    intro who
    cases who with
    | none => simp [Sys.step, Sys.main_step, hd]
    | some i =>
      simp only [Sys.step]
      cases hw : sys.workers i with
      | none => rfl
      | some t =>
        obtain ⟨h0, h1, _⟩ := hI.2.2.1 i t hw
        have hM := hI.2.2.2
        simp only [MainInv, hd] at hM
        obtain ⟨t2, ht2, hdone⟩ := hM i h0 h1
        rw [hw] at ht2
        cases ht2
        obtain ⟨self, pk, pc⟩ := t
        simp only at hdone
        subst hdone
        simp only [Thread.step]
        have : (fun j => if j = i then some (Thread.mk self pk Pc.done) else sys.workers j)
            = sys.workers := by
          funext j
          by_cases hji : j = i
          · subst hji; simp [hw]
          · simp [hji]
        rw [this]
  induction sched with
  | nil => rfl
  | cons who rest ih => simp only [Sys.run, hstep who, ih]

/-- A run under a concatenated schedule is the run under the first part
followed by the run under the second. -/
theorem run_append (N M cpt : Int) (spawn : Int → Option Nat) (a b : List (Option Int)) :
    ∀ sys sys1, Sys.run N M cpt spawn a sys = some sys1 →
      Sys.run N M cpt spawn (a ++ b) sys = Sys.run N M cpt spawn b sys1 := by
  induction a with
  | nil =>
    intro sys sys1 h
    simp only [Sys.run, Option.some.injEq] at h
    subst h
    rfl
  | cons who rest ih =>
    intro sys sys1 h
    simp only [Sys.run, List.cons_append] at h ⊢
    cases hs : sys.step N M cpt spawn who with
    | none => simp [hs] at h
    | some sys2 =>
      simp only [hs] at h ⊢
      exact ih sys2 sys1 h

/-- A worker that is where it has to be, with the mutex free, has arrived. -/
theorem solo_refl (N M cpt : Int) (spawn : Int → Option Nat) (i : Int) (self : Nat)
    (pk : package_t) (sys : Sys) (pc : Pc) (hmu : sys.mutex = none)
    (hw : sys.workers i = some { self := self, pk := pk, pc := pc }) :
    SoloReach N M cpt spawn i self pk sys pc :=
  ⟨0, sys, rfl, rfl, hmu, fun _ _ => rfl, hw⟩

/-- If worker `i` arrives at `pc` from the state after one of its statements, it
arrives there from the state before. -/
theorem solo_head (N M cpt : Int) (spawn : Int → Option Nat) (i : Int) (self : Nat)
    (pk : package_t) (sys : Sys) (t t1 : Thread) (mu1 : Option Int) (g1 : State) (pc : Pc)
    (hw : sys.workers i = some t) (hst : t.step i sys.mutex sys.g = some (t1, mu1, g1))
    (h : SoloReach N M cpt spawn i self pk
      { sys with g := g1, mutex := mu1,
                 workers := fun j => if j = i then some t1 else sys.workers j } pc) :
    SoloReach N M cpt spawn i self pk sys pc := by
  obtain ⟨n, sys1, hrun, hmain, hmu, hoth, hwi⟩ := h
  refine ⟨n + 1, sys1, ?_, hmain, hmu, ?_, hwi⟩
  · simp only [List.replicate_succ, Sys.run, Sys.step, hw, hst]
    exact hrun
  · intro j hj
    rw [hoth j hj]
    simp [hj]

/-- Arrivals compose: a worker that arrives at `pc1`, and from any such state
arrives at `pc2`, arrives at `pc2`. -/
theorem solo_trans (N M cpt : Int) (spawn : Int → Option Nat) (i : Int) (self : Nat)
    (pk : package_t) (sys : Sys) (pc1 pc2 : Pc)
    (h1 : SoloReach N M cpt spawn i self pk sys pc1)
    (h2 : ∀ sys1, sys1.mutex = none →
      sys1.workers i = some { self := self, pk := pk, pc := pc1 } →
      SoloReach N M cpt spawn i self pk sys1 pc2) :
    SoloReach N M cpt spawn i self pk sys pc2 := by
  obtain ⟨n, sys1, hrun, hmain, hmu1, hoth, hwi⟩ := h1
  obtain ⟨n2, sys2, hrun2, hmain2, hmu2, hoth2, hwi2⟩ := h2 sys1 hmu1 hwi
  refine ⟨n + n2, sys2, ?_, by rw [hmain2, hmain], hmu2, ?_, hwi2⟩
  · rw [List.replicate_add, run_append N M cpt spawn _ _ _ sys1 hrun]
    exact hrun2
  · intro j hj
    rw [hoth2 j hj, hoth j hj]

/-- A worker about to unlock arrives at the next test of its `row` loop. -/
theorem solo_unlock (N M cpt : Int) (spawn : Int → Option Nat) (i : Int) (self : Nat)
    (pk : package_t) (col row : Int) (hr : row < INT_MAX) (sys : Sys)
    (hw : sys.workers i = some { self := self, pk := pk, pc := .unlock col row }) :
    SoloReach N M cpt spawn i self pk sys (.row_test col (row + 1)) := by
  have hst : Thread.step i { self := self, pk := pk, pc := .unlock col row } sys.mutex sys.g
      = some ({ self := self, pk := pk, pc := .row_test col (row + 1) }, none,
          sys.g.emit .unlock) := by
    simp [Thread.step, hr]
  exact solo_head N M cpt spawn i self pk sys _ _ _ _ _ hw hst
    (solo_refl N M cpt spawn i self pk _ _ rfl (by simp))

/-- A worker holding the mutex before its progress line arrives at the next test
of its `row` loop. -/
theorem solo_report (N M cpt : Int) (spawn : Int → Option Nat) (i : Int) (self : Nat)
    (pk : package_t) (col row : Int) (hb : inBounds row col) (hr : row < INT_MAX) (sys : Sys)
    (hw : sys.workers i = some { self := self, pk := pk, pc := .report col row }) :
    SoloReach N M cpt spawn i self pk sys (.row_test col (row + 1)) := by
  have hst : Thread.step i { self := self, pk := pk, pc := .report col row } sys.mutex sys.g
      = some ({ self := self, pk := pk, pc := .unlock col row }, sys.mutex,
          (sys.g.emit (.read pk.MC row col)).emit
            (.print (.updates self row col (sys.g.mem pk.MC row col)))) := by
    simp [Thread.step, State.load, hb]
  exact solo_head N M cpt spawn i self pk sys _ _ _ _ _ hw hst
    (solo_unlock N M cpt spawn i self pk col row hr _ (by simp))

/-- A worker before `pthread_mutex_lock`, the mutex being free, arrives at the
next test of its `row` loop. -/
theorem solo_lock (N M cpt : Int) (spawn : Int → Option Nat) (i : Int) (self : Nat)
    (pk : package_t) (col row : Int) (hb : inBounds row col) (hr : row < INT_MAX) (sys : Sys)
    (hmu : sys.mutex = none)
    (hw : sys.workers i = some { self := self, pk := pk, pc := .lock col row }) :
    SoloReach N M cpt spawn i self pk sys (.row_test col (row + 1)) := by
  have hst : Thread.step i { self := self, pk := pk, pc := .lock col row } sys.mutex sys.g
      = some ({ self := self, pk := pk, pc := .report col row }, some i,
          sys.g.emit .lock) := by
    simp [Thread.step, hmu]
  exact solo_head N M cpt spawn i self pk sys _ _ _ _ _ hw hst
    (solo_report N M cpt spawn i self pk col row hb hr _ (by simp))

/-- A worker inside its `k` loop, the mutex being free, arrives at the next test
of its `row` loop. -/
theorem solo_k (N M cpt : Int) (spawn : Int → Option Nat) (hNA : N ≤ ARRAY_SIZE) (i : Int)
    (self : Nat) (pk : package_t) (hsize : pk.size = N) (col row : Int)
    (hc0 : 0 ≤ col) (hcA : col < ARRAY_SIZE) (hr0 : 0 ≤ row) (hr : row < N) :
    ∀ (d : Nat) (k : Int) (sys : Sys), N - k = d → 0 ≤ k → sys.mutex = none →
      sys.workers i = some { self := self, pk := pk, pc := .k_test col row k } →
      SoloReach N M cpt spawn i self pk sys (.row_test col (row + 1)) := by
  have hA : ARRAY_SIZE = 10000 := rfl
  have hMX : INT_MAX = 2147483647 := rfl
  have hb : inBounds row col := by unfold inBounds; omega
  intro d
  induction d with
  | zero =>
    intro k sys hd hk0 hmu hw
    have hkN : ¬ k < N := by omega
    have hst : Thread.step i { self := self, pk := pk, pc := .k_test col row k }
        sys.mutex sys.g
        = some ({ self := self, pk := pk, pc := .lock col row }, sys.mutex, sys.g) := by
      simp [Thread.step, hsize, hkN]
    exact solo_head N M cpt spawn i self pk sys _ _ _ _ _ hw hst
      (solo_lock N M cpt spawn i self pk col row hb (by omega) _ hmu (by simp))
  | succ d ih =>
    intro k sys hd hk0 hmu hw
    have hkN : k < N := by omega
    have b1 : inBounds row k := by unfold inBounds; omega
    have b2 : inBounds k col := by unfold inBounds; omega
    have hmx : k < INT_MAX := by omega
    have hst : Thread.step i { self := self, pk := pk, pc := .k_test col row k }
        sys.mutex sys.g
        = some ({ self := self, pk := pk, pc := .k_test col row (k + 1) }, sys.mutex,
            { mem := setCell sys.g.mem pk.MC row col
                (wrap32 (sys.g.mem pk.MC row col
                  + wrap32 (sys.g.mem pk.MA row k * sys.g.mem pk.MB k col))),
              trace := sys.g.trace ++ [.read pk.MA row k, .read pk.MB k col,
                .read pk.MC row col,
                .write pk.MC row col
                  (wrap32 (sys.g.mem pk.MC row col
                    + wrap32 (sys.g.mem pk.MA row k * sys.g.mem pk.MB k col)))] }) := by
      simp only [Thread.step, hsize, hkN, if_true,
        multiply_acc_eq pk.MA pk.MB pk.MC row col k sys.g b1 b2 hb, hmx]
    exact solo_head N M cpt spawn i self pk sys _ _ _ _ _ hw hst
      (ih (k + 1) _ (by omega) (by omega) hmu (by simp))

/-- A worker at a test of its `row` loop, the mutex being free, arrives at the
next test of its `col` loop. -/
theorem solo_row (N M cpt : Int) (spawn : Int → Option Nat) (hNA : N ≤ ARRAY_SIZE) (i : Int)
    (self : Nat) (pk : package_t) (hsize : pk.size = N) (col : Int)
    (hc0 : 0 ≤ col) (hcA : col < ARRAY_SIZE) :
    ∀ (d : Nat) (row : Int) (sys : Sys), N - row = d → 0 ≤ row → sys.mutex = none →
      sys.workers i = some { self := self, pk := pk, pc := .row_test col row } →
      SoloReach N M cpt spawn i self pk sys (.col_test (col + 1)) := by
  have hA : ARRAY_SIZE = 10000 := rfl
  have hMX : INT_MAX = 2147483647 := rfl
  intro d
  induction d with
  | zero =>
    intro row sys hd hr0 hmu hw
    have hrN : ¬ row < N := by omega
    have hmx : col < INT_MAX := by omega
    have hst : Thread.step i { self := self, pk := pk, pc := .row_test col row }
        sys.mutex sys.g
        = some ({ self := self, pk := pk, pc := .col_test (col + 1) }, sys.mutex, sys.g) := by
      simp [Thread.step, hsize, hrN, hmx]
    exact solo_head N M cpt spawn i self pk sys _ _ _ _ _ hw hst
      (solo_refl N M cpt spawn i self pk _ _ hmu (by simp))
  | succ d ih =>
    intro row sys hd hr0 hmu hw
    have hrN : row < N := by omega
    have hb : inBounds row col := by unfold inBounds; omega
    have hst : Thread.step i { self := self, pk := pk, pc := .row_test col row }
        sys.mutex sys.g
        = some ({ self := self, pk := pk, pc := .k_test col row 0 }, sys.mutex,
            { mem := setCell sys.g.mem pk.MC row col 0,
              trace := sys.g.trace ++ [.write pk.MC row col 0] }) := by
      simp [Thread.step, hsize, hrN, State.store, hb]
    refine solo_head N M cpt spawn i self pk sys _ _ _ _ _ hw hst ?_
    refine solo_trans N M cpt spawn i self pk _ (.row_test col (row + 1)) _ ?_ ?_
    · exact solo_k N M cpt spawn hNA i self pk hsize col row hc0 hcA hr0 hrN (N - 0).toNat 0 _
        (by omega) (le_refl _) hmu (by simp)
    · intro sys1 hmu1 hw1
      exact ih (row + 1) sys1 (by omega) (by omega) hmu1 hw1

/-- A worker at a test of its `col` loop, the mutex being free, runs to its
return. -/
theorem solo_col (N M cpt : Int) (spawn : Int → Option Nat) (hN0 : 0 ≤ N)
    (hNA : N ≤ ARRAY_SIZE) (i : Int) (self : Nat) (pk : package_t) (hsize : pk.size = N)
    (hend : pk.end_col < ARRAY_SIZE) :
    ∀ (d : Nat) (col : Int) (sys : Sys), pk.end_col + 1 - col = d → 0 ≤ col →
      sys.mutex = none →
      sys.workers i = some { self := self, pk := pk, pc := .col_test col } →
      SoloReach N M cpt spawn i self pk sys .done := by
  intro d
  induction d with
  | zero =>
    intro col sys hd hc0 hmu hw
    have hce : ¬ col ≤ pk.end_col := by omega
    have hst : Thread.step i { self := self, pk := pk, pc := .col_test col } sys.mutex sys.g
        = some ({ self := self, pk := pk, pc := .finish }, sys.mutex, sys.g) := by
      simp [Thread.step, hce]
    refine solo_head N M cpt spawn i self pk sys _ _ _ _ _ hw hst ?_
    have hst2 : Thread.step i { self := self, pk := pk, pc := .finish } sys.mutex sys.g
        = some ({ self := self, pk := pk, pc := .done }, sys.mutex,
            sys.g.emit (.print (.completed pk.id pk.start_col pk.end_col))) := by
      simp [Thread.step]
    refine solo_head N M cpt spawn i self pk _ _ _ _ _ _ (by simp) hst2 ?_
    exact solo_refl N M cpt spawn i self pk _ _ hmu (by simp)
  | succ d ih =>
    intro col sys hd hc0 hmu hw
    have hce : col ≤ pk.end_col := by omega
    have hst : Thread.step i { self := self, pk := pk, pc := .col_test col } sys.mutex sys.g
        = some ({ self := self, pk := pk, pc := .row_test col 0 }, sys.mutex, sys.g) := by
      simp [Thread.step, hce]
    refine solo_head N M cpt spawn i self pk sys _ _ _ _ _ hw hst ?_
    refine solo_trans N M cpt spawn i self pk _ (.col_test (col + 1)) _ ?_ ?_
    · exact solo_row N M cpt spawn hNA i self pk hsize col hc0 (by omega) (N - 0).toNat 0 _
        (by omega) (le_refl _) hmu (by simp)
    · intro sys1 hmu1 hw1
      exact ih (col + 1) sys1 (by omega) (by omega) hmu1 hw1

/-- A freshly created worker on the work item of index `i`, scheduled alone
with the mutex free, runs to its return. -/
theorem solo_worker (N M cpt : Int) (spawn : Int → Option Nat) (hcpt : 1 ≤ cpt)
    (hN : M * cpt = N) (hNA : N ≤ ARRAY_SIZE) (i : Int) (hi0 : 0 ≤ i) (hi : i < M)
    (self : Nat) (sys : Sys) (hmu : sys.mutex = none)
    (hw : sys.workers i = some { self := self, pk := work_item N cpt i, pc := .start }) :
    SoloReach N M cpt spawn i self (work_item N cpt i) sys .done := by
  obtain ⟨b1, b2, b3, b4⟩ := range_bounds M cpt i hcpt hi0 hi
  have hN0 : 0 ≤ N := by omega
  have hst : Thread.step i { self := self, pk := work_item N cpt i, pc := .start }
      sys.mutex sys.g
      = some ({ self := self, pk := work_item N cpt i, pc := .col_test (i * cpt) }, sys.mutex,
          sys.g.emit (.print (.computing i (i * cpt) ((i + 1) * cpt - 1)))) := by
    simp [Thread.step, work_item]
  refine solo_head N M cpt spawn i self _ sys _ _ _ _ _ hw hst ?_
  exact solo_col N M cpt spawn hN0 hNA i self (work_item N cpt i) rfl
    (by show (i + 1) * cpt - 1 < ARRAY_SIZE; omega)
    ((i + 1) * cpt - 1 + 1 - i * cpt).toNat (i * cpt) _
    (by show (i + 1) * cpt - 1 + 1 - i * cpt = _; omega) b1 hmu (by simp)

/-- The creation loop, scheduled alone with every creation succeeding, creates
all `M` workers and leaves `main` at the join loop. -/
theorem create_phase (N M cpt : Int) (spawn : Int → Option Nat) (hMA : M ≤ ARRAY_SIZE)
    (hall : ∀ i, 0 ≤ i → i < M → (spawn i).isSome = true) :
    ∀ (d : Nat) (j : Int) (sys : Sys), M - j = d → 0 ≤ j → sys.main = .create j →
      sys.mutex = none →
      (∀ i, 0 ≤ i → i < j → ∃ self,
        sys.workers i = some { self := self, pk := main_package N cpt i, pc := .start }) →
      ∃ sys1, Sys.run N M cpt spawn (List.replicate (d + 1) none) sys = some sys1 ∧
        sys1.main = .join 0 ∧ sys1.mutex = none ∧
        ∀ i, 0 ≤ i → i < M → ∃ self,
          sys1.workers i = some { self := self, pk := main_package N cpt i, pc := .start } := by
  have hA : ARRAY_SIZE = 10000 := rfl
  have hMX : INT_MAX = 2147483647 := rfl
  intro d
  induction d with
  | zero =>
    intro j sys hd hj0 hmain hmu hw
    have hjM : ¬ j < M := by omega
    refine ⟨{ sys with main := .join 0 }, ?_, rfl, hmu, ?_⟩
    · simp [Sys.run, Sys.step, Sys.main_step, hmain, hjM]
    · intro i h0 h1
      exact hw i h0 (by omega)
  | succ d ih =>
    intro j sys hd hj0 hmain hmu hw
    have hjM : j < M := by omega
    have hmx : j < INT_MAX := by omega
    obtain ⟨tid, htid⟩ := Option.isSome_iff_exists.1 (hall j hj0 hjM)
    obtain ⟨sys1, hrun, h1, h2, h3⟩ := ih (j + 1)
      { sys with
        g := sys.g.emit (.create j (some tid)), main := .create (j + 1),
        workers := fun k =>
          if k = j then some { self := tid, pk := main_package N cpt j, pc := .start }
          else sys.workers k }
      (by omega) (by omega) rfl hmu
      (by
        intro i h0 h1
        by_cases hij : i = j
        · subst hij; exact ⟨tid, by simp⟩
        · obtain ⟨self, hs⟩ := hw i h0 (by omega)
          exact ⟨self, by simp [hij, hs]⟩)
    refine ⟨sys1, ?_, h1, h2, h3⟩
    rw [List.replicate_succ]
    simp only [Sys.run, Sys.step, Sys.main_step, hmain, hjM, if_true, htid, hmx]
    exact hrun

/-- After the creation loop, scheduling the workers alone one after the other
brings every worker to its return, `main` staying at the join loop. -/
theorem workers_phase (N M cpt : Int) (spawn : Int → Option Nat) (hcpt : 1 ≤ cpt)
    (hN : M * cpt = N) (hNA : N ≤ ARRAY_SIZE) :
    ∀ (d : Nat) (j : Int) (sys : Sys), M - j = d → 0 ≤ j → sys.main = .join 0 →
      sys.mutex = none →
      (∀ i, 0 ≤ i → i < j → ∃ t, sys.workers i = some t ∧ t.pc = .done) →
      (∀ i, j ≤ i → i < M → ∃ self,
        sys.workers i = some { self := self, pk := work_item N cpt i, pc := .start }) →
      ∃ sched sys1, Sys.run N M cpt spawn sched sys = some sys1 ∧ sys1.main = .join 0 ∧
        ∀ i, 0 ≤ i → i < M → ∃ t, sys1.workers i = some t ∧ t.pc = .done := by
  intro d
  induction d with
  | zero =>
    intro j sys hd hj0 hmain hmu hdone _
    exact ⟨[], sys, rfl, hmain, fun i h0 h1 => hdone i h0 (by omega)⟩
  | succ d ih =>
    intro j sys hd hj0 hmain hmu hdone hstart
    have hjM : j < M := by omega
    obtain ⟨self, hself⟩ := hstart j (le_refl _) hjM
    obtain ⟨n, sys1, hrun, hmain1, hmu1, hoth, hwj⟩ :=
      solo_worker N M cpt spawn hcpt hN hNA j hj0 hjM self sys hmu hself
    obtain ⟨sched, sys2, hrun2, hmain2, hall2⟩ := ih (j + 1) sys1 (by omega) (by omega)
      (by rw [hmain1, hmain]) hmu1
      (by
        intro i h0 h1
        by_cases hij : i = j
        · subst hij; exact ⟨_, hwj, rfl⟩
        · rw [hoth i hij]; exact hdone i h0 (by omega))
      (by
        intro i h0 h1
        have hij : i ≠ j := by omega
        rw [hoth i hij]; exact hstart i (by omega) h1)
    refine ⟨List.replicate n (some j) ++ sched, sys2, ?_, hmain2, hall2⟩
    rw [run_append N M cpt spawn _ _ _ sys1 hrun]
    exact hrun2

/-- Once every worker has returned, the join loop scheduled alone brings `main`
to line 134. -/
theorem join_phase (N M cpt : Int) (spawn : Int → Option Nat) (hMA : M ≤ ARRAY_SIZE) :
    ∀ (d : Nat) (j : Int) (sys : Sys), M - j = d → 0 ≤ j → sys.main = .join j →
      (∀ i, 0 ≤ i → i < M → ∃ t, sys.workers i = some t ∧ t.pc = .done) →
      ∃ sys1, Sys.run N M cpt spawn (List.replicate (d + 1) none) sys = some sys1 ∧
        sys1.main = .dump := by
  have hA : ARRAY_SIZE = 10000 := rfl
  have hMX : INT_MAX = 2147483647 := rfl
  intro d
  induction d with
  | zero =>
    intro j sys hd hj0 hmain _
    have hjM : ¬ j < M := by omega
    exact ⟨{ sys with main := .dump }, by simp [Sys.run, Sys.step, Sys.main_step, hmain, hjM],
      rfl⟩
  | succ d ih =>
    intro j sys hd hj0 hmain hdone
    have hjM : j < M := by omega
    have hmx : j < INT_MAX := by omega
    obtain ⟨t, ht, htd⟩ := hdone j hj0 hjM
    obtain ⟨sys1, hrun, h1⟩ := ih (j + 1)
      { sys with g := sys.g.emit (.join t.self), main := .join (j + 1) }
      (by omega) (by omega) rfl hdone
    refine ⟨sys1, ?_, h1⟩
    rw [List.replicate_succ]
    simp only [Sys.run, Sys.step, Sys.main_step, hmain, hjM, if_true, ht, htd, hmx]
    exact hrun

/-- On a valid configuration on which every thread creation succeeds there is a
schedule that brings `main` to line 134. -/
theorem dump_reachable (N M : Int) (hM : 1 ≤ M) (hMN : M ≤ N) (hNA : N ≤ ARRAY_SIZE)
    (hdiv : Int.tmod N M = 0) (spawn : Int → Option Nat)
    (hall : ∀ i, 0 ≤ i → i < M → (spawn i).isSome = true) (g : State) :
    ∃ sched sys, Sys.run N M (N / M) spawn sched (Sys.init g) = some sys ∧
      sys.main = .dump := by
  obtain ⟨_, hcpt, hmul⟩ := col_per_thread_spec N M hM hMN hdiv
  obtain ⟨sys1, hrun1, hmain1, hmu1, hw1⟩ := create_phase N M (N / M) spawn (by omega) hall
    (M - 0).toNat 0 (Sys.init g) (by omega) (le_refl _) rfl rfl (fun i h0 h1 => by omega)
  obtain ⟨sched, sys2, hrun2, hmain2, hw2⟩ := workers_phase N M (N / M) spawn hcpt hmul hNA
    (M - 0).toNat 0 sys1 (by omega) (le_refl _) hmain1 hmu1 (fun i h0 h1 => by omega)
    (by
      intro i h0 h1
      obtain ⟨self, hs⟩ := hw1 i h0 h1
      rw [main_create_package N M (N / M) i hcpt hmul hNA h0 h1] at hs
      exact ⟨self, hs⟩)
  obtain ⟨sys3, hrun3, hmain3⟩ := join_phase N M (N / M) spawn (by omega)
    (M - 0).toNat 0 sys2 (by omega) (le_refl _) hmain2 hw2
  refine ⟨List.replicate ((M - 0).toNat + 1) none ++
    (sched ++ List.replicate ((M - 0).toNat + 1) none), sys3, ?_, hmain3⟩
  rw [run_append N M (N / M) spawn _ _ _ sys1 hrun1,
    run_append N M (N / M) spawn _ _ _ sys2 hrun2]
  exact hrun3

/-- The program at line 113 satisfies `SysInv` for the matrices it starts with. -/
theorem sysInv_init (N M cpt : Int) (hM0 : 0 ≤ M) (g : State) :
    SysInv N M cpt (g.mem .MA) (g.mem .MB) (Sys.init g) := by
  refine ⟨rfl, rfl, ?_, ?_⟩
  · intro i t ht
    simp [Sys.init] at ht
  · simp only [MainInv, Sys.init]
    exact ⟨le_refl _, hM0⟩

/-- C9: `main` reaches the result dump only after every one of the `M` workers
has completed.  On a valid configuration, running `main` and the workers one
statement of one thread at a time from the creation loop, over any contents
of the matrices: when every thread creation succeeds some schedule brings
`main` to line 134, where the dump of `MC` begins; and for every schedule, in
every state in which `main` is at line 134, all `M` workers exist and have
returned, so all `M` joins have returned; every cell `MC[r][c]` with
`0 <= r, c < N` holds the wrapped dot product of row `r` of `MA` and column `c`
of `MB`; and this is its final value, since no later step of any thread
changes the state. -/
theorem dump_after_all_workers (N M : Int) (hM : 1 ≤ M) (hMN : M ≤ N) (hNA : N ≤ ARRAY_SIZE)
    (hdiv : Int.tmod N M = 0) (spawn : Int → Option Nat) (g : State) :
    ((∀ i, 0 ≤ i → i < M → (spawn i).isSome = true) →
      ∃ sched sys, Sys.run N M (Int.tdiv N M) spawn sched (Sys.init g) = some sys ∧
        sys.main = .dump) ∧
    ∀ (sched : List (Option Int)) (sys : Sys),
      Sys.run N M (Int.tdiv N M) spawn sched (Sys.init g) = some sys → sys.main = .dump →
      (∀ i, 0 ≤ i → i < M → ∃ t, sys.workers i = some t ∧ t.pc = .done) ∧
      (∀ r c, 0 ≤ r → r < N → 0 ≤ c → c < N →
        sys.g.mem .MC r c = wrap32 (dotProduct N (g.mem .MA) (g.mem .MB) r c)) ∧
      (∀ later, Sys.run N M (Int.tdiv N M) spawn later sys = some sys) := by
  have e1 : Int.tdiv N M = N / M := Int.tdiv_eq_ediv (by omega) (by omega)
  obtain ⟨_, hcpt, hmul⟩ := col_per_thread_spec N M hM hMN hdiv
  rw [e1]
  refine ⟨fun hall => dump_reachable N M hM hMN hNA hdiv spawn hall g, ?_⟩
  intro sched sys hrun hd
  have hI := sys_run_inv N M (N / M) hcpt hmul hNA (by omega) spawn (g.mem .MA) (g.mem .MB)
    sched (Sys.init g) sys (sysInv_init N M (N / M) (by omega) g) hrun
  have hdone : ∀ i, 0 ≤ i → i < M → ∃ t, sys.workers i = some t ∧ t.pc = .done := by
    have h := hI.2.2.2
    simpa [MainInv, hd] using h
  refine ⟨hdone, ?_, sys_run_dump N M (N / M) spawn _ _ sys hI hd⟩
  intro r c hr0 hr hc0 hc
  have hpos : 0 < N / M := by omega
  have hi0 : 0 ≤ c / (N / M) := Int.ediv_nonneg hc0 (by omega)
  have hi1 : c / (N / M) < M := (Int.ediv_lt_iff_lt_mul hpos).2 (by omega)
  obtain ⟨t, ht, htd⟩ := hdone _ hi0 hi1
  obtain ⟨_, _, _, _, hprog, _⟩ := hI.2.2.1 _ t ht
  have hown := (owner_iff (N / M) (c / (N / M)) c hcpt).1 rfl
  apply hprog r c hr0 hr hown.1
  rw [htd]
  simp only [Pc.pos]
  omega

/-- Witness of C9: two workers on a `2 x 2` product under the sample schedule,
in which the statements of the two workers alternate. -/
theorem dump_after_all_workers_witness :
    ∃ sys, Sys.run 2 2 (Int.tdiv 2 2) exampleSpawn exampleSchedule (Sys.init exampleState)
        = some sys ∧ sys.main = .dump ∧
      (∀ i, 0 ≤ i → i < 2 → ∃ t, sys.workers i = some t ∧ t.pc = .done) ∧
      (∀ r c, 0 ≤ r → r < 2 → 0 ≤ c → c < 2 →
        sys.g.mem .MC r c
          = wrap32 (dotProduct 2 (exampleState.mem .MA) (exampleState.mem .MB) r c)) ∧
      (∀ later, Sys.run 2 2 (Int.tdiv 2 2) exampleSpawn later sys = some sys) := by
  have hsome : (Sys.run 2 2 (Int.tdiv 2 2) exampleSpawn exampleSchedule
      (Sys.init exampleState)).isSome = true := by rfl
  have heq := (Option.some_get hsome).symm
  exact ⟨_, heq, rfl,
    (dump_after_all_workers 2 2 (by decide) (by decide) (by decide) (by decide) exampleSpawn
      exampleState).2 exampleSchedule _ heq rfl⟩

/-- The `k` loop of `multiply`, exactly: the cell receives the wrapped dot
product and the trace gains `acc_events`. -/
theorem multiply_kloop_eq (MA MB MC : MatId) (hA : MA ≠ MC) (hB : MB ≠ MC)
    (size row col : Int) (hs0 : 0 ≤ size) (hs : size ≤ ARRAY_SIZE) (hb : inBounds row col)
    (s : State) (T : List Event) :
    forLoop (fun k => decide (k < size)) (multiply_acc MA MB MC row col) size.toNat 0
        (State.mk (setCell s.mem MC row col 0) T)
      = some (State.mk
          (setCell s.mem MC row col (wrap32 (dotProduct size (s.mem MA) (s.mem MB) row col)))
          (T ++ acc_events MA MB MC (s.mem MA) (s.mem MB) row col size.toNat)) := by
  have hsz : size ≤ INT_MAX := by unfold ARRAY_SIZE at hs; unfold INT_MAX; omega
  obtain ⟨s1, h1, hI⟩ := forLoop_total (fun k => decide (k < size))
    (multiply_acc MA MB MC row col)
    (fun k (st : State) => st = State.mk
      (setCell s.mem MC row col (wrap32 (dotProduct k (s.mem MA) (s.mem MB) row col)))
      (T ++ acc_events MA MB MC (s.mem MA) (s.mem MB) row col k.toNat))
    0 size (by intro i; simp) hsz
    (by
      intro k st hk0 hk hI
      have b1 : inBounds row k := by unfold inBounds at *; omega
      have b2 : inBounds k col := by unfold inBounds at *; omega
      refine ⟨_, multiply_acc_eq MA MB MC row col k st b1 b2 hb, ?_⟩
      have e1 : (k + 1).toNat = k.toNat + 1 := by omega
      have e2 : ((k.toNat : Nat) : Int) = k := by omega
      subst hI
      beta_reduce
      rw [e1]
      simp only [setCell_setCell, setCell_same, setCell_other _ _ _ _ _ _ _ _ hA,
        setCell_other _ _ _ _ _ _ _ _ hB, wrap32_add_wrap32, dotProduct_succ k hk0,
        acc_events, e2, List.append_assoc])
    size.toNat 0 (State.mk (setCell s.mem MC row col 0) T) (le_refl _) hs0 (by simp)
    (by simp [dotProduct_zero, wrap32, acc_events])
  rw [h1, hI]

/-- One iteration of the `row` loop, exactly: the cell receives the wrapped dot
product and the trace gains `cell_events`. -/
theorem multiply_cell_eq (self : Nat) (MA MB MC : MatId) (hA : MA ≠ MC) (hB : MB ≠ MC)
    (size col row : Int) (hs : size ≤ ARRAY_SIZE) (hr0 : 0 ≤ row) (hr : row < size)
    (hc0 : 0 ≤ col) (hc : col < ARRAY_SIZE) (s : State) :
    multiply_cell self size MA MB MC col row s = some (State.mk
      (setCell s.mem MC row col (wrap32 (dotProduct size (s.mem MA) (s.mem MB) row col)))
      (s.trace ++ cell_events self size MA MB MC (s.mem MA) (s.mem MB) col row)) := by
  have hb : inBounds row col := by unfold inBounds; omega
  have hk := multiply_kloop_eq MA MB MC hA hB size row col (by omega) hs hb s
    (s.trace ++ [.write MC row col 0])
  simp [multiply_cell, State.store, State.load, State.emit, hb, hk, setCell_same, cell_events]

/-- The `row` loop for one column: the trace gains `col_events` and `MA`, `MB`
are unchanged. -/
theorem multiply_col_trace (self : Nat) (MA MB MC : MatId) (hA : MA ≠ MC) (hB : MB ≠ MC)
    (size col : Int) (hs : size ≤ ARRAY_SIZE) (hc0 : 0 ≤ col) (hc : col < ARRAY_SIZE)
    (s : State) :
    ∃ s1, multiply_col self size MA MB MC col s = some s1 ∧
      s1.mem MA = s.mem MA ∧ s1.mem MB = s.mem MB ∧
      s1.trace = s.trace ++
        col_events self size MA MB MC (s.mem MA) (s.mem MB) col size.toNat := by
  unfold multiply_col
  by_cases h0 : 0 < size
  · have hsz : size ≤ INT_MAX := by unfold ARRAY_SIZE at hs; unfold INT_MAX; omega
    refine forLoop_total _ _
      (fun row (st : State) => st.mem MA = s.mem MA ∧ st.mem MB = s.mem MB ∧
        st.trace = s.trace ++
          col_events self size MA MB MC (s.mem MA) (s.mem MB) col row.toNat)
      0 size (by intro i; simp) hsz ?_ size.toNat 0 s (le_refl _) (by omega) (by simp) ?_
    · intro row st hr0 hr hI
      obtain ⟨eA, eB, hT⟩ := hI
      refine ⟨_, multiply_cell_eq self MA MB MC hA hB size col row hs hr0 hr hc0 hc st, ?_⟩
      have e1 : (row + 1).toNat = row.toNat + 1 := by omega
      have e2 : ((row.toNat : Nat) : Int) = row := by omega
      refine ⟨?_, ?_, ?_⟩
      · show setCell st.mem MC row col _ MA = _
        rw [← eA]; funext r c; exact setCell_other _ _ _ _ _ _ _ _ hA
      · show setCell st.mem MC row col _ MB = _
        rw [← eB]; funext r c; exact setCell_other _ _ _ _ _ _ _ _ hB
      · show st.trace ++ _ = _
        rw [hT, eA, eB, e1]
        simp only [col_events, e2, List.append_assoc]
    · exact ⟨rfl, rfl, by simp [col_events]⟩
  · refine ⟨s, forLoop_skip _ _ _ _ _ (by simp; omega), rfl, rfl, ?_⟩
    have : size.toNat = 0 := by omega
    simp [this, col_events]

/-- The whole call of `multiply` : the trace gains `multiply_events`. -/
theorem multiply_trace (self : Nat) (MA MB MC : MatId) (hA : MA ≠ MC) (hB : MB ≠ MC)
    (size start_col end_col : Int) (hs : size ≤ ARRAY_SIZE) (h0 : 0 ≤ start_col)
    (he : end_col < ARRAY_SIZE) (s : State) :
    ∃ s1, multiply self size start_col end_col MA MB MC s = some s1 ∧
      s1.trace = s.trace ++ multiply_events self size MA MB MC (s.mem MA) (s.mem MB)
        start_col (end_col + 1 - start_col).toNat := by
  unfold multiply
  by_cases hse : start_col ≤ end_col + 1
  · have hmx : end_col + 1 ≤ INT_MAX := by unfold ARRAY_SIZE at he; unfold INT_MAX; omega
    obtain ⟨s1, h1, _, _, hT⟩ := forLoop_total (fun col => decide (col ≤ end_col))
      (multiply_col self size MA MB MC)
      (fun col (st : State) => st.mem MA = s.mem MA ∧ st.mem MB = s.mem MB ∧
        st.trace = s.trace ++ multiply_events self size MA MB MC (s.mem MA) (s.mem MB)
          start_col (col - start_col).toNat)
      start_col (end_col + 1) (by intro i; simp; omega) hmx
      (by
        intro col st hc0 hc hI
        obtain ⟨eA, eB, hT⟩ := hI
        obtain ⟨s1, h1, fA, fB, hT1⟩ := multiply_col_trace self MA MB MC hA hB size col hs
          (by omega) (by omega) st
        refine ⟨s1, h1, by rw [fA, eA], by rw [fB, eB], ?_⟩
        have e1 : (col + 1 - start_col).toNat = (col - start_col).toNat + 1 := by omega
        have e2 : start_col + (((col - start_col).toNat : Nat) : Int) = col := by omega
        rw [hT1, hT, eA, eB, e1]
        simp only [multiply_events, e2, List.append_assoc])
      (end_col + 1 - start_col).toNat start_col s (le_refl _) hse rfl
      ⟨rfl, rfl, by simp [multiply_events]⟩
    exact ⟨s1, h1, hT⟩
  · refine ⟨s, forLoop_skip _ _ _ _ _ (by simp; omega), ?_⟩
    have : (end_col + 1 - start_col).toNat = 0 := by omega
    simp [this, multiply_events]

/-- The whole call of `multiply`, store and trace together. -/
theorem multiply_eq (self : Nat) (MA MB MC : MatId) (hA : MA ≠ MC) (hB : MB ≠ MC)
    (size start_col end_col : Int) (hs : size ≤ ARRAY_SIZE) (h0 : 0 ≤ start_col)
    (he : end_col < ARRAY_SIZE) (s : State) :
    ∃ s1, multiply self size start_col end_col MA MB MC s = some s1 ∧
      (s1.mem = fun m r c =>
        if m = MC ∧ start_col ≤ c ∧ c ≤ end_col ∧ 0 ≤ r ∧ r < size then
          wrap32 (dotProduct size (s.mem MA) (s.mem MB) r c)
        else s.mem m r c) ∧
      s1.trace = s.trace ++ multiply_events self size MA MB MC (s.mem MA) (s.mem MB)
        start_col (end_col + 1 - start_col).toNat := by
  obtain ⟨s1, h1, hm⟩ := multiply_spec self MA MB MC hA hB size start_col end_col hs h0 he s
  obtain ⟨s2, h2, hT⟩ := multiply_trace self MA MB MC hA hB size start_col end_col hs h0 he s
  rw [h1] at h2
  cases h2
  exact ⟨s1, h1, hm, hT⟩

theorem acc_events_arith (MA MB MC : MatId) (A B : matrix_t) (row col : Int) :
    ∀ (n : Nat) (e : Event), e ∈ acc_events MA MB MC A B row col n →
      Event.arith_on MC row col e := by
  intro n
  induction n with
  | zero => intro e he; simp [acc_events] at he
  | succ n ih =>
    intro e he
    simp only [acc_events, List.mem_append, List.mem_cons, List.mem_singleton,
      List.not_mem_nil, or_false] at he
    rcases he with h | h | h | h | h
    · exact ih e h
    · subst h; trivial
    · subst h; trivial
    · subst h; trivial
    · subst h; exact ⟨rfl, rfl, rfl⟩

theorem progress_records_arith (MC : MatId) (row col : Int) :
    ∀ (l : List Event), (∀ e ∈ l, Event.arith_on MC row col e) → progress_records l = [] := by
  intro l
  induction l with
  | nil => intro _; rfl
  | cons e es ih =>
    intro h
    have he := h e (List.mem_cons_self _ _)
    have hes := ih (fun x hx => h x (List.mem_cons_of_mem _ hx))
    unfold progress_records at hes ⊢
    cases e <;> simp_all [Event.arith_on, Event.progress]

/-- The events of a cell are its arithmetic followed by the four events of the
progress report. -/
theorem cell_events_split (self : Nat) (size : Int) (MA MB MC : MatId) (A B : matrix_t)
    (col row : Int) :
    cell_events self size MA MB MC A B col row =
      (.write MC row col 0 :: acc_events MA MB MC A B row col size.toNat) ++
        [.lock, .read MC row col,
          .print (.updates self row col (wrap32 (dotProduct size A B row col))), .unlock] ∧
    ∀ e ∈ (.write MC row col 0 :: acc_events MA MB MC A B row col size.toNat),
      Event.arith_on MC row col e := by
  refine ⟨rfl, ?_⟩
  intro e he
  rcases List.mem_cons.1 he with h | h
  · subst h; exact ⟨rfl, rfl, rfl⟩
  · exact acc_events_arith MA MB MC A B row col _ e h

theorem progress_records_cell (self : Nat) (size : Int) (MA MB MC : MatId) (A B : matrix_t)
    (col row : Int) :
    progress_records (cell_events self size MA MB MC A B col row)
      = [.updates self row col (wrap32 (dotProduct size A B row col))] := by
  obtain ⟨h1, h2⟩ := cell_events_split self size MA MB MC A B col row
  have h3 := progress_records_arith MC row col _ h2
  unfold progress_records at h3 ⊢
  rw [h1, List.filterMap_append, h3]
  simp [Event.progress]

theorem col_events_flat (self : Nat) (size : Int) (MA MB MC : MatId) (A B : matrix_t)
    (col : Int) (n : Nat) :
    col_events self size MA MB MC A B col n =
      (List.range n).flatMap (fun (r : Nat) => cell_events self size MA MB MC A B col r) := by
  induction n with
  | zero => rfl
  | succ n ih =>
    rw [col_events, ih, List.range_succ, List.flatMap_append, List.flatMap_singleton]

theorem multiply_events_flat (self : Nat) (size : Int) (MA MB MC : MatId) (A B : matrix_t)
    (start_col : Int) (n : Nat) :
    multiply_events self size MA MB MC A B start_col n =
      (List.range n).flatMap (fun (j : Nat) => (List.range size.toNat).flatMap
        (fun (r : Nat) => cell_events self size MA MB MC A B (start_col + j) r)) := by
  induction n with
  | zero => rfl
  | succ n ih =>
    rw [multiply_events, ih, List.range_succ, List.flatMap_append, List.flatMap_singleton,
      col_events_flat]

theorem progress_records_col (self : Nat) (size : Int) (MA MB MC : MatId) (A B : matrix_t)
    (col : Int) (n : Nat) :
    progress_records (col_events self size MA MB MC A B col n) =
      (List.range n).map
        (fun (r : Nat) => Line.updates self r col (wrap32 (dotProduct size A B r col))) := by
  induction n with
  | zero => rfl
  | succ n ih =>
    have h := progress_records_cell self size MA MB MC A B col n
    unfold progress_records at ih h ⊢
    rw [col_events, List.filterMap_append, ih, h, List.range_succ, List.map_append]
    rfl

theorem progress_count_multiply (self : Nat) (size : Int) (MA MB MC : MatId)
    (A B : matrix_t) (start_col : Int) (n : Nat) :
    (progress_records (multiply_events self size MA MB MC A B start_col n)).length
      = n * size.toNat := by
  induction n with
  | zero => simp [multiply_events, progress_records]
  | succ n ih =>
    have h := progress_records_col self size MA MB MC A B (start_col + n) size.toNat
    unfold progress_records at ih h ⊢
    rw [multiply_events, List.filterMap_append, List.length_append, ih, h, List.length_map,
      List.length_range]
    ring

/-- Scanning a concatenation: when the scan of the first part succeeds, the
sections of the whole are those of the first part followed by those of the
second. -/
theorem critical_scan_append (b : List Event) :
    ∀ (a : List Event) (st : Option (List Event)) (xs : List (List Event)),
      critical_scan st a = some xs →
      critical_scan st (a ++ b) = (critical_scan none b).map (fun ys => xs ++ ys) := by
  intro a
  induction a with
  | nil =>
    intro st xs h
    cases st with
    | none =>
      simp only [critical_scan, Option.some.injEq] at h
      subst h
      simp
    | some cur => simp [critical_scan] at h
  | cons e es ih =>
    intro st xs h
    cases st with
    | none =>
      cases e with
      | lock =>
        simp only [critical_scan, List.cons_append] at h ⊢
        exact ih _ _ h
      | unlock => simp [critical_scan] at h
      | print l =>
        cases l <;> first
          | (simp only [critical_scan, List.cons_append] at h ⊢; exact ih _ _ h)
          | simp [critical_scan] at h
      | _ =>
        simp only [critical_scan, List.cons_append] at h ⊢
        exact ih _ _ h
    | some cur =>
      cases e with
      | lock => simp [critical_scan] at h
      | unlock =>
        simp only [critical_scan, List.cons_append, Option.map_eq_some'] at h ⊢
        obtain ⟨ys, hys, rfl⟩ := h
        have h2 := ih _ _ hys
        show Option.map (fun rest => cur :: rest) (critical_scan none (es ++ b)) = _
        rw [h2]
        cases critical_scan none b <;> simp
      | _ =>
        simp only [critical_scan, List.cons_append] at h ⊢
        exact ih _ _ h

/-- Arithmetic events outside a critical section are skipped by the scan. -/
theorem critical_scan_arith (MC : MatId) (row col : Int) (b : List Event) :
    ∀ (a : List Event), (∀ e ∈ a, Event.arith_on MC row col e) →
      critical_scan none (a ++ b) = critical_scan none b := by
  intro a
  induction a with
  | nil => intro _; rfl
  | cons e es ih =>
    intro h
    have he := h e (List.mem_cons_self _ _)
    have hes := ih (fun x hx => h x (List.mem_cons_of_mem _ hx))
    cases e <;> simp_all [Event.arith_on, critical_scan]

/-- The events of one cell hold one critical section: the read of the cell and
its progress line. -/
theorem critical_sections_cell (self : Nat) (size : Int) (MA MB MC : MatId) (A B : matrix_t)
    (col row : Int) :
    critical_scan none (cell_events self size MA MB MC A B col row) =
      some [[.read MC row col,
        .print (.updates self row col (wrap32 (dotProduct size A B row col)))]] := by
  obtain ⟨h1, h2⟩ := cell_events_split self size MA MB MC A B col row
  rw [h1, critical_scan_arith MC row col _ _ h2]
  simp [critical_scan]

theorem critical_sections_col (self : Nat) (size : Int) (MA MB MC : MatId) (A B : matrix_t)
    (col : Int) (n : Nat) :
    critical_scan none (col_events self size MA MB MC A B col n) =
      some ((List.range n).map (fun (r : Nat) =>
        [.read MC r col,
          .print (.updates self r col (wrap32 (dotProduct size A B r col)))])) := by
  induction n with
  | zero => rfl
  | succ n ih =>
    rw [col_events, critical_scan_append _ _ _ _ ih, critical_sections_cell,
      List.range_succ, List.map_append]
    rfl

theorem critical_sections_multiply (self : Nat) (size : Int) (MA MB MC : MatId)
    (A B : matrix_t) (start_col : Int) (n : Nat) :
    critical_scan none (multiply_events self size MA MB MC A B start_col n) =
      some ((List.range n).flatMap (fun (j : Nat) =>
        (List.range size.toNat).map (fun (r : Nat) =>
          [.read MC r (start_col + j),
            .print (.updates self r (start_col + j)
              (wrap32 (dotProduct size A B r (start_col + j))))]))) := by
  induction n with
  | zero => rfl
  | succ n ih =>
    rw [multiply_events, critical_scan_append _ _ _ _ ih, critical_sections_col,
      List.range_succ, List.flatMap_append, List.flatMap_singleton]
    rfl

/-- C14, as stated, fails on the code: the `printf` of line 59 takes `MC[row][col]`
as an argument, so the cell is read after `pthread_mutex_lock` has returned
and before `pthread_mutex_unlock` is called.  The call `multiply(1, 0, 0, ...)`
on the sample state emits the nine events below, and the events between its
`lock` and its `unlock` are the read of `MC[0][0]` and the progress line. -/
theorem lock_section_reads_matrix :
    (multiply 7 1 0 0 .MA .MB .MC exampleState).map (fun s1 => s1.trace) =
      some [.write .MC 0 0 0, .read .MA 0 0, .read .MB 0 0, .read .MC 0 0,
        .write .MC 0 0 1, .lock, .read .MC 0 0, .print (.updates 7 0 0 1), .unlock] ∧
    (multiply 7 1 0 0 .MA .MB .MC exampleState).map (fun s1 => critical_sections s1.trace) =
      some (some [[.read .MC 0 0, .print (.updates 7 0 0 1)]]) := by
  constructor <;> rfl

/-- C14 amended: in the events of any single call of `multiply` that stays inside
the arrays, `lock` and `unlock` strictly alternate starting with a `lock`, every
progress line lies between a `lock` and its `unlock`, and the call returns with
the mutex free (the scan of the events succeeds); between each `lock` and the
following `unlock` there are exactly two events, the read of the completed
cell `MC[row][col]` and the progress line of that cell: one emission, no
matrix write, and no other read. -/
theorem multiply_lock_discipline (self : Nat) (size start_col end_col : Int) (s : State)
    (hs : size ≤ ARRAY_SIZE) (h0 : 0 ≤ start_col) (he : end_col < ARRAY_SIZE) :
    ∃ s1 t, multiply self size start_col end_col .MA .MB .MC s = some s1 ∧
      s1.trace = s.trace ++ t ∧
      critical_sections t =
        some ((List.range (end_col + 1 - start_col).toNat).flatMap (fun (j : Nat) =>
          (List.range size.toNat).map (fun (r : Nat) =>
            [.read .MC r (start_col + j),
              .print (.updates self r (start_col + j) (s1.mem .MC r (start_col + j)))]))) := by
  obtain ⟨s1, h1, hm, hT⟩ := multiply_eq self .MA .MB .MC (by decide) (by decide)
    size start_col end_col hs h0 he s
  refine ⟨s1, _, h1, hT, ?_⟩
  unfold critical_sections
  rw [critical_sections_multiply]
  congr 1
  apply List.flatMap_congr
  intro j hj
  apply List.map_congr_left
  intro r hr
  rw [List.mem_range] at hj hr
  have : MatId.MC = MatId.MC ∧ start_col ≤ start_col + (j : Int) ∧
      start_col + (j : Int) ≤ end_col ∧ 0 ≤ (r : Int) ∧ (r : Int) < size :=
    ⟨rfl, by omega, by omega, by omega, by omega⟩
  rw [hm]
  simp only [this, and_self, if_true]

/-- Witness of C14 amended: the call `multiply(2, 0, 1, MA, MB, MC)` on the sample
state. -/
theorem multiply_lock_discipline_witness :
    ∃ s1 t, multiply 7 2 0 1 .MA .MB .MC exampleState = some s1 ∧
      s1.trace = exampleState.trace ++ t ∧
      critical_sections t =
        some ((List.range ((1 : Int) + 1 - 0).toNat).flatMap (fun (j : Nat) =>
          (List.range (2 : Int).toNat).map (fun (r : Nat) =>
            [.read .MC r (0 + j),
              .print (.updates 7 r (0 + j) (s1.mem .MC r (0 + j)))]))) :=
  multiply_lock_discipline 7 2 0 1 exampleState (by decide) (by decide) (by decide)

theorem main_init_cell_trace (row col : Int) (s : State) (hb : inBounds row col) :
    ∃ s1, main_init_cell row col s = some s1 ∧
      s1.trace = s.trace ++ [.write .MA row col 1, .write .MB row col (wrap32 (col + 1))] := by
  simp [main_init_cell, State.store, hb]

/-- The initialisation loops append `init_events` to the trace. -/
theorem main_init_trace (N : Int) (hN : N ≤ ARRAY_SIZE) (s : State) :
    ∃ s1, main_init N s = some s1 ∧ s1.trace = s.trace ++ init_events N N.toNat := by
  unfold main_init
  have hA : ARRAY_SIZE = 10000 := rfl
  have hM : INT_MAX = 2147483647 := rfl
  by_cases h0 : 0 < N
  · refine forLoop_total _ _
      (fun row (st : State) => st.trace = s.trace ++ init_events N row.toNat)
      0 N (by intro i; simp) (by omega) ?_ N.toNat 0 s (le_refl _) (by omega) (by simp) ?_
    · intro row st hr0 hr hI
      obtain ⟨s1, h1, hT⟩ := forLoop_total (fun col => decide (col < N)) (main_init_cell row)
        (fun col (st1 : State) => st1.trace = st.trace ++ init_row_events row col.toNat)
        0 N (by intro i; simp) (by omega)
        (by
          intro col st1 hc0 hc hI1
          obtain ⟨s2, h2, hT2⟩ := main_init_cell_trace row col st1 (by unfold inBounds; omega)
          refine ⟨s2, h2, ?_⟩
          have hw : wrap32 (col + 1) = col + 1 :=
            wrap32_of_range _ (by unfold INT_MIN; omega) (by omega)
          have e1 : (col + 1).toNat = col.toNat + 1 := by omega
          have e2 : ((col.toNat : Nat) : Int) = col := by omega
          show s2.trace = _
          rw [hT2, hI1, hw, e1]
          simp only [init_row_events, e2, List.append_assoc])
        N.toNat 0 st (le_refl _) (by omega) (by simp)
        (by simp [init_row_events])
      refine ⟨s1, h1, ?_⟩
      have e1 : (row + 1).toNat = row.toNat + 1 := by omega
      have e2 : ((row.toNat : Nat) : Int) = row := by omega
      show s1.trace = _
      rw [hT, hI, e1]
      simp only [init_events, e2, List.append_assoc]
    · simp [init_events]
  · refine ⟨s, forLoop_skip _ _ _ _ _ (by simp; omega), ?_⟩
    have : N.toNat = 0 := by omega
    simp [this, init_events]

/-- The worker of index `i` run to completion appends its whole output to the
trace. -/
theorem mult_worker_trace (N M cpt : Int) (hcpt : 1 ≤ cpt) (hN : M * cpt = N)
    (hNA : N ≤ ARRAY_SIZE) (i : Int) (hi0 : 0 ≤ i) (hi : i < M) (self : Nat) (s : State) :
    ∃ s1, mult_worker self (work_item N cpt i) s = some s1 ∧
      s1.trace = s.trace ++
        (.print (.computing i (i * cpt) ((i + 1) * cpt - 1)) ::
          multiply_events self N .MA .MB .MC (s.mem .MA) (s.mem .MB) (i * cpt) cpt.toNat ++
          [.print (.completed i (i * cpt) ((i + 1) * cpt - 1))]) := by
  obtain ⟨b1, b2, b3, _⟩ := range_bounds M cpt i hcpt hi0 hi
  have hA : ARRAY_SIZE = 10000 := rfl
  obtain ⟨s1, hs1, hT⟩ := multiply_trace self .MA .MB .MC (by decide) (by decide)
    N (i * cpt) ((i + 1) * cpt - 1) hNA b1 (by omega)
    (s.emit (.print (.computing i (i * cpt) ((i + 1) * cpt - 1))))
  have en : ((i + 1) * cpt - 1 + 1 - i * cpt).toNat = cpt.toNat := by
    congr 1; omega
  refine ⟨s1.emit (.print (.completed i (i * cpt) ((i + 1) * cpt - 1))), ?_, ?_⟩
  · simp only [mult_worker, work_item, Option.bind_eq_bind]
    rw [hs1]
    rfl
  · show s1.trace ++ _ = _
    rw [hT, en]
    simp [State.emit]

/-- One iteration of the creation loop appends `worker_events` to the trace. -/
theorem main_create_trace (N M cpt : Int) (hcpt : 1 ≤ cpt) (hN : M * cpt = N)
    (hNA : N ≤ ARRAY_SIZE) (spawn : Int → Option Nat) (g0 : MatId → matrix_t)
    (i : Int) (hi0 : 0 ≤ i) (hi : i < M) (p : Proc)
    (hI : CreateInv N M cpt spawn g0 i p) :
    ∃ p1, main_create N cpt spawn i p = some p1 ∧
      p1.g.trace = p.g.trace ++ worker_events N cpt spawn (g0 .MA) (g0 .MB) i := by
  obtain ⟨hT, hP, hpk, hth, hthn, hmem⟩ := hI
  have hidx : 0 ≤ i ∧ i < M := ⟨hi0, hi⟩
  have hidx3 : 0 ≤ i ∧ i < M ∧ i < M := ⟨hi0, hi, hi⟩
  have eA : p.g.mem .MA = g0 .MA := by
    funext r c; rw [hmem]; simp
  have eB : p.g.mem .MB = g0 .MB := by
    funext r c; rw [hmem]; simp
  unfold main_create
  simp only [main_create_package N M cpt i hcpt hN hNA hi0 hi, Proc.set_package, hP, hidx,
    and_self, if_true, Option.bind_eq_bind, Option.some_bind, Proc.pthread_create, hT, hidx3]
  cases hsp : spawn i with
  | none =>
    refine ⟨_, rfl, ?_⟩
    simp [worker_events, hsp, State.emit]
  | some tid =>
    obtain ⟨s1, hs1, hT1⟩ := mult_worker_trace N M cpt hcpt hN hNA i hi0 hi tid
      (p.g.emit (.create i (some tid)))
    simp only [if_true, hs1]
    refine ⟨_, rfl, ?_⟩
    show s1.trace = _
    rw [hT1]
    show (p.g.trace ++ [Event.create i (some tid)]) ++
      (.print (.computing i (i * cpt) ((i + 1) * cpt - 1)) ::
        multiply_events tid N .MA .MB .MC (p.g.mem .MA) (p.g.mem .MB) (i * cpt) cpt.toNat ++
        [.print (.completed i (i * cpt) ((i + 1) * cpt - 1))]) = _
    rw [eA, eB]
    simp [worker_events, hsp]

/-- The creation loop appends `create_events` to the trace. -/
theorem main_create_all_trace (N M cpt : Int) (hM : 0 ≤ M) (hcpt : 1 ≤ cpt) (hN : M * cpt = N)
    (hNA : N ≤ ARRAY_SIZE) (spawn : Int → Option Nat) (g0 : MatId → matrix_t) (p : Proc)
    (hI : CreateInv N M cpt spawn g0 0 p) :
    ∃ p1, main_create_all N M cpt spawn p = some p1 ∧ CreateInv N M cpt spawn g0 M p1 ∧
      p1.g.trace = p.g.trace ++ create_events N cpt spawn (g0 .MA) (g0 .MB) M.toNat := by
  have hMN : M ≤ N := by
    have h1 : M * 1 ≤ M * cpt := Int.mul_le_mul_of_nonneg_left hcpt hM
    omega
  have hA : ARRAY_SIZE = 10000 := rfl
  exact forLoop_total _ _
    (fun i p1 => CreateInv N M cpt spawn g0 i p1 ∧
      p1.g.trace = p.g.trace ++ create_events N cpt spawn (g0 .MA) (g0 .MB) i.toNat)
    0 M (by intro i; simp) (by unfold INT_MAX; omega)
    (by
      intro i p1 h0 h1 hJ
      obtain ⟨hC, hT⟩ := hJ
      obtain ⟨p2, hp2, hC2⟩ := main_create_spec N M cpt hcpt hN hNA spawn g0 i h0 h1 p1 hC
      obtain ⟨p3, hp3, hT3⟩ := main_create_trace N M cpt hcpt hN hNA spawn g0 i h0 h1 p1 hC
      rw [hp2] at hp3
      cases hp3
      refine ⟨p2, hp2, hC2, ?_⟩
      have e1 : (i + 1).toNat = i.toNat + 1 := by omega
      have e2 : ((i.toNat : Nat) : Int) = i := by omega
      rw [hT3, hT, e1]
      simp only [create_events, e2, List.append_assoc])
    M.toNat 0 p (le_refl _) hM (by simp) ⟨hI, by simp [create_events]⟩

/-- The join loop appends `join_events` to the trace. -/
theorem main_join_all_trace (M : Int) (hM : 0 ≤ M) (hMA : M ≤ ARRAY_SIZE)
    (spawn : Int → Option Nat) (p : Proc) (hT : p.threads_len = some M)
    (hth : ∀ j, 0 ≤ j → j < M → p.threads j = spawn j)
    (hall : ∀ j, 0 ≤ j → j < M → (spawn j).isSome = true) :
    ∃ p1, main_join_all M p = some p1 ∧ p1.g.mem = p.g.mem ∧
      p1.g.trace = p.g.trace ++ join_events spawn M.toNat := by
  have hA : ARRAY_SIZE = 10000 := rfl
  obtain ⟨p1, h1, _, _, h2, h3⟩ := forLoop_total (fun i => decide (i < M)) main_join
    (fun i (p1 : Proc) => p1.threads_len = some M ∧ p1.threads = p.threads ∧
      p1.g.mem = p.g.mem ∧ p1.g.trace = p.g.trace ++ join_events spawn i.toNat)
    0 M (by intro i; simp) (by unfold INT_MAX; omega)
    (by
      intro i p1 h0 h1 hI
      obtain ⟨a, b, c, d⟩ := hI
      obtain ⟨tid, htid⟩ := Option.isSome_iff_exists.1 (hall i h0 h1)
      have hti : p1.threads i = some tid := by rw [b, hth i h0 h1, htid]
      have hidx : 0 ≤ i ∧ i < M := ⟨h0, h1⟩
      refine ⟨{ p1 with g := p1.g.emit (.join tid) }, ?_, a, b, c, ?_⟩
      · simp [main_join, a, hidx, hti]
      · have e1 : (i + 1).toNat = i.toNat + 1 := by omega
        have e2 : ((i.toNat : Nat) : Int) = i := by omega
        show p1.g.trace ++ [Event.join tid] = _
        rw [d, e1]
        simp only [join_events, e2, htid, List.append_assoc])
    M.toNat 0 p (le_refl _) hM (by simp) ⟨hT, rfl, rfl, by simp [join_events]⟩
  exact ⟨p1, h1, h2, h3⟩

/-- On a valid configuration on which every thread creation succeeds, `main`
returns exit status 0 and the events of the run are `main_events`. -/
theorem main_trace (N M : Int) (hM : 1 ≤ M) (hMN : M ≤ N) (hNA : N ≤ ARRAY_SIZE)
    (hdiv : Int.tmod N M = 0) (spawn : Int → Option Nat)
    (hall : ∀ i, 0 ≤ i → i < M → (spawn i).isSome = true) (s : State) :
    ∃ s1, main 3 N M spawn s = some (0, s1) ∧
      s1.trace = s.trace ++
        main_events N M spawn (s1.mem .MA) (s1.mem .MB) (s1.mem .MC) := by
  obtain ⟨hd, hcpt, hmul⟩ := col_per_thread_spec N M hM hMN hdiv
  obtain ⟨g1, hg1, hT1⟩ := main_init_trace N hNA
    ((s.emit (.malloc_threads M)).emit (.malloc_packages M))
  obtain ⟨p, hp, hI, hT2⟩ := main_create_all_trace N M (N / M) (by omega) hcpt hmul hNA spawn
    (g1.emit .mutex_init).mem (Proc.alloc M (g1.emit .mutex_init))
    (createInv_alloc N M (N / M) spawn (g1.emit .mutex_init))
  obtain ⟨p1, hp1, hmem, hT3⟩ := main_join_all_trace M (by omega) (by omega) spawn p hI.1
    hI.2.2.2.1 hall
  have hsp : main_spawn N M spawn s = some p := by
    simp [main_spawn, main_setup, hd, hg1, hp]
  have hv : ¬ (N < 1 ∨ N > ARRAY_SIZE ∨ M < 1 ∨ M > N ∨ Int.tmod N M ≠ 0) := by
    rintro (h | h | h | h | h)
    · omega
    · omega
    · omega
    · omega
    · exact h hdiv
  have eA : p.g.mem .MA = g1.mem .MA := by
    funext r c; rw [hI.2.2.2.2.2]; simp [State.emit]
  have eB : p.g.mem .MB = g1.mem .MB := by
    funext r c; rw [hI.2.2.2.2.2]; simp [State.emit]
  refine ⟨State.mk p.g.mem (p1.g.trace ++ (result_dump N (p.g.mem .MC) ++
      [.system .inspect, .system .who_snapshot, .free_threads, .free_packages,
        .mutex_destroy])), ?_, ?_⟩
  · unfold main
    rw [main_invalid_eq, decide_eq_false hv]
    simp only [ne_eq, not_true_eq_false, if_false, hsp, main_finish, hp1, Option.bind_eq_bind,
      Option.some_bind, main_dump_eq N (by omega) hNA, State.emit, hmem, List.append_assoc,
      List.singleton_append, List.cons_append, List.nil_append]
  · show p1.g.trace ++ _ = _
    rw [hT3, hT2]
    show ((g1.trace ++ [Event.mutex_init]) ++ _) ++ _ ++ _ = _
    rw [hT1]
    show _ = s.trace ++ main_events N M spawn (p.g.mem .MA) (p.g.mem .MB) (p.g.mem .MC)
    rw [eA, eB]
    simp [main_events, State.emit]

theorem tally_append (a b : List Event) :
    tally (a ++ b) = ((tally a).1 + (tally b).1, (tally a).2.1 + (tally b).2.1,
      (tally a).2.2.1 + (tally b).2.2.1, (tally a).2.2.2 + (tally b).2.2.2) := by
  simp [tally, List.countP_append]

theorem tally_acc_events (MA MB MC : MatId) (A B : matrix_t) (row col : Int) (n : Nat) :
    tally (acc_events MA MB MC A B row col n) = (0, 0, 0, 0) := by
  induction n with
  | zero => rfl
  | succ n ih => rw [acc_events, tally_append, ih]; rfl

theorem tally_cell_events (self : Nat) (size : Int) (MA MB MC : MatId) (A B : matrix_t)
    (col row : Int) : tally (cell_events self size MA MB MC A B col row) = (0, 0, 0, 1) := by
  have h : cell_events self size MA MB MC A B col row =
      [.write MC row col 0] ++ (acc_events MA MB MC A B row col size.toNat ++
        [.lock, .read MC row col,
          .print (.updates self row col (wrap32 (dotProduct size A B row col))), .unlock]) :=
    rfl
  rw [h, tally_append, tally_append, tally_acc_events]
  rfl

theorem tally_col_events (self : Nat) (size : Int) (MA MB MC : MatId) (A B : matrix_t)
    (col : Int) (n : Nat) :
    tally (col_events self size MA MB MC A B col n) = (0, 0, 0, n) := by
  induction n with
  | zero => rfl
  | succ n ih => rw [col_events, tally_append, ih, tally_cell_events]; rfl

theorem tally_multiply_events (self : Nat) (size : Int) (MA MB MC : MatId) (A B : matrix_t)
    (start_col : Int) (n : Nat) :
    tally (multiply_events self size MA MB MC A B start_col n) = (0, 0, 0, n * size.toNat) := by
  induction n with
  | zero => simp [multiply_events, tally]
  | succ n ih =>
    rw [multiply_events, tally_append, ih, tally_col_events]
    simp only [add_zero, Prod.mk.injEq, true_and]
    ring

theorem tally_init_row_events (row : Int) (n : Nat) :
    tally (init_row_events row n) = (0, 0, 0, 0) := by
  induction n with
  | zero => rfl
  | succ n ih => rw [init_row_events, tally_append, ih]; rfl

theorem tally_init_events (N : Int) (n : Nat) : tally (init_events N n) = (0, 0, 0, 0) := by
  induction n with
  | zero => rfl
  | succ n ih => rw [init_events, tally_append, ih, tally_init_row_events]; rfl

theorem tally_join_events (spawn : Int → Option Nat) (n : Nat) :
    tally (join_events spawn n) = (0, 0, 0, 0) := by
  induction n with
  | zero => rfl
  | succ n ih =>
    rw [join_events, tally_append, ih]
    cases spawn n <;> rfl

theorem tally_dump_cells (C : matrix_t) (row : Int) (n : Nat) :
    tally (dump_cells C row n) = (0, 0, 0, 0) := by
  induction n with
  | zero => rfl
  | succ n ih => rw [dump_cells, tally_append, ih]; rfl

theorem tally_dump_rows (C : matrix_t) (N : Int) (n : Nat) :
    tally (dump_rows C N n) = (0, 0, 0, 0) := by
  induction n with
  | zero => rfl
  | succ n ih =>
    rw [dump_rows, tally_append, tally_append, ih, tally_dump_cells]
    rfl

theorem tally_result_dump (N : Int) (C : matrix_t) : tally (result_dump N C) = (0, 0, 0, 0) := by
  have h : result_dump N C = [.print .header] ++ dump_rows C N N.toNat := rfl
  rw [h, tally_append, tally_dump_rows]
  rfl

theorem tally_worker_events (N cpt : Int) (spawn : Int → Option Nat) (A B : matrix_t)
    (i : Int) (tid : Nat) (hsp : spawn i = some tid) :
    tally (worker_events N cpt spawn A B i) = (1, 1, 1, cpt.toNat * N.toNat) := by
  simp only [worker_events, hsp]
  rw [tally_append, tally_append, tally_multiply_events]
  simp [tally, Event.is_created, Event.is_start, Event.is_completion, Event.is_progress]

theorem tally_create_events (N cpt : Int) (spawn : Int → Option Nat) (A B : matrix_t) :
    ∀ (n : Nat), (∀ (j : Nat), j < n → (spawn j).isSome = true) →
      tally (create_events N cpt spawn A B n) = (n, n, n, n * (cpt.toNat * N.toNat)) := by
  intro n
  induction n with
  | zero => intro _; simp [create_events, tally]
  | succ n ih =>
    intro hall
    obtain ⟨tid, htid⟩ := Option.isSome_iff_exists.1 (hall n (Nat.lt_succ_self n))
    rw [create_events, tally_append, ih (fun j hj => hall j (Nat.lt_succ_of_lt hj)),
      tally_worker_events N cpt spawn A B n tid htid]
    simp only [Prod.mk.injEq, true_and]
    ring

/-- The numbers of creations, start lines, completion lines and progress lines
of a complete run on a valid configuration: `M`, `M`, `M` and `N * N`. -/
theorem tally_main_events (N M : Int) (hM : 1 ≤ M) (hMN : M ≤ N) (hdiv : Int.tmod N M = 0)
    (spawn : Int → Option Nat) (hall : ∀ i, 0 ≤ i → i < M → (spawn i).isSome = true)
    (A B C : matrix_t) :
    tally (main_events N M spawn A B C) = (M.toNat, M.toNat, M.toNat, N.toNat * N.toNat) := by
  obtain ⟨_, hcpt, hmul⟩ := col_per_thread_spec N M hM hMN hdiv
  unfold main_events
  rw [tally_append, tally_append, tally_append, tally_append, tally_append, tally_append,
    tally_init_events, tally_join_events, tally_result_dump,
    tally_create_events N (N / M) spawn A B M.toNat
      (fun j hj => hall j (by omega) (by omega))]
  have h1 : M.toNat * (N / M).toNat = N.toNat := by
    have : ((M.toNat * (N / M).toNat : Nat) : Int) = (N.toNat : Int) := by
      push_cast
      rw [Int.toNat_of_nonneg (by omega), Int.toNat_of_nonneg (by omega),
        Int.toNat_of_nonneg (by omega)]
      exact hmul
    exact_mod_cast this
  have h2 : M.toNat * ((N / M).toNat * N.toNat) = N.toNat * N.toNat := by
    rw [← mul_assoc, h1]
  simp only [tally, List.countP_cons, List.countP_nil, Event.is_created, Event.is_start,
    Event.is_completion, Event.is_progress, h2]
  simp

theorem count_zero_of_countP (p : Event → Bool) (l : List Event) (a : Event)
    (hp : p a = true) (h0 : l.countP p = 0) : l.count a = 0 := by
  rw [List.count_eq_zero]
  intro hmem
  exact (List.countP_eq_zero.1 h0) a hmem hp

/-- The start line of worker `i` occurs once in the events of iteration `i` of
the creation loop and in no other iteration; so does its completion line. -/
theorem count_worker_events (N cpt : Int) (spawn : Int → Option Nat) (A B : matrix_t)
    (i j : Int) (tid : Nat) (hsp : spawn j = some tid) :
    (worker_events N cpt spawn A B j).count
        (.print (.computing i (i * cpt) ((i + 1) * cpt - 1))) = (if j = i then 1 else 0) ∧
      (worker_events N cpt spawn A B j).count
        (.print (.completed i (i * cpt) ((i + 1) * cpt - 1))) = (if j = i then 1 else 0) := by
  have hm := tally_multiply_events tid N .MA .MB .MC A B (j * cpt) cpt.toNat
  simp only [tally, Prod.mk.injEq] at hm
  obtain ⟨_, h2, h3, _⟩ := hm
  have c1 := count_zero_of_countP Event.is_start _
    (.print (.computing i (i * cpt) ((i + 1) * cpt - 1))) rfl h2
  have c2 := count_zero_of_countP Event.is_completion _
    (.print (.completed i (i * cpt) ((i + 1) * cpt - 1))) rfl h3
  simp only [worker_events, hsp]
  rw [List.count_append, List.count_append, c1, List.count_append, List.count_append, c2]
  by_cases hji : j = i
  · subst hji
    simp [List.count_cons]
  · simp [List.count_cons, hji]

theorem count_create_events (N cpt : Int) (spawn : Int → Option Nat) (A B : matrix_t) (i : Nat) :
    ∀ (n : Nat), (∀ (j : Nat), j < n → (spawn j).isSome = true) →
      (create_events N cpt spawn A B n).count
          (.print (.computing i (i * cpt) ((i + 1) * cpt - 1))) = (if i < n then 1 else 0) ∧
        (create_events N cpt spawn A B n).count
          (.print (.completed i (i * cpt) ((i + 1) * cpt - 1))) = (if i < n then 1 else 0) := by
  intro n
  induction n with
  | zero => intro _; simp [create_events]
  | succ n ih =>
    intro hall
    obtain ⟨tid, htid⟩ := Option.isSome_iff_exists.1 (hall n (Nat.lt_succ_self n))
    obtain ⟨i1, i2⟩ := ih (fun j hj => hall j (Nat.lt_succ_of_lt hj))
    obtain ⟨w1, w2⟩ := count_worker_events N cpt spawn A B i n tid htid
    rw [create_events, List.count_append, List.count_append, i1, i2, w1, w2]
    by_cases h1 : i < n
    · have e1 : ¬ ((n : Int) = (i : Int)) := by omega
      have e2 : i < n + 1 := by omega
      rw [if_pos h1, if_neg e1, if_pos e2]
      exact ⟨rfl, rfl⟩
    · by_cases h2 : n = i
      · subst h2
        rw [if_neg h1, if_pos rfl, if_pos (Nat.lt_succ_self n)]
        exact ⟨rfl, rfl⟩
      · have e1 : ¬ ((n : Int) = (i : Int)) := by omega
        have e2 : ¬ i < n + 1 := by omega
        rw [if_neg h1, if_neg e1, if_neg e2]
        exact ⟨rfl, rfl⟩

/-- The events of the first `n` iterations of the creation loop contain the
events of iteration `i < n` as one contiguous block. -/
theorem create_events_split (N cpt : Int) (spawn : Int → Option Nat) (A B : matrix_t) (i : Nat) :
    ∀ (n : Nat), i < n → ∃ post, create_events N cpt spawn A B n =
      create_events N cpt spawn A B i ++ worker_events N cpt spawn A B i ++ post := by
  intro n
  induction n with
  | zero => intro h; omega
  | succ n ih =>
    intro h
    by_cases h1 : i < n
    · obtain ⟨post, hp⟩ := ih h1
      exact ⟨post ++ worker_events N cpt spawn A B n, by
        rw [create_events, hp]; simp only [List.append_assoc]⟩
    · have : i = n := by omega
      subst this
      exact ⟨[], by rw [create_events]; simp⟩

/-- The log records of worker `i` in a complete run on a valid configuration: its
start line and its completion line occur once each, and the events of the run
contain the creation of the worker followed by its whole output as one block:
the start line, the events of its `multiply` call, the completion line. -/
theorem main_events_worker (N M : Int) (hM : 1 ≤ M)
    (spawn : Int → Option Nat) (hall : ∀ i, 0 ≤ i → i < M → (spawn i).isSome = true)
    (A B C : matrix_t) (i : Int) (hi0 : 0 ≤ i) (hi : i < M) :
    (main_events N M spawn A B C).count
        (.print (.computing i (i * (N / M)) ((i + 1) * (N / M) - 1))) = 1 ∧
      (main_events N M spawn A B C).count
        (.print (.completed i (i * (N / M)) ((i + 1) * (N / M) - 1))) = 1 ∧
      ∃ tid pre post, spawn i = some tid ∧
        main_events N M spawn A B C =
          pre ++ ([.create i (some tid),
              .print (.computing i (i * (N / M)) ((i + 1) * (N / M) - 1))] ++
            multiply_events tid N .MA .MB .MC A B (i * (N / M)) (N / M).toNat ++
            [.print (.completed i (i * (N / M)) ((i + 1) * (N / M) - 1))]) ++ post := by
  obtain ⟨k, rfl⟩ := Int.eq_ofNat_of_zero_le hi0
  have hk : k < M.toNat := by omega
  have hall2 : ∀ (j : Nat), j < M.toNat → (spawn j).isSome = true :=
    fun j hj => hall j (by omega) (by omega)
  obtain ⟨c1, c2⟩ := count_create_events N (N / M) spawn A B k M.toNat hall2
  rw [if_pos hk] at c1 c2
  have z1 := fun (l : List Event) (h0 : l.countP Event.is_start = 0) =>
    count_zero_of_countP Event.is_start l
      (.print (.computing k (k * (N / M)) ((k + 1) * (N / M) - 1))) rfl h0
  have z2 := fun (l : List Event) (h0 : l.countP Event.is_completion = 0) =>
    count_zero_of_countP Event.is_completion l
      (.print (.completed k (k * (N / M)) ((k + 1) * (N / M) - 1))) rfl h0
  have t1 := tally_init_events N N.toNat
  have t2 := tally_join_events spawn M.toNat
  have t3 := tally_result_dump N C
  simp only [tally, Prod.mk.injEq] at t1 t2 t3
  refine ⟨?_, ?_, ?_⟩
  · unfold main_events
    rw [List.count_append, List.count_append, List.count_append, List.count_append,
      List.count_append, List.count_append, c1,
      z1 _ t1.2.1, z1 _ t2.2.1, z1 _ t3.2.1]
    simp [List.count_cons]
  · unfold main_events
    rw [List.count_append, List.count_append, List.count_append, List.count_append,
      List.count_append, List.count_append, c2,
      z2 _ t1.2.2.1, z2 _ t2.2.2.1, z2 _ t3.2.2.1]
    simp [List.count_cons]
  · obtain ⟨tid, htid⟩ := Option.isSome_iff_exists.1 (hall2 k hk)
    obtain ⟨post, hp⟩ := create_events_split N (N / M) spawn A B k M.toNat hk
    have hw : worker_events N (N / M) spawn A B k =
        [.create k (some tid),
            .print (.computing k (k * (N / M)) ((k + 1) * (N / M) - 1))] ++
          multiply_events tid N .MA .MB .MC A B (k * (N / M)) (N / M).toNat ++
          [.print (.completed k (k * (N / M)) ((k + 1) * (N / M) - 1))] := by
      simp only [worker_events, htid]
    refine ⟨tid, [.malloc_threads M, .malloc_packages M] ++ init_events N N.toNat ++
      [.mutex_init] ++ create_events N (N / M) spawn A B k,
      post ++ join_events spawn M.toNat ++ result_dump N C ++
        [.system .inspect, .system .who_snapshot, .free_threads, .free_packages,
          .mutex_destroy], htid, ?_⟩
    unfold main_events
    rw [hp, hw]
    simp only [List.append_assoc]

/-- Every cell of the columns of a `multiply` call has its progress line among
the events of the call. -/
theorem multiply_events_reports (self : Nat) (size : Int) (MA MB MC : MatId) (A B : matrix_t)
    (start_col : Int) (n : Nat) (r c : Int) (hr0 : 0 ≤ r) (hr : r < size)
    (hc0 : start_col ≤ c) (hc : c < start_col + n) :
    Event.print (.updates self r c (wrap32 (dotProduct size A B r c))) ∈
      multiply_events self size MA MB MC A B start_col n := by
  rw [multiply_events_flat, List.mem_flatMap]
  refine ⟨(c - start_col).toNat, List.mem_range.2 (by omega), ?_⟩
  rw [List.mem_flatMap]
  refine ⟨r.toNat, List.mem_range.2 (by omega), ?_⟩
  have e1 : start_col + ((c - start_col).toNat : Int) = c := by omega
  have e2 : ((r.toNat : Nat) : Int) = r := by omega
  rw [e1, e2, (cell_events_split self size MA MB MC A B c r).1]
  simp

/-- C15, as stated, fails on the code: a run on 2 x 2 matrices with `M = 2` creates
two child threads, not four, one for each column, and each of them computes the
two elements of its column (thread 10 reports `MC(0,0)` and `MC(1,0)`, thread 11
reports `MC(0,1)` and `MC(1,1)`). -/
theorem threads_per_column_block :
    (main 3 2 2 exampleSpawn exampleState).map
      (fun r => (r.1, r.2.trace.filter Event.is_created, progress_records r.2.trace))
      = some (0, [.create 0 (some 10), .create 1 (some 11)],
          [.updates 10 0 0 2, .updates 10 1 0 2, .updates 11 0 1 4, .updates 11 1 1 4]) := by
  rfl

/-- C15 amended: on every valid configuration `(N, M)`, every creation succeeding,
`main` returns 0 and the run creates exactly `M` child threads, with `M <= N` :
one thread for each block of `N / M` consecutive columns, not one for each
element.  The thread of block `i` prints the progress line of every element
`(r, c)` of the columns `i * (N / M) .. (i + 1) * (N / M) - 1`, that is of
`N * (N / M) >= N` elements.  The run creates `N * N` threads only when `N = 1`. -/
theorem main_creates_thread_per_block (N M : Int) (hM : 1 ≤ M) (hMN : M ≤ N)
    (hNA : N ≤ ARRAY_SIZE) (hdiv : Int.tmod N M = 0) (spawn : Int → Option Nat)
    (hall : ∀ i, 0 ≤ i → i < M → (spawn i).isSome = true) (s : State) :
    ∃ s1 t, main 3 N M spawn s = some (0, s1) ∧ s1.trace = s.trace ++ t ∧
      (t.countP Event.is_created : Int) = M ∧ M ≤ N ∧
      ((t.countP Event.is_created : Int) = N * N ↔ N = 1) ∧
      ∀ i, 0 ≤ i → i < M →
        ∃ tid pre w post, spawn i = some tid ∧
          t = pre ++ ([.create i (some tid),
              .print (.computing i (i * (N / M)) ((i + 1) * (N / M) - 1))] ++ w ++
            [.print (.completed i (i * (N / M)) ((i + 1) * (N / M) - 1))]) ++ post ∧
          ((progress_records w).length : Int) = N * (N / M) ∧ N ≤ N * (N / M) ∧
          ∀ r c, 0 ≤ r → r < N → i * (N / M) ≤ c → c ≤ (i + 1) * (N / M) - 1 →
            Event.print (.updates tid r c (s1.mem .MC r c)) ∈ w := by
  obtain ⟨_, hcpt, hmul⟩ := col_per_thread_spec N M hM hMN hdiv
  obtain ⟨s1, h1, hT⟩ := main_trace N M hM hMN hNA hdiv spawn hall s
  have ht := tally_main_events N M hM hMN hdiv spawn hall
    (s1.mem .MA) (s1.mem .MB) (s1.mem .MC)
  simp only [tally, Prod.mk.injEq] at ht
  have hc : ((main_events N M spawn (s1.mem .MA) (s1.mem .MB) (s1.mem .MC)).countP
      Event.is_created : Int) = M := by rw [ht.1]; omega
  refine ⟨s1, _, h1, hT, hc, hMN, ?_, ?_⟩
  · rw [hc]
    constructor
    · intro h
      have : N * N ≤ N * 1 := by omega
      have := le_of_mul_le_mul_left this (by omega : (0 : Int) < N)
      omega
    · intro h
      subst h
      omega
  · intro i hi0 hi
    obtain ⟨_, _, tid, pre, post, hsp, hsplit⟩ := main_events_worker N M hM spawn hall
      (s1.mem .MA) (s1.mem .MB) (s1.mem .MC) i hi0 hi
    refine ⟨tid, pre, _, post, hsp, hsplit, ?_, le_mul_of_one_le_right (by omega) hcpt, ?_⟩
    · rw [progress_count_multiply]
      push_cast
      rw [Int.toNat_of_nonneg (by omega), Int.toNat_of_nonneg (by omega)]
      ring
    · intro r c hr0 hr hc0 hc1
      obtain ⟨b1, e2, b3, _⟩ := range_bounds M (N / M) i hcpt hi0 hi
      obtain ⟨p, g1, pre2, _, _, hI, hmain⟩ := main_valid_spec N M hM hMN hNA hdiv spawn hall s
      rw [h1] at hmain
      have hs1 : s1.mem = p.g.mem := by cases hmain; rfl
      have hmem := createInv_all N M (N / M) hcpt hmul spawn hall g1.mem p hI
      have hA : s1.mem .MA = g1.mem .MA := by
        funext a b
        rw [hs1, hmem, if_neg (by rintro ⟨h, _⟩; cases h)]
      have hB : s1.mem .MB = g1.mem .MB := by
        funext a b
        rw [hs1, hmem, if_neg (by rintro ⟨h, _⟩; cases h)]
      have hC : s1.mem .MC r c = wrap32 (dotProduct N (s1.mem .MA) (s1.mem .MB) r c) := by
        rw [hA, hB, hs1, hmem, if_pos ⟨rfl, by omega, by omega, hr0, hr⟩]
      rw [hC]
      exact multiply_events_reports tid N .MA .MB .MC (s1.mem .MA) (s1.mem .MB)
        (i * (N / M)) (N / M).toNat r c hr0 hr hc0 (by
          rw [Int.toNat_of_nonneg (by omega)]; omega)

/-- Witness of C15 amended: the configuration `N = 4`, `M = 2` on the sample state:
two threads, each reporting eight elements. -/
theorem main_creates_thread_per_block_witness :
    ∃ s1 t, main 3 4 2 exampleSpawn exampleState = some (0, s1) ∧
      s1.trace = exampleState.trace ++ t ∧
      (t.countP Event.is_created : Int) = 2 ∧ (2 : Int) ≤ 4 ∧
      ((t.countP Event.is_created : Int) = 4 * 4 ↔ (4 : Int) = 1) ∧
      ∀ i, 0 ≤ i → i < (2 : Int) →
        ∃ tid pre w post, exampleSpawn i = some tid ∧
          t = pre ++ ([.create i (some tid),
              .print (.computing i (i * (4 / 2)) ((i + 1) * (4 / 2) - 1))] ++ w ++
            [.print (.completed i (i * (4 / 2)) ((i + 1) * (4 / 2) - 1))]) ++ post ∧
          ((progress_records w).length : Int) = 4 * (4 / 2) ∧ (4 : Int) ≤ 4 * (4 / 2) ∧
          ∀ r c, 0 ≤ r → r < 4 → i * (4 / 2) ≤ c → c ≤ (i + 1) * (4 / 2) - 1 →
            Event.print (.updates tid r c (s1.mem .MC r c)) ∈ w :=
  main_creates_thread_per_block 4 2 (by decide) (by decide) (by decide) (by decide)
    exampleSpawn (fun _ _ _ => rfl) exampleState

theorem index_ok_init_row_events (M row : Int) (hr0 : 0 ≤ row) (hr : row < ARRAY_SIZE) :
    ∀ (n : Nat), (n : Int) ≤ ARRAY_SIZE → ∀ e ∈ init_row_events row n, Event.index_ok M e := by
  intro n
  induction n with
  | zero => intro _ e he; simp [init_row_events] at he
  | succ n ih =>
    intro hn e he
    rw [init_row_events, List.mem_append] at he
    rcases he with h | h
    · exact ih (by omega) e h
    · simp only [List.mem_cons, List.mem_singleton, List.not_mem_nil, or_false] at h
      rcases h with rfl | rfl
      · exact ⟨hr0, hr, by omega, by omega⟩
      · exact ⟨hr0, hr, by omega, by omega⟩

theorem index_ok_init_events (M N : Int) (hNA : N ≤ ARRAY_SIZE) :
    ∀ (n : Nat), (n : Int) ≤ ARRAY_SIZE → ∀ e ∈ init_events N n, Event.index_ok M e := by
  intro n
  induction n with
  | zero => intro _ e he; simp [init_events] at he
  | succ n ih =>
    intro hn e he
    rw [init_events, List.mem_append] at he
    rcases he with h | h
    · exact ih (by omega) e h
    · exact index_ok_init_row_events M n (by omega) (by omega) N.toNat
        (by unfold ARRAY_SIZE at *; omega) e h

theorem index_ok_acc_events (M : Int) (MA MB MC : MatId) (A B : matrix_t) (row col : Int)
    (hb : inBounds row col) :
    ∀ (n : Nat), (n : Int) ≤ ARRAY_SIZE →
      ∀ e ∈ acc_events MA MB MC A B row col n, Event.index_ok M e := by
  intro n
  obtain ⟨b1, b2, b3, b4⟩ := hb
  induction n with
  | zero => intro _ e he; simp [acc_events] at he
  | succ n ih =>
    intro hn e he
    rw [acc_events, List.mem_append] at he
    rcases he with h | h
    · exact ih (by omega) e h
    · simp only [List.mem_cons, List.mem_singleton, List.not_mem_nil, or_false] at h
      rcases h with rfl | rfl | rfl | rfl
      · exact ⟨b1, b2, by omega, by omega⟩
      · exact ⟨by omega, by omega, b3, b4⟩
      · exact ⟨b1, b2, b3, b4⟩
      · exact ⟨b1, b2, b3, b4⟩

theorem index_ok_cell_events (M : Int) (self : Nat) (size : Int) (hs : size ≤ ARRAY_SIZE)
    (MA MB MC : MatId) (A B : matrix_t) (col row : Int) (hb : inBounds row col) :
    ∀ e ∈ cell_events self size MA MB MC A B col row, Event.index_ok M e := by
  intro e he
  rw [(cell_events_split self size MA MB MC A B col row).1, List.mem_append,
    List.mem_cons] at he
  rcases he with (rfl | h) | h
  · exact hb
  · exact index_ok_acc_events M MA MB MC A B row col hb size.toNat
      (by unfold ARRAY_SIZE at *; omega) e h
  · simp only [List.mem_cons, List.mem_singleton, List.not_mem_nil, or_false] at h
    rcases h with rfl | rfl | rfl | rfl
    · trivial
    · exact hb
    · trivial
    · trivial

/-- Every matrix access of a call `multiply(size, start_col, start_col + n - 1, ...)`
that stays inside the arrays uses subscripts `row`, `col` and `k` in
`[0, ARRAY_SIZE)`. -/
theorem index_ok_multiply_events (M : Int) (self : Nat) (size : Int) (hs : size ≤ ARRAY_SIZE)
    (MA MB MC : MatId) (A B : matrix_t) (start_col : Int) (h0 : 0 ≤ start_col) (n : Nat)
    (hn : start_col + n ≤ ARRAY_SIZE) :
    ∀ e ∈ multiply_events self size MA MB MC A B start_col n, Event.index_ok M e := by
  intro e he
  rw [multiply_events_flat, List.mem_flatMap] at he
  obtain ⟨j, hj, he⟩ := he
  rw [List.mem_flatMap] at he
  obtain ⟨r, hr, he⟩ := he
  rw [List.mem_range] at hj hr
  exact index_ok_cell_events M self size hs MA MB MC A B (start_col + j) r
    ⟨by omega, by omega, by omega, by omega⟩ e he

theorem index_ok_create_events (N M cpt : Int) (hcpt : 1 ≤ cpt) (hmul : M * cpt = N)
    (hNA : N ≤ ARRAY_SIZE) (spawn : Int → Option Nat) (A B : matrix_t) :
    ∀ (n : Nat), (n : Int) ≤ M →
      ∀ e ∈ create_events N cpt spawn A B n, Event.index_ok M e := by
  intro n
  induction n with
  | zero => intro _ e he; simp [create_events] at he
  | succ n ih =>
    intro hn e he
    rw [create_events, List.mem_append] at he
    rcases he with h | h
    · exact ih (by omega) e h
    · obtain ⟨b1, b2, b3, _⟩ := range_bounds M cpt n hcpt (by omega) (by omega)
      unfold worker_events at h
      cases hsp : spawn n with
      | none =>
        rw [hsp] at h
        simp only [List.mem_singleton] at h
        subst h
        exact ⟨by omega, by omega⟩
      | some tid =>
        rw [hsp] at h
        simp only [List.mem_append, List.mem_cons, List.mem_singleton, List.not_mem_nil,
          or_false] at h
        rcases h with ((rfl | rfl) | h) | rfl
        · exact ⟨by omega, by omega⟩
        · trivial
        · exact index_ok_multiply_events M tid N hNA .MA .MB .MC A B (n * cpt) b1 cpt.toNat
            (by rw [Int.toNat_of_nonneg (by omega)]; omega) e h
        · trivial

theorem index_ok_join_events (M : Int) (spawn : Int → Option Nat) :
    ∀ (n : Nat), ∀ e ∈ join_events spawn n, Event.index_ok M e := by
  intro n
  induction n with
  | zero => intro e he; simp [join_events] at he
  | succ n ih =>
    intro e he
    rw [join_events, List.mem_append] at he
    rcases he with h | h
    · exact ih e h
    · cases hsp : spawn n with
      | none => rw [hsp] at h; simp at h
      | some tid =>
        rw [hsp] at h
        simp only [List.mem_singleton] at h
        subst h
        trivial

theorem index_ok_dump_cells (M : Int) (C : matrix_t) (row : Int) (hr0 : 0 ≤ row)
    (hr : row < ARRAY_SIZE) :
    ∀ (n : Nat), (n : Int) ≤ ARRAY_SIZE → ∀ e ∈ dump_cells C row n, Event.index_ok M e := by
  intro n
  induction n with
  | zero => intro _ e he; simp [dump_cells] at he
  | succ n ih =>
    intro hn e he
    rw [dump_cells, List.mem_append] at he
    rcases he with h | h
    · exact ih (by omega) e h
    · simp only [List.mem_cons, List.mem_singleton, List.not_mem_nil, or_false] at h
      rcases h with rfl | rfl
      · exact ⟨hr0, hr, by omega, by omega⟩
      · trivial

theorem index_ok_dump_rows (M : Int) (C : matrix_t) (N : Int) (hNA : N ≤ ARRAY_SIZE) :
    ∀ (n : Nat), (n : Int) ≤ ARRAY_SIZE → ∀ e ∈ dump_rows C N n, Event.index_ok M e := by
  intro n
  induction n with
  | zero => intro _ e he; simp [dump_rows] at he
  | succ n ih =>
    intro hn e he
    rw [dump_rows, List.mem_append, List.mem_append] at he
    rcases he with h | h | h
    · exact ih (by omega) e h
    · exact index_ok_dump_cells M C n (by omega) (by omega) N.toNat
        (by unfold ARRAY_SIZE at *; omega) e h
    · simp only [List.mem_singleton] at h
      subst h
      trivial

/-- Every subscript used in a complete run of `main` on a valid configuration is
inside its array. -/
theorem index_ok_main_events (N M : Int) (hM : 1 ≤ M) (hMN : M ≤ N) (hNA : N ≤ ARRAY_SIZE)
    (hdiv : Int.tmod N M = 0) (spawn : Int → Option Nat) (A B C : matrix_t) :
    ∀ e ∈ main_events N M spawn A B C, Event.index_ok M e := by
  obtain ⟨_, hcpt, hmul⟩ := col_per_thread_spec N M hM hMN hdiv
  intro e he
  unfold main_events at he
  simp only [List.mem_append] at he
  rcases he with (((((h | h) | h) | h) | h) | h) | h
  · simp only [List.mem_cons, List.mem_singleton, List.not_mem_nil, or_false] at h
    rcases h with rfl | rfl <;> trivial
  · exact index_ok_init_events M N hNA N.toNat (by unfold ARRAY_SIZE at *; omega) e h
  · simp only [List.mem_singleton] at h
    subst h
    trivial
  · exact index_ok_create_events N M (N / M) hcpt hmul hNA spawn A B M.toNat (by omega) e h
  · exact index_ok_join_events M spawn M.toNat e h
  · unfold result_dump at h
    rcases List.mem_cons.1 h with rfl | h
    · trivial
    · exact index_ok_dump_rows M C N hNA N.toNat (by unfold ARRAY_SIZE at *; omega) e h
  · simp only [List.mem_cons, List.mem_singleton, List.not_mem_nil, or_false] at h
    rcases h with rfl | rfl | rfl | rfl | rfl <;> trivial

/-- C16: on an accepted configuration (`1 <= M <= N <= ARRAY_SIZE`, `N % M == 0`) no
partial operation of `main` fails.  The validation has the value `false`, the
remainder `N % M` and the quotient `N / M` are defined, and with `M = 0` (where
both are undefined) `main` returns 1 from the validation without evaluating
either: the comparison `M < 1` comes first.  A matrix access outside
`[0, ARRAY_SIZE)` and an access to `packages[i]`, `threads[i]` outside `[0, M)` are
faults of the run.  Whatever creations fail, `main` reaches the end of its
creation loop without a fault; every creation succeeding, `main` runs to its
end, and every event of the run respects the bounds: every subscript pair used
on `MA`, `MB`, `MC` (initialisation, the `row`, `col` and `k` subscripts of every
worker, result dump) lies in `[0, ARRAY_SIZE)` and every created worker index lies
in `[0, M)`. -/
theorem main_no_fault (N M : Int) (hM : 1 ≤ M) (hMN : M ≤ N) (hNA : N ≤ ARRAY_SIZE)
    (hdiv : Int.tmod N M = 0) (spawn : Int → Option Nat)
    (hall : ∀ i, 0 ≤ i → i < M → (spawn i).isSome = true) (s : State) :
    main_invalid N M = some false ∧ c_mod N M = some 0 ∧ c_div N M = some (N / M) ∧
    (∀ n, c_mod n 0 = none ∧ c_div n 0 = none ∧
      main 3 n 0 spawn s = some (1, s.emit (.print .invalid_input))) ∧
    (∀ (g : State) m r c v, ¬ inBounds r c → g.load m r c = none ∧ g.store m r c v = none) ∧
    (∀ (g : State) i pk, ¬ (0 ≤ i ∧ i < M) →
      (Proc.alloc M g).set_package i pk = none ∧
      (Proc.alloc M g).pthread_create spawn i = none ∧ main_join i (Proc.alloc M g) = none) ∧
    (∀ (sp : Int → Option Nat), ∃ p, main_spawn N M sp s = some p) ∧
    ∃ s1 t, main 3 N M spawn s = some (0, s1) ∧ s1.trace = s.trace ++ t ∧
      ∀ e ∈ t, Event.index_ok M e := by
  obtain ⟨hd, _, _⟩ := col_per_thread_spec N M hM hMN hdiv
  have hv := (main_valid_exit N M hM hMN hNA hdiv spawn s).1
  refine ⟨hv, ?_, hd, ?_, ?_, ?_, ?_, ?_⟩
  · have hM0 : M ≠ 0 := by omega
    have hM1 : ¬ (N = INT_MIN ∧ M = -1) := by rintro ⟨_, _⟩; omega
    simp [c_mod, hM0, hM1, hdiv]
  · intro n
    refine ⟨by simp [c_mod], by simp [c_div], ?_⟩
    have hi : main_invalid n 0 = some true := by
      rw [main_invalid_eq]
      simp
    exact (main_by_validation n 0 spawn s true hi).1 rfl
  · intro g m r c v hb
    exact ⟨by simp [State.load, hb], by simp [State.store, hb]⟩
  · intro g i pk hi
    refine ⟨?_, ?_, ?_⟩
    · simp only [Proc.set_package, Proc.alloc]
      rw [if_neg hi]
    · simp only [Proc.pthread_create, Proc.alloc]
      rw [if_neg (by rintro ⟨a, b, _⟩; exact hi ⟨a, b⟩)]
    · simp only [main_join, Proc.alloc]
      rw [if_neg hi]
  · intro sp
    obtain ⟨p, _, hp, _⟩ := main_spawn_spec N M hM hMN hNA hdiv sp s
    exact ⟨p, hp⟩
  · obtain ⟨s1, h1, hT⟩ := main_trace N M hM hMN hNA hdiv spawn hall s
    exact ⟨s1, _, h1, hT, index_ok_main_events N M hM hMN hNA hdiv spawn _ _ _⟩

/-- Witness of C16: the configuration `N = 4`, `M = 2` on the sample state. -/
theorem main_no_fault_witness :
    main_invalid 4 2 = some false ∧ c_mod 4 2 = some 0 ∧ c_div 4 2 = some (4 / 2) ∧
    (∀ n, c_mod n 0 = none ∧ c_div n 0 = none ∧
      main 3 n 0 exampleSpawn exampleState =
        some (1, exampleState.emit (.print .invalid_input))) ∧
    (∀ (g : State) m r c v, ¬ inBounds r c → g.load m r c = none ∧ g.store m r c v = none) ∧
    (∀ (g : State) i pk, ¬ (0 ≤ i ∧ i < (2 : Int)) →
      (Proc.alloc 2 g).set_package i pk = none ∧
      (Proc.alloc 2 g).pthread_create exampleSpawn i = none ∧
      main_join i (Proc.alloc 2 g) = none) ∧
    (∀ (sp : Int → Option Nat), ∃ p, main_spawn 4 2 sp exampleState = some p) ∧
    ∃ s1 t, main 3 4 2 exampleSpawn exampleState = some (0, s1) ∧
      s1.trace = exampleState.trace ++ t ∧ ∀ e ∈ t, Event.index_ok 2 e :=
  main_no_fault 4 2 (by decide) (by decide) (by decide) (by decide) exampleSpawn
    (fun _ _ _ => rfl) exampleState

/-- Source lines 94 to 111 of `main` on a valid configuration: `col_per_thread` is
`N / M`, and the matrices hold the data of the program, `MA[r][c] = 1` and
`MB[r][c] = c + 1`, the sum `c + 1` being exact. -/
theorem main_setup_spec (N M : Int) (hM : 1 ≤ M) (hMN : M ≤ N) (hNA : N ≤ ARRAY_SIZE)
    (hdiv : Int.tmod N M = 0) (s : State) :
    ∃ p, main_setup N M s = some (N / M, p) ∧
      ∀ r c, 0 ≤ r → r < N → 0 ≤ c → c < N →
        p.g.mem .MA r c = 1 ∧ p.g.mem .MB r c = c + 1 ∧ wrap32 (c + 1) = c + 1 := by
  obtain ⟨hd, _, _⟩ := col_per_thread_spec N M hM hMN hdiv
  obtain ⟨g1, hg1, hmem⟩ := main_init_spec N hNA
    ((s.emit (.malloc_threads M)).emit (.malloc_packages M))
  refine ⟨Proc.alloc M (g1.emit .mutex_init), ?_, ?_⟩
  · simp [main_setup, hd, hg1]
  · intro r c hr0 hr hc0 hc
    have hA : ARRAY_SIZE = 10000 := rfl
    refine ⟨?_, ?_, wrap32_of_range _ (by unfold INT_MIN; omega) (by unfold INT_MAX; omega)⟩
    · show g1.mem .MA r c = 1
      rw [hmem, if_pos ⟨hr0, hr, hc0, hc⟩, if_pos rfl]
    · show g1.mem .MB r c = c + 1
      rw [hmem, if_pos ⟨hr0, hr, hc0, hc⟩, if_neg (by decide), if_pos rfl]

/-- The arithmetic of the statement `MC[row][col] += MA[row][k] * MB[k][col]` on the
data of the program: a worker about to execute it, in a state that satisfies
`SysInv`, multiplies 1 by `col + 1` and adds the product to the exact partial
sum `k * (col + 1)`; nothing wraps. -/
theorem acc_exact (N M cpt : Int) (hcpt : 1 ≤ cpt) (hN : M * cpt = N) (hNA : N ≤ ARRAY_SIZE)
    (A0 B0 : matrix_t)
    (hdata : ∀ r c, 0 ≤ r → r < N → 0 ≤ c → c < N → A0 r c = 1 ∧ B0 r c = c + 1)
    (sys : Sys) (hI : SysInv N M cpt A0 B0 sys) (i : Int) (t : Thread) (col row k : Int)
    (ht : sys.workers i = some t) (hpc : t.pc = .k_test col row k) (hk : k < N) :
    sys.g.mem .MA row k * sys.g.mem .MB k col = col + 1 ∧
    sys.g.mem .MC row col = k * (col + 1) ∧
    (INT_MIN ≤ col + 1 ∧ col + 1 ≤ INT_MAX) ∧
    (INT_MIN ≤ k * (col + 1) ∧ k * (col + 1) ≤ INT_MAX) ∧
    (INT_MIN ≤ (k + 1) * (col + 1) ∧ (k + 1) * (col + 1) ≤ N * N) ∧
    ∃ g1, multiply_acc t.pk.MA t.pk.MB t.pk.MC row col k sys.g = some g1 ∧
      g1.mem .MC row col =
        sys.g.mem .MC row col + sys.g.mem .MA row k * sys.g.mem .MB k col := by
  obtain ⟨hA, hB, hW, _⟩ := hI
  obtain ⟨hi0, hi1, hpk, hwf, _, hsum⟩ := hW i t ht
  rw [hpc] at hwf
  obtain ⟨c1, c2, r0, r1, k0, _⟩ := hwf
  obtain ⟨b1, b2, b3, _⟩ := range_bounds M cpt i hcpt hi0 hi1
  have hA1 : ARRAY_SIZE = 10000 := rfl
  have hcol0 : 0 ≤ col := by omega
  have hcol1 : col < N := by omega
  have hprod : sys.g.mem .MA row k * sys.g.mem .MB k col = col + 1 := by
    rw [hA, hB, (hdata row k r0 r1 k0 hk).1, (hdata k col k0 hk hcol0 hcol1).2, one_mul]
  have hdot : dotProduct k A0 B0 row col = k * (col + 1) :=
    dotProduct_sample k row col k0 A0 B0
      (fun j hj0 hj => (hdata row j r0 r1 hj0 (by omega)).1)
      (fun j hj0 hj => (hdata j col hj0 (by omega) hcol0 hcol1).2)
  have hNN : N * N ≤ 10000 * 10000 :=
    mul_le_mul (by omega) (by omega) (by omega) (by omega)
  have hs1 : (k + 1) * (col + 1) ≤ N * N :=
    mul_le_mul (by omega) (by omega) (by omega) (by omega)
  have hs0 : 0 ≤ k * (col + 1) := mul_nonneg k0 (by omega)
  have hs2 : (k + 1) * (col + 1) = k * (col + 1) + (col + 1) := by ring
  have hcur : sys.g.mem .MC row col = k * (col + 1) := by
    rw [hsum col row k hpc, hdot]
    exact wrap32_of_range _ (by unfold INT_MIN; omega) (by unfold INT_MAX; omega)
  refine ⟨hprod, hcur, ⟨by unfold INT_MIN; omega, by unfold INT_MAX; omega⟩,
    ⟨by unfold INT_MIN; omega, by unfold INT_MAX; omega⟩,
    ⟨by unfold INT_MIN; omega, hs1⟩, ?_⟩
  rw [hpk]
  refine ⟨_, multiply_acc_eq .MA .MB .MC row col k sys.g ⟨r0, by omega, k0, by omega⟩
    ⟨k0, by omega, hcol0, by omega⟩ ⟨r0, by omega, hcol0, by omega⟩, ?_⟩
  show setCell sys.g.mem .MC row col _ .MC row col = _
  rw [setCell_same, hprod, hcur,
    wrap32_of_range (col + 1) (by unfold INT_MIN; omega) (by unfold INT_MAX; omega),
    wrap32_of_range _ (by unfold INT_MIN; omega) (by unfold INT_MAX; omega)]

/-- When `main` is at line 134 in a state that satisfies `SysInv`, every cell of
the product holds its wrapped dot product. -/
theorem sys_dump_cells (N M cpt : Int) (hcpt : 1 ≤ cpt) (hN : M * cpt = N) (A0 B0 : matrix_t)
    (sys : Sys) (hI : SysInv N M cpt A0 B0 sys) (hd : sys.main = .dump)
    (r c : Int) (hr0 : 0 ≤ r) (hr : r < N) (hc0 : 0 ≤ c) (hc : c < N) :
    sys.g.mem .MC r c = wrap32 (dotProduct N A0 B0 r c) := by
  have hdone : ∀ i, 0 ≤ i → i < M → ∃ t, sys.workers i = some t ∧ t.pc = .done := by
    have h := hI.2.2.2
    simpa [MainInv, hd] using h
  have hpos : 0 < cpt := by omega
  have hi0 : 0 ≤ c / cpt := Int.ediv_nonneg hc0 (by omega)
  have hi1 : c / cpt < M := (Int.ediv_lt_iff_lt_mul hpos).2 (by omega)
  obtain ⟨t, ht, htd⟩ := hdone _ hi0 hi1
  obtain ⟨_, _, _, _, hprog, _⟩ := hI.2.2.1 _ t ht
  have hown := (owner_iff cpt (c / cpt) c hcpt).1 rfl
  apply hprog r c hr0 hr hown.1
  rw [htd]
  simp only [Pc.pos]
  omega

/-- C17: on every accepted configuration (`1 <= M <= N <= ARRAY_SIZE`, `N % M == 0`)
and the data of the program, no `int` operation of the run leaves
`[INT_MIN, INT_MAX]`.  `N * N <= 10^8`.  For every worker index `i` the partition
expressions `i * (N / M)`, `i + 1`, `(i + 1) * (N / M)` and `(i + 1) * (N / M) - 1` are
in range, so `packages[i]` holds their exact values.  The setup of `main` is
defined and leaves `MA[r][c] = 1` and `MB[r][c] = c + 1`, the sum `c + 1` being exact.
From there, running `main` and the workers one statement at a time under any
schedule: whenever a worker is about to execute
`MC[row][col] += MA[row][k] * MB[k][col]`, the product is `col + 1`, the cell holds
the exact partial sum `k * (col + 1)`, the product, the old sum and the new sum
`(k + 1) * (col + 1) <= N * N` are in range, and the statement stores the exact
sum; and whenever `main` is at the result dump, every cell `MC[r][c]` holds the
exact dot product, `N * (c + 1) <= N * N`. -/
theorem main_no_overflow (N M : Int) (hM : 1 ≤ M) (hMN : M ≤ N) (hNA : N ≤ ARRAY_SIZE)
    (hdiv : Int.tmod N M = 0) (spawn : Int → Option Nat) (s : State) :
    N * N ≤ 100000000 ∧
    (∀ i, 0 ≤ i → i < M →
      (INT_MIN ≤ i * (N / M) ∧ i * (N / M) ≤ INT_MAX) ∧
      (INT_MIN ≤ i + 1 ∧ i + 1 ≤ INT_MAX) ∧
      (INT_MIN ≤ (i + 1) * (N / M) ∧ (i + 1) * (N / M) ≤ INT_MAX) ∧
      (INT_MIN ≤ (i + 1) * (N / M) - 1 ∧ (i + 1) * (N / M) - 1 ≤ INT_MAX) ∧
      (main_package N (N / M) i).start_col = i * (N / M) ∧
      (main_package N (N / M) i).end_col = (i + 1) * (N / M) - 1) ∧
    ∃ p, main_setup N M s = some (N / M, p) ∧
      (∀ r c, 0 ≤ r → r < N → 0 ≤ c → c < N →
        p.g.mem .MA r c = 1 ∧ p.g.mem .MB r c = c + 1 ∧ wrap32 (c + 1) = c + 1) ∧
      ∀ (sched : List (Option Int)) (sys : Sys),
        Sys.run N M (N / M) spawn sched (Sys.init p.g) = some sys →
        (∀ i t col row k, sys.workers i = some t → t.pc = .k_test col row k → k < N →
          sys.g.mem .MA row k * sys.g.mem .MB k col = col + 1 ∧
          sys.g.mem .MC row col = k * (col + 1) ∧
          (INT_MIN ≤ col + 1 ∧ col + 1 ≤ INT_MAX) ∧
          (INT_MIN ≤ k * (col + 1) ∧ k * (col + 1) ≤ INT_MAX) ∧
          (INT_MIN ≤ (k + 1) * (col + 1) ∧ (k + 1) * (col + 1) ≤ N * N) ∧
          ∃ g1, multiply_acc t.pk.MA t.pk.MB t.pk.MC row col k sys.g = some g1 ∧
            g1.mem .MC row col =
              sys.g.mem .MC row col + sys.g.mem .MA row k * sys.g.mem .MB k col) ∧
        (sys.main = .dump → ∀ r c, 0 ≤ r → r < N → 0 ≤ c → c < N →
          sys.g.mem .MC r c = dotProduct N (p.g.mem .MA) (p.g.mem .MB) r c ∧
          sys.g.mem .MC r c = N * (c + 1) ∧ N * (c + 1) ≤ N * N) := by
  obtain ⟨_, hcpt, hmul⟩ := col_per_thread_spec N M hM hMN hdiv
  have hA1 : ARRAY_SIZE = 10000 := rfl
  have hNN : N * N ≤ 10000 * 10000 :=
    mul_le_mul (by omega) (by omega) (by omega) (by omega)
  refine ⟨hNN, ?_, ?_⟩
  · intro i hi0 hi
    obtain ⟨b1, b2, b3, _⟩ := range_bounds M (N / M) i hcpt hi0 hi
    have hp := main_create_package N M (N / M) i hcpt hmul hNA hi0 hi
    refine ⟨⟨by unfold INT_MIN; omega, by unfold INT_MAX; omega⟩,
      ⟨by unfold INT_MIN; omega, by unfold INT_MAX; omega⟩,
      ⟨by unfold INT_MIN; omega, by unfold INT_MAX; omega⟩,
      ⟨by unfold INT_MIN; omega, by unfold INT_MAX; omega⟩, by rw [hp]; rfl, by rw [hp]; rfl⟩
  · obtain ⟨p, hp, hdata⟩ := main_setup_spec N M hM hMN hNA hdiv s
    refine ⟨p, hp, hdata, ?_⟩
    intro sched sys hrun
    have hI := sys_run_inv N M (N / M) hcpt hmul hNA (by omega) spawn (p.g.mem .MA)
      (p.g.mem .MB) sched (Sys.init p.g) sys (sysInv_init N M (N / M) (by omega) p.g) hrun
    have hd2 : ∀ r c, 0 ≤ r → r < N → 0 ≤ c → c < N →
        p.g.mem .MA r c = 1 ∧ p.g.mem .MB r c = c + 1 :=
      fun r c h1 h2 h3 h4 => ⟨(hdata r c h1 h2 h3 h4).1, (hdata r c h1 h2 h3 h4).2.1⟩
    refine ⟨?_, ?_⟩
    · intro i t col row k ht hpc hk
      exact acc_exact N M (N / M) hcpt hmul hNA _ _ hd2 sys hI i t col row k ht hpc hk
    · intro hd r c hr0 hr hc0 hc
      have hdot : dotProduct N (p.g.mem .MA) (p.g.mem .MB) r c = N * (c + 1) :=
        dotProduct_sample N r c (by omega) _ _
          (fun j hj0 hj => (hd2 r j hr0 hr hj0 hj).1)
          (fun j hj0 hj => (hd2 j c hj0 hj hc0 hc).2)
      have hle : N * (c + 1) ≤ N * N :=
        mul_le_mul (le_refl _) (by omega) (by omega) (by omega)
      have h0 : 0 ≤ N * (c + 1) := mul_nonneg (by omega) (by omega)
      have hcell := sys_dump_cells N M (N / M) hcpt hmul _ _ sys hI hd r c hr0 hr hc0 hc
      rw [hdot, wrap32_of_range _ (by unfold INT_MIN; omega) (by unfold INT_MAX; omega)]
        at hcell
      exact ⟨by rw [hcell, hdot], hcell, hle⟩

/-- Witness of C17: `N = 2`, `M = 2` on the sample state.  After `main` has created
worker 0 and the worker has executed four statements it is about to add the
second product of the cell `(0, 0)`; under the sample schedule `main` reaches
the result dump. -/
theorem main_no_overflow_witness :
    ∃ p, main_setup 2 2 exampleState = some (2 / 2, p) ∧
      (∃ sys t, Sys.run 2 2 (2 / 2) exampleSpawn [none, some 0, some 0, some 0, some 0]
          (Sys.init p.g) = some sys ∧
        sys.workers 0 = some t ∧ t.pc = .k_test 0 0 1 ∧
        sys.g.mem .MA 0 1 * sys.g.mem .MB 1 0 = 0 + 1 ∧
        sys.g.mem .MC 0 0 = 1 * (0 + 1) ∧
        (INT_MIN ≤ (1 + 1) * ((0 : Int) + 1) ∧ (1 + 1) * ((0 : Int) + 1) ≤ 2 * 2) ∧
        ∃ g1, multiply_acc t.pk.MA t.pk.MB t.pk.MC 0 0 1 sys.g = some g1 ∧
          g1.mem .MC 0 0 = sys.g.mem .MC 0 0 + sys.g.mem .MA 0 1 * sys.g.mem .MB 1 0) ∧
      (∃ sys, Sys.run 2 2 (2 / 2) exampleSpawn exampleSchedule (Sys.init p.g) = some sys ∧
        sys.main = .dump ∧
        ∀ r c, 0 ≤ r → r < 2 → 0 ≤ c → c < 2 →
          sys.g.mem .MC r c = dotProduct 2 (p.g.mem .MA) (p.g.mem .MB) r c ∧
          sys.g.mem .MC r c = 2 * (c + 1) ∧ 2 * (c + 1) ≤ 2 * 2) := by
  obtain ⟨_, _, p, hp, _, hrun⟩ := main_no_overflow 2 2 (by decide) (by decide) (by decide)
    (by decide) exampleSpawn exampleState
  have hs : (main_setup 2 2 exampleState).isSome = true := by rfl
  have hp0 : main_setup 2 2 exampleState =
      some (2 / 2, ((main_setup 2 2 exampleState).get hs).2) := by rfl
  rw [hp0] at hp
  cases hp
  have h1 : (Sys.run 2 2 (2 / 2) exampleSpawn [none, some 0, some 0, some 0, some 0]
      (Sys.init ((main_setup 2 2 exampleState).get hs).2.g)).isSome = true := by rfl
  have e1 := (Option.some_get h1).symm
  have h2 : (Sys.run 2 2 (2 / 2) exampleSpawn exampleSchedule
      (Sys.init ((main_setup 2 2 exampleState).get hs).2.g)).isSome = true := by rfl
  have e2 := (Option.some_get h2).symm
  refine ⟨_, hp0, ⟨_, _, e1, rfl, rfl, ?_⟩, ⟨_, e2, rfl, (hrun _ _ e2).2 rfl⟩⟩
  obtain ⟨a, b, _, _, c, d⟩ := (hrun _ _ e1).1 0 _ 0 0 1 rfl rfl (by decide)
  exact ⟨a, b, c, d⟩

end ThreadMatrix
